import Mathlib

/-!
# Verification of the GOGO-studio text-anchoring and highlight engine

This file gives a shallow embedding of the annotation engine of the
GOGO-studio browser extension: the DOM range splitter
(`getTextNodesInRange`), the highlight creation / removal / restoration
entry points (`highlightRange`, `removeHighlight`, `restoreHighlight`),
the location descriptors (`createTextQuote`, `generateXPath`), the shared
offset-to-text-node primitive (`findTextNodeAtOffset`), the rectangle
hit-tester (`findElementsInRect`) and the bounded restoration polling loop
(`tryRestoreWithRetry`), together with proofs of the specified properties.

The DOM is modelled as a tree of element and text nodes.  Node identity is
modelled by a numeric node id carried by every node (mirroring JavaScript
object identity of live DOM nodes); tree positions are modelled by child
index paths.  JavaScript strings are modelled as `List Char`.

DOM platform primitives used by the source (TreeWalker traversal,
`Range.toString`, `Range.intersectsNode`, boundary-point ordering,
`Node.textContent`, `Document.evaluate` on the restricted `/tag[i]/...`
paths produced by `generateXPath`, `Node.normalize`) are embedded
following their DOM-specification semantics, as noted at each definition.
-/

namespace GogoStudio

/-! ## Path order

Tree positions are child-index paths from the root.  Document order of
nodes, and the DOM ordering of boundary points, are both captured by
lexicographic order on paths: a boundary point `(container, offset)` is
keyed as `containerPath ++ [offset]`, and a node's own position is keyed
by its path (a proper prefix precedes all of its extensions, matching the
DOM rule that the position just before a node precedes every position
inside it). -/

/-- Lexicographic strict order on child-index paths ("before in document
order"); a proper prefix counts as strictly before its extensions. -/
def lexLt : List Nat → List Nat → Bool
  | [], [] => false
  | [], _ :: _ => true
  | _ :: _, [] => false
  | a :: as, b :: bs => a < b || (a == b && lexLt as bs)

/-- Boolean prefix test on paths. -/
def isPfx : List Nat → List Nat → Bool
  | [], _ => true
  | _ :: _, [] => false
  | a :: as, b :: bs => a == b && isPfx as bs

/-- Longest common starting segment of two paths (the path of the deepest
common ancestor of two nodes, DOM `Range.commonAncestorContainer`). -/
def commonAnc : List Nat → List Nat → List Nat
  | [], _ => []
  | _, [] => []
  | a :: as, b :: bs => if a = b then a :: commonAnc as bs else []

/-- Increment the last component of a path: the boundary key of the
position immediately after a node (DOM boundary point `(parent, i+1)`
for the node at child index `i` of `parent`). -/
def bumpLast : List Nat → List Nat
  | [] => []
  | [a] => [a + 1]
  | a :: as => a :: bumpLast as

@[simp] theorem lexLt_nil_cons (b : Nat) (bs : List Nat) :
    lexLt [] (b :: bs) = true := rfl

@[simp] theorem lexLt_nil_nil : lexLt [] [] = false := rfl

@[simp] theorem lexLt_cons_nil (a : Nat) (as : List Nat) :
    lexLt (a :: as) [] = false := rfl

theorem lexLt_cons_cons (a b : Nat) (as bs : List Nat) :
    lexLt (a :: as) (b :: bs) = (a < b || (a == b && lexLt as bs)) := rfl

theorem lexLt_irrefl : ∀ p : List Nat, lexLt p p = false
  | [] => rfl
  | _ :: as => by
      simp [lexLt_cons_cons, lexLt_irrefl as]

theorem lexLt_append (p q r : List Nat) (h : lexLt p q = true) :
    lexLt p (q ++ r) = true := by
  induction p generalizing q with
  | nil => cases q <;> cases r <;> simp_all [lexLt]
  | cons a as ih =>
    cases q with
    | nil => simp [lexLt] at h
    | cons b bs =>
      rw [List.cons_append, lexLt_cons_cons] at *
      rcases Bool.or_eq_true_iff.mp h with h1 | h1
      · exact Bool.or_eq_true_iff.mpr (Or.inl h1)
      · rcases Bool.and_eq_true_iff.mp h1 with ⟨he, hl⟩
        exact Bool.or_eq_true_iff.mpr (Or.inr (Bool.and_eq_true_iff.mpr ⟨he, ih bs hl⟩))

/-- A path is strictly before any of its proper extensions. -/
theorem lexLt_self_append (p : List Nat) (x : Nat) (xs : List Nat) :
    lexLt p (p ++ x :: xs) = true := by
  induction p with
  | nil => rfl
  | cons a as ih => simpa [lexLt_cons_cons] using ih

theorem lexLt_trans : ∀ p q r : List Nat,
    lexLt p q = true → lexLt q r = true → lexLt p r = true
  | [], _ :: _, _ :: _, _, _ => rfl
  | [], [], r, h, _ => by cases h
  | [], _ :: _, [], _, h => by cases h
  | _ :: _, [], _, h, _ => by cases h
  | _ :: _, _ :: _, [], _, h => by cases h
  | a :: as, b :: bs, c :: cs, h1, h2 => by
      rw [lexLt_cons_cons] at *
      rcases Bool.or_eq_true_iff.mp h1 with hab | hab
      · rcases Bool.or_eq_true_iff.mp h2 with hbc | hbc
        · refine Bool.or_eq_true_iff.mpr (Or.inl ?_)
          have hab' : a < b := by simpa using hab
          have hbc' : b < c := by simpa using hbc
          simpa using Nat.lt_trans hab' hbc'
        · rcases Bool.and_eq_true_iff.mp hbc with ⟨he, _⟩
          have hbceq : b = c := by simpa using he
          exact Bool.or_eq_true_iff.mpr (Or.inl (hbceq ▸ hab))
      · rcases Bool.and_eq_true_iff.mp hab with ⟨he, hl⟩
        have habeq : a = b := by simpa using he
        rcases Bool.or_eq_true_iff.mp h2 with hbc | hbc
        · exact Bool.or_eq_true_iff.mpr (Or.inl (habeq ▸ hbc))
        · rcases Bool.and_eq_true_iff.mp hbc with ⟨he2, hl2⟩
          have hbceq : b = c := by simpa using he2
          exact Bool.or_eq_true_iff.mpr (Or.inr (Bool.and_eq_true_iff.mpr
            ⟨by simp [habeq, hbceq], lexLt_trans as bs cs hl hl2⟩))

/-- Two paths are either equal, one strictly before the other. -/
theorem lexLt_total : ∀ p q : List Nat,
    p = q ∨ lexLt p q = true ∨ lexLt q p = true
  | [], [] => Or.inl rfl
  | [], _ :: _ => Or.inr (Or.inl rfl)
  | _ :: _, [] => Or.inr (Or.inr rfl)
  | a :: as, b :: bs => by
      rcases Nat.lt_trichotomy a b with h | h | h
      · exact Or.inr (Or.inl (by simp [lexLt_cons_cons, h]))
      · subst h
        rcases lexLt_total as bs with h' | h' | h'
        · exact Or.inl (by rw [h'])
        · exact Or.inr (Or.inl (by simp [lexLt_cons_cons, h']))
        · exact Or.inr (Or.inr (by simp [lexLt_cons_cons, h']))
      · exact Or.inr (Or.inr (by simp [lexLt_cons_cons, h]))

/-! ## DOM tree model

`DNode` models a DOM node: either a `Text` node carrying its character
data, or an `Element` node carrying a tag name, attributes and children.
Every node carries a numeric node id modelling JavaScript object identity
of live DOM nodes (ids play no role in pure traversals; they matter for
the mutation model, where the source code holds node references across
DOM mutations). -/

inductive DNode where
  | text (nid : Nat) (s : List Char)
  | elem (nid : Nat) (tag : String) (attrs : List (String × String)) (children : List DNode)
  deriving Repr

namespace DNode

/-- Navigate a child-index path from a node (none if the path leaves the
tree). -/
def nodeAt (d : DNode) : List Nat → Option DNode
  | [] => some d
  | i :: p =>
    match d with
    | .text _ _ => none
    | .elem _ _ _ cs =>
      match cs[i]? with
      | some c => c.nodeAt p
      | none => none

mutual

/-- All text nodes in the subtree of a node, in document (preorder)
order, as `(path, data)` pairs; `p` is the path of the subtree root.
This is the node sequence a DOM `TreeWalker` with `SHOW_TEXT` visits. -/
def flatTexts : List Nat → DNode → List (List Nat × List Char)
  | p, .text _ s => [(p, s)]
  | p, .elem _ _ _ cs => flatTextsL p 0 cs

/-- Text nodes of a child list, children numbered from `i`. -/
def flatTextsL : List Nat → Nat → List DNode → List (List Nat × List Char)
  | _, _, [] => []
  | p, i, c :: cs => flatTexts (p ++ [i]) c ++ flatTextsL p (i + 1) cs

end

mutual

/-- DOM `Node.textContent`: concatenated data of all descendant text
nodes (the node's own data for a text node). -/
def textContent : DNode → List Char
  | .text _ s => s
  | .elem _ _ _ cs => textContentL cs

def textContentL : List DNode → List Char
  | [] => []
  | c :: cs => textContent c ++ textContentL cs

end

end DNode

/-- Global text offsets: pair each flattened text node with the total
text length preceding it (starting from `base`). -/
def annotate (base : Nat) : List (List Nat × List Char) → List (List Nat × Nat × List Char)
  | [] => []
  | (p, s) :: rest => (p, base, s) :: annotate (base + s.length) rest

namespace DNode

mutual

theorem textContent_eq_flat (d : DNode) (p : List Nat) :
    textContent d = ((flatTexts p d).map (·.2)).flatten := by
  cases d with
  | text nid s => simp [textContent, flatTexts]
  | elem nid tag attrs cs =>
    rw [textContent, flatTexts]
    exact textContentL_eq_flat cs p 0

theorem textContentL_eq_flat (cs : List DNode) (p : List Nat) (i : Nat) :
    textContentL cs = ((flatTextsL p i cs).map (·.2)).flatten := by
  cases cs with
  | nil => simp [textContentL, flatTextsL]
  | cons c cs' =>
    rw [textContentL, flatTextsL]
    simp only [List.map_append, List.flatten_append]
    rw [textContent_eq_flat c (p ++ [i]), textContentL_eq_flat cs' p (i + 1)]

end

mutual

/-- Every text-node path produced under root path `p` extends `p`. -/
theorem flatTexts_pfx (p : List Nat) (d : DNode) :
    ∀ e ∈ flatTexts p d, ∃ r, e.1 = p ++ r := by
  cases d with
  | text nid s =>
    intro e he
    simp only [flatTexts, List.mem_singleton] at he
    exact ⟨[], by simp [he]⟩
  | elem nid tag attrs cs =>
    rw [flatTexts]
    intro e he
    obtain ⟨k, r, _, hr⟩ := flatTextsL_pfx p 0 cs e he
    exact ⟨k :: r, hr⟩

theorem flatTextsL_pfx (p : List Nat) (i : Nat) (cs : List DNode) :
    ∀ e ∈ flatTextsL p i cs, ∃ k r, i ≤ k ∧ e.1 = p ++ k :: r := by
  cases cs with
  | nil => intro e he; simp [flatTextsL] at he
  | cons c cs' =>
    intro e he
    rw [flatTextsL, List.mem_append] at he
    rcases he with he | he
    · obtain ⟨r, hr⟩ := flatTexts_pfx (p ++ [i]) c e he
      exact ⟨i, r, le_refl i, by simpa using hr⟩
    · obtain ⟨k, r, hk, hr⟩ := flatTextsL_pfx p (i + 1) cs' e he
      exact ⟨k, r, Nat.le_of_succ_le hk, hr⟩

end

theorem lexLt_append_lt (p : List Nat) (i j : Nat) (r1 r2 : List Nat) (h : i < j) :
    lexLt (p ++ i :: r1) (p ++ j :: r2) = true := by
  induction p with
  | nil => simp [lexLt_cons_cons, h]
  | cons a as ih => simpa [lexLt_cons_cons] using ih

mutual

/-- Text nodes are flattened in strictly increasing document order. -/
theorem flatTexts_sorted (p : List Nat) (d : DNode) :
    List.Pairwise (fun a b => lexLt a.1 b.1 = true) (flatTexts p d) := by
  cases d with
  | text nid s => simp [flatTexts]
  | elem nid tag attrs cs =>
    rw [flatTexts]
    exact flatTextsL_sorted p 0 cs

theorem flatTextsL_sorted (p : List Nat) (i : Nat) (cs : List DNode) :
    List.Pairwise (fun a b => lexLt a.1 b.1 = true) (flatTextsL p i cs) := by
  cases cs with
  | nil => simp [flatTextsL]
  | cons c cs' =>
    rw [flatTextsL, List.pairwise_append]
    refine ⟨flatTexts_sorted (p ++ [i]) c, flatTextsL_sorted p (i + 1) cs', ?_⟩
    intro a ha b hb
    obtain ⟨r1, hr1⟩ := flatTexts_pfx (p ++ [i]) c a ha
    obtain ⟨k, r2, hk, hr2⟩ := flatTextsL_pfx p (i + 1) cs' b hb
    have ha1 : a.1 = p ++ i :: r1 := by simpa using hr1
    rw [ha1, hr2]
    exact lexLt_append_lt p i k r1 r2 hk

end

end DNode

/-! ## Ranges

A DOM `Range` whose boundary containers are text nodes: the containers
are identified by their paths in the document tree and the offsets are
character offsets.  (User selections and all ranges the engine
reconstructs have text-node containers.)  The DOM boundary point
`(container, offset)` is keyed as `container ++ [offset]`; DOM boundary
ordering is `lexLt` on keys. -/

structure Rng where
  sPath : List Nat
  sOff : Nat
  ePath : List Nat
  eOff : Nat
  deriving Repr

/-- Boundary key of the range start. -/
def Rng.sKey (r : Rng) : List Nat := r.sPath ++ [r.sOff]

/-- Boundary key of the range end. -/
def Rng.eKey (r : Rng) : List Nat := r.ePath ++ [r.eOff]

/-- DOM `Range.collapsed`. -/
def Rng.collapsed (r : Rng) : Bool := r.sPath == r.ePath && r.sOff == r.eOff

/-- The range is well formed in `root`: both containers are text nodes,
offsets are within their data, and the start boundary is not after the
end boundary. -/
def validRange (root : DNode) (r : Rng) : Prop :=
  (∃ nid s, root.nodeAt r.sPath = some (.text nid s) ∧ r.sOff ≤ s.length) ∧
  (∃ nid s, root.nodeAt r.ePath = some (.text nid s) ∧ r.eOff ≤ s.length) ∧
  (r.sKey = r.eKey ∨ lexLt r.sKey r.eKey = true)

/-- DOM `Range.intersectsNode` for the text node at path `p` (whose
parent boundary keys are `p` itself and `bumpLast p`): the node starts
before the range end and the range starts before the node end. -/
def intersectsNode (r : Rng) (p : List Nat) : Bool :=
  lexLt p r.eKey && lexLt r.sKey (bumpLast p)

/-- `getTextNodesInRange` (highlighter core, `src/unnamed/part_000`
lines 117–165): walks all text nodes under
`range.commonAncestorContainer` with a `TreeWalker` (= the text-node
descendants of the common ancestor, its own node excluded, in document
order), keeps those intersecting the range, clips offsets at the range's
own start/end containers (full node extent otherwise), and drops
empty-length results. -/
def getTextNodesInRange (root : DNode) (r : Rng) : List (List Nat × Nat × Nat) :=
  let ca := commonAnc r.sPath r.ePath
  ((DNode.flatTexts [] root).filter (fun e => isPfx ca e.1 && e.1 != ca)).filterMap
    (fun e =>
      if intersectsNode r e.1 then
        let so := if e.1 = r.sPath then r.sOff else 0
        let eo := if e.1 = r.ePath then r.eOff else e.2.length
        if so < eo then some (e.1, so, eo) else none
      else none)

/-- The document's full text (concatenated text-node data in document
order; equals `textContent` of the root). -/
def docText (root : DNode) : List Char := ((DNode.flatTexts [] root).map (·.2)).flatten

/-- Global character offset of the boundary point `(p, off)` (text
length strictly before the text node at `p`, plus `off`). -/
def gpos (root : DNode) (p : List Nat) (off : Nat) : Nat :=
  match (annotate 0 (DNode.flatTexts [] root)).find? (fun e => e.1 == p) with
  | some e => e.2.1 + off
  | none => off

/-- DOM `Range.toString` for a range with text-node containers: the
slice of the document's concatenated text between the two global
boundary offsets. -/
def rangeToString (root : DNode) (r : Rng) : List Char :=
  ((docText root).take (gpos root r.ePath r.eOff)).drop (gpos root r.sPath r.sOff)

/-- The character data of the text node at path `p` (empty if `p` is not
a text node). -/
def textDataAt (root : DNode) (p : List Nat) : List Char :=
  match root.nodeAt p with
  | some (.text _ s) => s
  | _ => []

/-! ### Annotated flatten infrastructure -/

theorem annotate_map_fst (base : Nat) (l : List (List Nat × List Char)) :
    (annotate base l).map (·.1) = l.map (·.1) := by
  induction l generalizing base with
  | nil => rfl
  | cons e rest ih => cases e; simp [annotate, ih]

theorem annotate_proj (base : Nat) (l : List (List Nat × List Char)) :
    ∀ e ∈ annotate base l, (e.1, e.2.2) ∈ l := by
  induction l generalizing base with
  | nil => intro e he; simp [annotate] at he
  | cons x rest ih =>
    intro e he
    cases x with
    | mk xp xs =>
      rw [annotate, List.mem_cons] at he
      rcases he with he | he
      · subst he; simp
      · exact List.mem_cons_of_mem _ (ih _ e he)

theorem annotate_base_le (base : Nat) (l : List (List Nat × List Char)) :
    ∀ e ∈ annotate base l, base ≤ e.2.1 := by
  induction l generalizing base with
  | nil => intro e he; simp [annotate] at he
  | cons x rest ih =>
    intro e he
    cases x with
    | mk xp xs =>
      rw [annotate, List.mem_cons] at he
      rcases he with he | he
      · subst he; simp
      · exact le_trans (Nat.le_add_right _ _) (ih (base + xs.length) e he)

/-- In the annotated flatten, an earlier node's end offset is at most a
later node's start offset. -/
theorem annotate_pairwise_le (base : Nat) (l : List (List Nat × List Char)) :
    List.Pairwise (fun a b => a.2.1 + a.2.2.length ≤ b.2.1) (annotate base l) := by
  induction l generalizing base with
  | nil => simp [annotate]
  | cons x rest ih =>
    cases x with
    | mk xp xs =>
      rw [annotate, List.pairwise_cons]
      exact ⟨fun b hb => annotate_base_le _ _ b hb, ih _⟩

theorem annotate_pairwise_lex (base : Nat) (l : List (List Nat × List Char))
    (h : List.Pairwise (fun a b => lexLt a.1 b.1 = true) l) :
    List.Pairwise (fun a b => lexLt a.1 b.1 = true) (annotate base l) := by
  have h1 : List.Pairwise (fun a b => lexLt a b = true) ((annotate base l).map (·.1)) := by
    rw [annotate_map_fst]
    exact (List.pairwise_map).mpr h
  exact (List.pairwise_map).mp h1

namespace DNode

theorem flatTextsL_mem_of_get (p : List Nat) (j : Nat) (cs : List DNode) (i : Nat)
    (c : DNode) (hc : cs[i]? = some c) :
    ∀ e ∈ flatTexts (p ++ [j + i]) c, e ∈ flatTextsL p j cs := by
  induction cs generalizing i j with
  | nil => intro e he; simp at hc
  | cons c0 cs' ih =>
    intro e he
    cases i with
    | zero =>
      simp only [List.getElem?_cons_zero, Option.some.injEq] at hc
      subst hc
      rw [flatTextsL, List.mem_append]
      exact Or.inl (by simpa using he)
    | succ i' =>
      simp only [List.getElem?_cons_succ] at hc
      rw [flatTextsL, List.mem_append]
      refine Or.inr (ih (j + 1) i' hc e ?_)
      have : j + 1 + i' = j + (i' + 1) := by omega
      rw [this]
      exact he

/-- A text node reachable by `nodeAt` appears in the flatten with the
same data. -/
theorem mem_flatTexts_of_nodeAt (d : DNode) (q : List Nat) (p : List Nat)
    (nid : Nat) (s : List Char) (h : d.nodeAt q = some (.text nid s)) :
    (p ++ q, s) ∈ flatTexts p d := by
  induction q generalizing d p with
  | nil =>
    rw [nodeAt] at h
    cases h
    simp [flatTexts]
  | cons i q' ih =>
    cases d with
    | text _ _ => simp [nodeAt] at h
    | elem nid' tag attrs cs =>
      rw [nodeAt] at h
      cases hc : cs[i]? with
      | none => rw [hc] at h; simp at h
      | some c =>
        rw [hc] at h
        have hmem := ih c (p ++ [i]) h
        rw [flatTexts]
        have := flatTextsL_mem_of_get p 0 cs i c (by simpa using hc)
          (p ++ [i] ++ q', s)
        simp only [Nat.zero_add] at this
        have happ : p ++ [i] ++ q' = p ++ i :: q' := by simp
        rw [happ] at this
        exact this (by simpa [happ] using hmem)

theorem nodeAt_append (d : DNode) (p q : List Nat) :
    d.nodeAt (p ++ q) = (d.nodeAt p).bind (fun n => n.nodeAt q) := by
  induction p generalizing d with
  | nil => simp [nodeAt]
  | cons i p' ih =>
    cases d with
    | text _ _ => simp [nodeAt]
    | elem nid tag attrs cs =>
      rw [List.cons_append, nodeAt, nodeAt]
      cases hc : cs[i]? with
      | none => simp
      | some c => simpa using ih c

mutual

/-- Converse of `mem_flatTexts_of_nodeAt`: flattened entries are
reachable text nodes. -/
theorem nodeAt_of_mem_flatTexts (p : List Nat) (d : DNode) :
    ∀ e ∈ flatTexts p d, ∃ q nid, e.1 = p ++ q ∧ d.nodeAt q = some (.text nid e.2) := by
  cases d with
  | text nid s =>
    intro e he
    simp only [flatTexts, List.mem_singleton] at he
    subst he
    exact ⟨[], nid, by simp, rfl⟩
  | elem nid tag attrs cs =>
    rw [flatTexts]
    intro e he
    obtain ⟨k, q, nid', hik, hq, hnode⟩ := nodeAtL_of_mem_flatTextsL p 0 cs e he
    refine ⟨k :: q, nid', hq, ?_⟩
    rw [nodeAt]
    simp only [Nat.sub_zero] at hnode
    obtain ⟨c, hc, hcn⟩ := hnode
    rw [hc]
    exact hcn

theorem nodeAtL_of_mem_flatTextsL (p : List Nat) (i : Nat) (cs : List DNode) :
    ∀ e ∈ flatTextsL p i cs, ∃ k q nid, i ≤ k ∧ e.1 = p ++ k :: q ∧
      ∃ c, cs[k - i]? = some c ∧ c.nodeAt q = some (.text nid e.2) := by
  cases cs with
  | nil => intro e he; simp [flatTextsL] at he
  | cons c0 cs' =>
    intro e he
    rw [flatTextsL, List.mem_append] at he
    rcases he with he | he
    · obtain ⟨q, nid, hq, hnode⟩ := nodeAt_of_mem_flatTexts (p ++ [i]) c0 e he
      exact ⟨i, q, nid, le_refl i, by simpa using hq,
        c0, by simp, hnode⟩
    · obtain ⟨k, q, nid, hik, hq, c, hc, hcn⟩ := nodeAtL_of_mem_flatTextsL p (i + 1) cs' e he
      refine ⟨k, q, nid, Nat.le_of_succ_le hik, hq, c, ?_, hcn⟩
      have h1 : k - i = (k - (i + 1)) + 1 := by omega
      rw [h1]
      simpa using hc

end

end DNode

theorem isPfx_iff (p q : List Nat) : isPfx p q = true ↔ ∃ r, q = p ++ r := by
  induction p generalizing q with
  | nil => simp [isPfx]
  | cons a as ih =>
    cases q with
    | nil => simp [isPfx]
    | cons b bs =>
      simp only [isPfx, Bool.and_eq_true, beq_iff_eq, ih, List.cons_append,
        List.cons.injEq]
      constructor
      · rintro ⟨hab, r, hr⟩; exact ⟨r, hab.symm, hr⟩
      · rintro ⟨r, hab, hr⟩; exact ⟨hab.symm, r, hr⟩

/-- A (weak) extension is never strictly before the base path. -/
theorem lexLt_append_self (p l : List Nat) : lexLt (p ++ l) p = false := by
  induction p with
  | nil => cases l <;> rfl
  | cons a as ih => simp [lexLt_cons_cons, ih]

/-- When the strictly-smaller path is not a prefix of the larger one,
the comparison is decided at a proper difference, so appending anything
to the smaller path preserves the order. -/
theorem lexLt_append_left_not_pfx (q p l : List Nat)
    (hlt : lexLt q p = true) (hpfx : isPfx q p = false) :
    lexLt (q ++ l) p = true := by
  induction q generalizing p with
  | nil => simp [isPfx] at hpfx
  | cons a as ih =>
    cases p with
    | nil => simp at hlt
    | cons b bs =>
      rw [lexLt_cons_cons] at hlt
      simp only [isPfx, Bool.and_eq_false_iff] at hpfx
      rw [List.cons_append, lexLt_cons_cons]
      rcases Bool.or_eq_true_iff.mp hlt with h | h
      · exact Bool.or_eq_true_iff.mpr (Or.inl h)
      · rcases Bool.and_eq_true_iff.mp h with ⟨he, hl⟩
        rcases hpfx with hpfx | hpfx
        · rw [he] at hpfx; simp at hpfx
        · exact Bool.or_eq_true_iff.mpr
            (Or.inr (Bool.and_eq_true_iff.mpr ⟨he, ih bs hl hpfx⟩))

theorem lexLt_nil_right (q : List Nat) : lexLt q [] = false := by
  cases q <;> rfl

/-- Comparing a path against the start-boundary key of a text node at
path `e` (text paths: no proper prefixes among them). -/
theorem key_left_iff (n e : List Nat) (x : Nat)
    (h1 : isPfx n e = true → n = e) (h2 : isPfx e n = true → n = e) :
    (lexLt n (e ++ [x]) = true) ↔ (n = e ∨ lexLt n e = true) := by
  induction n generalizing e with
  | nil =>
    have : ([] : List Nat) = e := h1 (by simp [isPfx])
    subst this
    simp
  | cons a as ih =>
    cases e with
    | nil =>
      have : (a :: as) = [] := h2 (by simp [isPfx])
      simp at this
    | cons b bs =>
      by_cases hab : a = b
      · subst hab
        have h1' : isPfx as bs = true → as = bs := by
          intro h
          have := h1 (by simp [isPfx, h])
          simpa using this
        have h2' : isPfx bs as = true → as = bs := by
          intro h
          have := h2 (by simp [isPfx, h])
          simpa using this
        rw [List.cons_append, lexLt_cons_cons, lexLt_cons_cons]
        simp only [Bool.or_eq_true, Bool.and_eq_true, decide_eq_true_eq,
          beq_iff_eq, lt_self_iff_false, false_or, List.cons.injEq, true_and,
          eq_self_iff_true]
        exact ih bs h1' h2'
      · rw [List.cons_append, lexLt_cons_cons, lexLt_cons_cons]
        have hb : (a == b) = false := by simpa using hab
        simp [hb, hab]

/-- Comparing the start-boundary key of a text node at path `s` against
the end boundary `bumpLast n` of a text node at path `n`. -/
theorem bump_key_iff (s n : List Nat) (x : Nat) (hn : n ≠ [])
    (h1 : isPfx s n = true → s = n) (h2 : isPfx n s = true → s = n) :
    (lexLt (s ++ [x]) (bumpLast n) = true) ↔ (s = n ∨ lexLt s n = true) := by
  induction s generalizing n with
  | nil =>
    have : ([] : List Nat) = n := h1 (by simp [isPfx])
    exact absurd this.symm hn
  | cons a as ih =>
    cases n with
    | nil => exact absurd rfl hn
    | cons b bs =>
      cases bs with
      | nil =>
        have h2' : a = b → as = [] := by
          intro hab
          have h := h2 (by simp [isPfx, hab])
          have h3 : a = b ∧ as = [] := by simpa using h
          exact h3.2
        have hb1 : bumpLast [b] = [b + 1] := rfl
        rw [hb1, List.cons_append, lexLt_cons_cons, lexLt_cons_cons]
        simp only [lexLt_nil_right, Bool.and_false, Bool.or_false,
          decide_eq_true_eq, List.cons.injEq, Bool.or_eq_true,
          Bool.and_eq_true, beq_iff_eq, and_false]
        constructor
        · intro h
          rcases Nat.lt_or_ge a b with h' | h'
          · exact Or.inr h'
          · have hab : a = b := by omega
            exact Or.inl ⟨hab, h2' hab⟩
        · rintro (⟨hab, -⟩ | h) <;> omega
      | cons b2 bs2 =>
        have hbump : bumpLast (b :: b2 :: bs2) = b :: bumpLast (b2 :: bs2) := rfl
        rw [hbump, List.cons_append, lexLt_cons_cons, lexLt_cons_cons]
        by_cases hab : a = b
        · subst hab
          have h1' : isPfx as (b2 :: bs2) = true → as = b2 :: bs2 := by
            intro h
            have := h1 (by simp [isPfx, h])
            simpa using this
          have h2' : isPfx (b2 :: bs2) as = true → as = b2 :: bs2 := by
            intro h
            have := h2 (by simp [isPfx, h])
            simpa using this
          simp only [Bool.or_eq_true, Bool.and_eq_true, decide_eq_true_eq,
            beq_iff_eq, lt_self_iff_false, false_or, List.cons.injEq, true_and,
            eq_self_iff_true]
          exact ih (b2 :: bs2) (by simp) h1' h2'
        · have hb : (a == b) = false := by simpa using hab
          simp [hb, hab]

/-- If the boundary key of `(p, x)` is before the boundary key of
`(q, y)` and `p ≠ q` (text paths), then `p` is before `q`. -/
theorem lex_of_keys (p q : List Nat) (x y : Nat)
    (h2 : isPfx q p = true → p = q)
    (hlt : lexLt (p ++ [x]) (q ++ [y]) = true) (hne : p ≠ q) :
    lexLt p q = true := by
  rcases lexLt_total p q with h | h | h
  · exact absurd h hne
  · exact h
  · exfalso
    have hpfx : isPfx q p = false := by
      cases hq : isPfx q p
      · rfl
      · exact absurd (h2 hq) hne
    have h3 : lexLt (q ++ [y]) p = true := lexLt_append_left_not_pfx q p [y] h hpfx
    have h4 : lexLt (q ++ [y]) (p ++ [x]) = true :=
      lexLt_append (q ++ [y]) p [x] h3
    have h5 : lexLt (p ++ [x]) (p ++ [x]) = true :=
      lexLt_trans _ _ _ hlt h4
    rw [lexLt_irrefl] at h5
    exact Bool.false_ne_true h5

theorem commonAnc_pfx_left (p q : List Nat) : isPfx (commonAnc p q) p = true := by
  induction p generalizing q with
  | nil => cases q <;> simp [commonAnc, isPfx]
  | cons a as ih =>
    cases q with
    | nil => simp [commonAnc, isPfx]
    | cons b bs =>
      rw [commonAnc]
      by_cases hab : a = b
      · simp only [hab, if_pos rfl, isPfx]
        subst hab
        simp [ih bs]
      · simp [hab, isPfx]

theorem commonAnc_comm (p q : List Nat) : commonAnc p q = commonAnc q p := by
  induction p generalizing q with
  | nil => cases q <;> simp [commonAnc]
  | cons a as ih =>
    cases q with
    | nil => simp [commonAnc]
    | cons b bs =>
      rw [commonAnc, commonAnc]
      by_cases hab : a = b
      · subst hab; simp [ih bs]
      · simp [hab, Ne.symm hab]

theorem commonAnc_pfx_right (p q : List Nat) : isPfx (commonAnc p q) q = true := by
  rw [commonAnc_comm]; exact commonAnc_pfx_left q p

theorem commonAnc_eq_left_iff (p q : List Nat) :
    commonAnc p q = p ↔ isPfx p q = true := by
  induction p generalizing q with
  | nil => simp [commonAnc, isPfx]
  | cons a as ih =>
    cases q with
    | nil => simp [commonAnc, isPfx]
    | cons b bs =>
      rw [commonAnc]
      by_cases hab : a = b
      · subst hab
        rw [if_pos rfl]
        simp only [List.cons.injEq, true_and, isPfx, beq_self_eq_true,
          Bool.true_and]
        exact ih bs
      · rw [if_neg hab]
        have hb : (a == b) = false := by simpa using hab
        simp [isPfx, hb]

/-- A path lying (weakly) between two paths in document order extends
their common ancestor. -/
theorem commonAnc_pfx_between (s e p : List Nat)
    (hs : s = p ∨ lexLt s p = true) (he : p = e ∨ lexLt p e = true) :
    isPfx (commonAnc s e) p = true := by
  induction s generalizing e p with
  | nil => cases e <;> simp [commonAnc, isPfx]
  | cons a as ih =>
    cases e with
    | nil => simp [commonAnc, isPfx]
    | cons b bs =>
      rw [commonAnc]
      by_cases hab : a = b
      · subst hab
        simp only [if_pos rfl]
        cases p with
        | nil =>
          rcases hs with hs | hs
          · simp at hs
          · simp at hs
        | cons c cs =>
          have hac : a = c := by
            rcases hs with hs | hs
            · exact (List.cons_eq_cons.mp hs).1
            · rcases he with he | he
              · exact ((List.cons_eq_cons.mp he).1).symm
              · rw [lexLt_cons_cons] at hs he
                rcases Bool.or_eq_true_iff.mp hs with h | h
                · rcases Bool.or_eq_true_iff.mp he with h' | h'
                  · have hlt1 : a < c := by simpa using h
                    have hlt2 : c < a := by simpa using h'
                    omega
                  · have hlt1 : a < c := by simpa using h
                    have heq : c = a := by
                      have := (Bool.and_eq_true_iff.mp h').1
                      simpa using this
                    omega
                · have heq : a = c := by
                    have := (Bool.and_eq_true_iff.mp h).1
                    simpa using this
                  exact heq
          subst hac
          simp only [isPfx, beq_self_eq_true, Bool.true_and]
          refine ih bs cs ?_ ?_
          · rcases hs with hs | hs
            · exact Or.inl (by simpa using hs)
            · rw [lexLt_cons_cons] at hs
              rcases Bool.or_eq_true_iff.mp hs with h | h
              · simp at h
              · exact Or.inr (Bool.and_eq_true_iff.mp h).2
          · rcases he with he | he
            · exact Or.inl (by simpa using he)
            · rw [lexLt_cons_cons] at he
              rcases Bool.or_eq_true_iff.mp he with h | h
              · simp at h
              · exact Or.inr (Bool.and_eq_true_iff.mp h).2
      · simp [hab, isPfx]

namespace DNode

/-- Text-node paths form an antichain under the prefix order: a text
node cannot be an ancestor of another node. -/
theorem flat_antichain (root : DNode) {p q : List Nat} {s t : List Char}
    (hp : (p, s) ∈ flatTexts [] root) (hq : (q, t) ∈ flatTexts [] root)
    (hpfx : isPfx p q = true) : p = q := by
  obtain ⟨p', nidp, hp1, hp2⟩ := nodeAt_of_mem_flatTexts [] root (p, s) hp
  obtain ⟨q', nidq, hq1, hq2⟩ := nodeAt_of_mem_flatTexts [] root (q, t) hq
  simp only [List.nil_append] at hp1 hq1
  rw [← hp1] at hp2
  rw [← hq1] at hq2
  obtain ⟨rest, hrest⟩ := (isPfx_iff p q).mp hpfx
  rw [hrest, nodeAt_append, hp2] at hq2
  cases rest with
  | nil => rw [hrest]; simp
  | cons x xs => simp [DNode.nodeAt] at hq2

end DNode

/-- Boolean well-formedness of a range (see `validRange`), suitable for
`decide` on concrete inputs. -/
def validRangeB (root : DNode) (r : Rng) : Bool :=
  (match root.nodeAt r.sPath with
   | some (.text _ s) => decide (r.sOff ≤ s.length)
   | _ => false) &&
  (match root.nodeAt r.ePath with
   | some (.text _ s) => decide (r.eOff ≤ s.length)
   | _ => false) &&
  (r.sKey == r.eKey || lexLt r.sKey r.eKey)

theorem validRangeB_iff (root : DNode) (r : Rng) :
    validRangeB root r = true ↔ validRange root r := by
  unfold validRangeB validRange
  rw [Bool.and_eq_true, Bool.and_eq_true, Bool.or_eq_true]
  constructor
  · rintro ⟨⟨h1, h2⟩, h3⟩
    refine ⟨?_, ?_, ?_⟩
    · cases hs : root.nodeAt r.sPath with
      | none => rw [hs] at h1; simp at h1
      | some n =>
        cases n with
        | text nid s =>
          rw [hs] at h1
          exact ⟨nid, s, rfl, by simpa using h1⟩
        | elem nid tag attrs cs => rw [hs] at h1; simp at h1
    · cases hs : root.nodeAt r.ePath with
      | none => rw [hs] at h2; simp at h2
      | some n =>
        cases n with
        | text nid s =>
          rw [hs] at h2
          exact ⟨nid, s, rfl, by simpa using h2⟩
        | elem nid tag attrs cs => rw [hs] at h2; simp at h2
    · rcases h3 with h3 | h3
      · exact Or.inl (by simpa using h3)
      · exact Or.inr h3
  · rintro ⟨⟨nid1, s1, hs1, hle1⟩, ⟨nid2, s2, hs2, hle2⟩, h3⟩
    refine ⟨⟨?_, ?_⟩, ?_⟩
    · rw [hs1]; simpa using hle1
    · rw [hs2]; simpa using hle2
    · rcases h3 with h3 | h3
      · exact Or.inl (by simpa using h3)
      · exact Or.inr h3

/-- Global clipping of a text node (start offset `o`, data `s`) to the
global interval `[gs, ge)`; `none` when the clipped piece is empty. -/
def clipG (gs ge o : Nat) (s : List Char) : Option (Nat × Nat) :=
  if max gs o < min ge (o + s.length) then
    some (max gs o - o, min ge (o + s.length) - o)
  else none

theorem filterMap_filter_eq {α β : Type _} (p : α → Bool) (f : α → Option β)
    (l : List α) :
    (l.filter p).filterMap f = l.filterMap (fun a => if p a then f a else none) := by
  induction l with
  | nil => rfl
  | cons x xs ih =>
    by_cases hx : p x
    · rw [List.filter_cons_of_pos hx, List.filterMap_cons, List.filterMap_cons]
      simp only [hx, if_true]
      cases f x <;> simp [ih]
    · rw [List.filter_cons_of_neg hx, List.filterMap_cons]
      simp [hx, ih]

theorem filterMap_congr_mem {α β : Type _} {f g : α → Option β} {l : List α}
    (h : ∀ a ∈ l, f a = g a) : l.filterMap f = l.filterMap g := by
  induction l with
  | nil => rfl
  | cons x xs ih =>
    rw [List.filterMap_cons, List.filterMap_cons, h x (by simp),
      ih (fun a ha => h a (List.mem_cons_of_mem _ ha))]

/-- Membership in `annotate` from membership in the base list. -/
theorem exists_mem_annotate (base : Nat) (l : List (List Nat × List Char))
    {p : List Nat} {s : List Char} (h : (p, s) ∈ l) :
    ∃ o, (p, o, s) ∈ annotate base l := by
  induction l generalizing base with
  | nil => simp at h
  | cons x rest ih =>
    cases x with
    | mk xp xs =>
      rcases List.mem_cons.mp h with h | h
      · rw [Prod.mk.injEq] at h
        exact ⟨base, by simp [annotate, h.1, h.2]⟩
      · obtain ⟨o, ho⟩ := ih (base + xs.length) h
        exact ⟨o, List.mem_cons_of_mem _ ho⟩

theorem annotate_unzip (base : Nat) (l : List (List Nat × List Char)) :
    (annotate base l).map (fun e => (e.1, e.2.2)) = l := by
  induction l generalizing base with
  | nil => rfl
  | cons x rest ih => cases x; simp [annotate, ih]

theorem append_singleton_inj {p q : List Nat} {x y : Nat}
    (h : p ++ [x] = q ++ [y]) : p = q ∧ x = y := by
  have h' := congrArg List.reverse h
  simp only [List.reverse_append, List.reverse_cons, List.reverse_nil,
    List.nil_append, List.singleton_append, List.cons.injEq,
    List.reverse_inj] at h'
  exact ⟨h'.2, h'.1⟩

/-- Orient two members of the annotated flatten: document order implies
global-offset order. -/
theorem annotate_rel_of_lex (root : DNode) {a b : List Nat × Nat × List Char}
    (ha : a ∈ annotate 0 (DNode.flatTexts [] root))
    (hb : b ∈ annotate 0 (DNode.flatTexts [] root))
    (hab : lexLt a.1 b.1 = true) :
    a.2.1 + a.2.2.length ≤ b.2.1 := by
  have hlex : List.Pairwise (fun x y => lexLt x.1 y.1 = true)
      (annotate 0 (DNode.flatTexts [] root)) :=
    annotate_pairwise_lex _ _ (DNode.flatTexts_sorted [] root)
  have hle : List.Pairwise (fun x y => x.2.1 + x.2.2.length ≤ y.2.1)
      (annotate 0 (DNode.flatTexts [] root)) :=
    annotate_pairwise_le _ _
  obtain ⟨i, hi, hia⟩ := List.getElem_of_mem ha
  obtain ⟨j, hj, hjb⟩ := List.getElem_of_mem hb
  rcases Nat.lt_trichotomy i j with h | h | h
  · have := List.pairwise_iff_getElem.mp hle i j hi hj h
    rw [hia, hjb] at this
    exact this
  · subst h
    rw [hia] at hjb
    rw [hjb] at hab
    rw [lexLt_irrefl] at hab
    exact absurd hab (by simp)
  · have := List.pairwise_iff_getElem.mp hlex j i hj hi h
    rw [hia, hjb] at this
    have h2 := lexLt_trans _ _ _ hab this
    rw [lexLt_irrefl] at h2
    exact absurd h2 (by simp)

/-- Two members of the annotated flatten with the same path coincide. -/
theorem annotate_eq_of_fst (root : DNode) {a b : List Nat × Nat × List Char}
    (ha : a ∈ annotate 0 (DNode.flatTexts [] root))
    (hb : b ∈ annotate 0 (DNode.flatTexts [] root))
    (hab : a.1 = b.1) : a = b := by
  have hlex : List.Pairwise (fun x y => lexLt x.1 y.1 = true)
      (annotate 0 (DNode.flatTexts [] root)) :=
    annotate_pairwise_lex _ _ (DNode.flatTexts_sorted [] root)
  obtain ⟨i, hi, hia⟩ := List.getElem_of_mem ha
  obtain ⟨j, hj, hjb⟩ := List.getElem_of_mem hb
  rcases Nat.lt_trichotomy i j with h | h | h
  · have := List.pairwise_iff_getElem.mp hlex i j hi hj h
    rw [hia, hjb, hab, lexLt_irrefl] at this
    exact absurd this (by simp)
  · subst h
    rw [hia] at hjb
    exact hjb.symm ▸ rfl
  · have := List.pairwise_iff_getElem.mp hlex j i hj hi h
    rw [hia, hjb, hab, lexLt_irrefl] at this
    exact absurd this (by simp)

/-- `gpos` returns the global offset recorded in the annotated flatten. -/
theorem gpos_eq (root : DNode) {p : List Nat} {o : Nat} {s : List Char}
    (h : (p, o, s) ∈ annotate 0 (DNode.flatTexts [] root)) (off : Nat) :
    gpos root p off = o + off := by
  unfold gpos
  cases hf : (annotate 0 (DNode.flatTexts [] root)).find? (fun e => e.1 == p) with
  | none =>
    exfalso
    have := List.find?_eq_none.mp hf (p, o, s) h
    simp at this
  | some e =>
    have hp' := List.find?_some hf
    have hp : e.1 = p := by simpa using hp'
    have hmem : e ∈ annotate 0 (DNode.flatTexts [] root) :=
      List.mem_of_find?_eq_some hf
    have : e = (p, o, s) := annotate_eq_of_fst root hmem h hp
    rw [this]

/-- Unfolding of `getTextNodesInRange` with the local bindings inlined. -/
theorem getTextNodesInRange_def (root : DNode) (r : Rng) :
    getTextNodesInRange root r =
      ((DNode.flatTexts [] root).filter
        (fun e => isPfx (commonAnc r.sPath r.ePath) e.1 &&
          e.1 != commonAnc r.sPath r.ePath)).filterMap
        (fun e =>
          if intersectsNode r e.1 then
            if (if e.1 = r.sPath then r.sOff else 0) <
                (if e.1 = r.ePath then r.eOff else e.2.length) then
              some (e.1, (if e.1 = r.sPath then r.sOff else 0),
                (if e.1 = r.ePath then r.eOff else e.2.length))
            else none
          else none) := rfl

/-- Core characterization of the range splitter: for a well-formed range
whose two containers are distinct text nodes, `getTextNodesInRange`
returns exactly the non-empty global clippings of the document's text
nodes to the range's global interval, in flatten (= document) order. -/
theorem getTextNodesInRange_eq_clipG (root : DNode) (r : Rng)
    (hv : validRangeB root r = true) (hne : r.sPath ≠ r.ePath) :
    getTextNodesInRange root r =
      (annotate 0 (DNode.flatTexts [] root)).filterMap
        (fun e => (clipG (gpos root r.sPath r.sOff) (gpos root r.ePath r.eOff)
            e.2.1 e.2.2).map (fun ab => (e.1, ab.1, ab.2))) := by
  obtain ⟨⟨nidS, sD, hSnode, hSle⟩, ⟨nidE, eD, hEnode, hEle⟩, hKey⟩ :=
    (validRangeB_iff root r).mp hv
  have hSmem : (r.sPath, sD) ∈ DNode.flatTexts [] root := by
    have := DNode.mem_flatTexts_of_nodeAt root r.sPath [] nidS sD hSnode
    simpa using this
  have hEmem : (r.ePath, eD) ∈ DNode.flatTexts [] root := by
    have := DNode.mem_flatTexts_of_nodeAt root r.ePath [] nidE eD hEnode
    simpa using this
  obtain ⟨oS, hSA⟩ := exists_mem_annotate 0 _ hSmem
  obtain ⟨oE, hEA⟩ := exists_mem_annotate 0 _ hEmem
  have hgs : gpos root r.sPath r.sOff = oS + r.sOff := gpos_eq root hSA _
  have hge : gpos root r.ePath r.eOff = oE + r.eOff := gpos_eq root hEA _
  have hSEkey : lexLt r.sKey r.eKey = true := by
    rcases hKey with h | h
    · exact absurd (append_singleton_inj h).1 hne
    · exact h
  have hSE : lexLt r.sPath r.ePath = true := by
    refine lex_of_keys r.sPath r.ePath r.sOff r.eOff ?_ hSEkey hne
    intro hp
    exact (DNode.flat_antichain root hEmem hSmem hp).symm
  have hOSE : oS + sD.length ≤ oE := by
    have := annotate_rel_of_lex root hSA hEA hSE
    simpa using this
  rw [getTextNodesInRange_def, filterMap_filter_eq]
  conv_lhs => rw [show DNode.flatTexts [] root =
      (annotate 0 (DNode.flatTexts [] root)).map (fun e => (e.1, e.2.2)) from
      (annotate_unzip 0 _).symm]
  rw [List.filterMap_map]
  refine filterMap_congr_mem ?_
  rintro ⟨p, o, s⟩ hpe
  have hpflat : (p, s) ∈ DNode.flatTexts [] root := by
    have := annotate_proj 0 _ _ hpe
    simpa using this
  have hpne : p ≠ [] := by
    intro hp0
    subst hp0
    obtain ⟨q, nid, hq, hnode⟩ :=
      DNode.nodeAt_of_mem_flatTexts [] root ([], s) hpflat
    have hq' : q = [] := by simpa using hq
    subst hq'
    have hroot : root = .text nid s := by
      simpa [DNode.nodeAt] using hnode
    subst hroot
    rw [show DNode.flatTexts [] (DNode.text nid s) = [([], s)] from rfl]
      at hSmem hEmem
    simp only [List.mem_singleton, Prod.mk.injEq] at hSmem hEmem
    exact hne (hSmem.1.trans hEmem.1.symm)
  have antiPS : isPfx p r.sPath = true → p = r.sPath :=
    fun h => DNode.flat_antichain root hpflat hSmem h
  have antiSP : isPfx r.sPath p = true → r.sPath = p :=
    fun h => DNode.flat_antichain root hSmem hpflat h
  have antiPE : isPfx p r.ePath = true → p = r.ePath :=
    fun h => DNode.flat_antichain root hpflat hEmem h
  have antiEP : isPfx r.ePath p = true → r.ePath = p :=
    fun h => DNode.flat_antichain root hEmem hpflat h
  have hIntChar : intersectsNode r p = true ↔
      ((p = r.ePath ∨ lexLt p r.ePath = true) ∧
        (r.sPath = p ∨ lexLt r.sPath p = true)) := by
    unfold intersectsNode
    rw [Bool.and_eq_true]
    rw [show r.eKey = r.ePath ++ [r.eOff] from rfl,
      show r.sKey = r.sPath ++ [r.sOff] from rfl]
    rw [key_left_iff p r.ePath r.eOff antiPE (fun h => (antiEP h).symm),
      bump_key_iff r.sPath p r.sOff hpne antiSP (fun h => (antiPS h).symm)]
  simp only [Function.comp_apply]
  by_cases hps : p = r.sPath
  · -- the node is the range's start container
    have heq : ((p, o, s) : List Nat × Nat × List Char) = (r.sPath, oS, sD) :=
      annotate_eq_of_fst root hpe hSA hps
    have ho : o = oS := by simpa using congrArg (fun e => e.2.1) heq
    have hs : s = sD := by simpa using congrArg (fun e => e.2.2) heq
    rw [hps, ho, hs]
    rw [hps] at hIntChar antiPE
    have hpred : (isPfx (commonAnc r.sPath r.ePath) r.sPath &&
        (r.sPath != commonAnc r.sPath r.ePath)) = true := by
      rw [Bool.and_eq_true, bne_iff_ne]
      refine ⟨commonAnc_pfx_left r.sPath r.ePath, ?_⟩
      intro hca
      have h1 : isPfx r.sPath r.ePath = true :=
        (commonAnc_eq_left_iff r.sPath r.ePath).mp hca.symm
      exact hne (antiPE h1)
    have hint : intersectsNode r r.sPath = true :=
      hIntChar.mpr ⟨Or.inr hSE, Or.inl rfl⟩
    rw [if_pos hpred, if_pos hint, if_pos rfl, if_neg hne, hgs, hge]
    unfold clipG
    have hmax : max (oS + r.sOff) oS = oS + r.sOff :=
      Nat.max_eq_left (Nat.le_add_right _ _)
    have hmin : min (oE + r.eOff) (oS + sD.length) = oS + sD.length :=
      Nat.min_eq_right (le_trans hOSE (Nat.le_add_right _ _))
    rw [hmax, hmin]
    by_cases hlt : r.sOff < sD.length
    · rw [if_pos (by omega), if_pos (by omega)]
      simp only [Option.map_some', Option.some.injEq, Prod.mk.injEq]
      refine ⟨trivial, ?_, ?_⟩ <;> omega
    · rw [if_neg (by omega), if_neg (by omega)]
      simp
  · by_cases hpE : p = r.ePath
    · -- the node is the range's end container
      have heq : ((p, o, s) : List Nat × Nat × List Char) = (r.ePath, oE, eD) :=
        annotate_eq_of_fst root hpe hEA hpE
      have ho : o = oE := by simpa using congrArg (fun e => e.2.1) heq
      have hs : s = eD := by simpa using congrArg (fun e => e.2.2) heq
      rw [hpE, ho, hs]
      rw [hpE] at hIntChar antiPS
      have hpred : (isPfx (commonAnc r.sPath r.ePath) r.ePath &&
          (r.ePath != commonAnc r.sPath r.ePath)) = true := by
        rw [Bool.and_eq_true, bne_iff_ne]
        refine ⟨commonAnc_pfx_right r.sPath r.ePath, ?_⟩
        intro hca
        have hcomm : commonAnc r.ePath r.sPath = r.ePath := by
          rw [commonAnc_comm]; exact hca.symm
        have h1 : isPfx r.ePath r.sPath = true :=
          (commonAnc_eq_left_iff r.ePath r.sPath).mp hcomm
        exact hne (antiPS h1).symm
      have hint : intersectsNode r r.ePath = true :=
        hIntChar.mpr ⟨Or.inl rfl, Or.inr hSE⟩
      rw [if_pos hpred, if_pos hint,
        if_neg (show ¬(r.ePath = r.sPath) from fun h => hne h.symm),
        if_pos (show r.ePath = r.ePath from rfl), hgs, hge]
      unfold clipG
      have hgsle : oS + r.sOff ≤ oE := le_trans (by omega) hOSE
      have hmax : max (oS + r.sOff) oE = oE := Nat.max_eq_right hgsle
      have hmin : min (oE + r.eOff) (oE + eD.length) = oE + r.eOff :=
        Nat.min_eq_left (by omega)
      rw [hmax, hmin]
      by_cases hlt : 0 < r.eOff
      · rw [if_pos (by omega), if_pos (by omega)]
        simp only [Option.map_some', Option.some.injEq, Prod.mk.injEq]
        refine ⟨trivial, ?_, ?_⟩ <;> omega
      · rw [if_neg (by omega), if_neg (by omega)]
        simp
    · -- the node is neither container
      rcases lexLt_total p r.sPath with h | hbefore | hafterS
      · exact absurd h hps
      · -- strictly before the start container: no intersection, empty clip
        have hintF : intersectsNode r p = false := by
          cases hI : intersectsNode r p
          · rfl
          · exfalso
            rcases (hIntChar.mp hI).2 with h | h
            · exact hps h.symm
            · have := lexLt_trans _ _ _ hbefore h
              rw [lexLt_irrefl] at this
              exact absurd this (by simp)
        have hob : o + s.length ≤ oS := by
          have := annotate_rel_of_lex root hpe hSA hbefore
          simpa using this
        have hclip : clipG (gpos root r.sPath r.sOff) (gpos root r.ePath r.eOff)
            o s = none := by
          unfold clipG
          rw [hgs, hge]
          rw [if_neg ?_]
          have h1 : min (oE + r.eOff) (o + s.length) ≤ o + s.length :=
            Nat.min_le_right _ _
          have h2 : oS + r.sOff ≤ max (oS + r.sOff) o := Nat.le_max_left _ _
          omega
        rw [hclip, hintF]
        simp
      · rcases lexLt_total p r.ePath with h | hbeforeE | hafterE
        · exact absurd h hpE
        · -- strictly between the two containers: full-extent clip
          have hpredB : (isPfx (commonAnc r.sPath r.ePath) p &&
              (p != commonAnc r.sPath r.ePath)) = true := by
            rw [Bool.and_eq_true, bne_iff_ne]
            refine ⟨commonAnc_pfx_between r.sPath r.ePath p
              (Or.inr hafterS) (Or.inr hbeforeE), ?_⟩
            intro hca
            have h1 : isPfx p r.sPath = true := by
              rw [hca]; exact commonAnc_pfx_left _ _
            exact hps (antiPS h1)
          have hint : intersectsNode r p = true :=
            hIntChar.mpr ⟨Or.inr hbeforeE, Or.inr hafterS⟩
          have hoS : oS + sD.length ≤ o := by
            have := annotate_rel_of_lex root hSA hpe hafterS
            simpa using this
          have hoE : o + s.length ≤ oE := by
            have := annotate_rel_of_lex root hpe hEA hbeforeE
            simpa using this
          rw [if_pos hpredB, if_pos hint, if_neg hps, if_neg hpE, hgs, hge]
          unfold clipG
          have hmax : max (oS + r.sOff) o = o := Nat.max_eq_right (by omega)
          have hmin : min (oE + r.eOff) (o + s.length) = o + s.length :=
            Nat.min_eq_right (by omega)
          rw [hmax, hmin]
          by_cases hlt : 0 < s.length
          · rw [if_pos (by omega), if_pos (by omega)]
            simp only [Option.map_some', Option.some.injEq, Prod.mk.injEq]
            refine ⟨trivial, ?_, ?_⟩ <;> omega
          · rw [if_neg (by omega), if_neg (by omega)]
            simp
        · -- strictly after the end container: no intersection, empty clip
          have hintF : intersectsNode r p = false := by
            cases hI : intersectsNode r p
            · rfl
            · exfalso
              rcases (hIntChar.mp hI).1 with h | h
              · exact hpE h
              · have := lexLt_trans _ _ _ hafterE h
                rw [lexLt_irrefl] at this
                exact absurd this (by simp)
          have hob : oE + eD.length ≤ o := by
            have := annotate_rel_of_lex root hEA hpe hafterE
            simpa using this
          have hclip : clipG (gpos root r.sPath r.sOff) (gpos root r.ePath r.eOff)
              o s = none := by
            unfold clipG
            rw [hgs, hge]
            rw [if_neg ?_]
            have h1 : min (oE + r.eOff) (o + s.length) ≤ oE + r.eOff :=
              Nat.min_le_left _ _
            have h2 : o ≤ max (oS + r.sOff) o := Nat.le_max_right _ _
            omega
          rw [hclip, hintF]
          simp

/-- The data recorded in the flatten is the node's data. -/
theorem textDataAt_eq (root : DNode) {p : List Nat} {s : List Char}
    (h : (p, s) ∈ DNode.flatTexts [] root) : textDataAt root p = s := by
  obtain ⟨q, nid, hq, hnode⟩ := DNode.nodeAt_of_mem_flatTexts [] root (p, s) h
  simp only [List.nil_append] at hq
  rw [← hq] at hnode
  unfold textDataAt
  rw [hnode]

/-! ### Concatenation of clipped pieces -/

theorem take_drop_flatten_eq (a b : Nat) :
    ∀ (o : Nat) (l : List (List Nat × List Char)),
    (((l.map (·.2)).flatten.take (b - o)).drop (a - o)) =
      ((annotate o l).map
        (fun e => ((e.2.2.take (b - e.2.1)).drop (a - e.2.1)))).flatten := by
  intro o l
  induction l generalizing o with
  | nil => simp [annotate]
  | cons x rest ih =>
    cases x with
    | mk q t =>
      rw [annotate]
      simp only [List.map_cons, List.flatten_cons]
      rw [List.take_append_eq_append_take, List.drop_append_eq_append_drop]
      congr 1
      rw [← ih (o + t.length), List.length_take]
      rw [show b - o - t.length = b - (o + t.length) from by omega]
      by_cases h : t.length ≤ b - o
      · rw [Nat.min_eq_right h]
        rw [show a - o - t.length = a - (o + t.length) from by omega]
      · rw [show b - (o + t.length) = 0 from by omega]
        simp

theorem flatten_map_filterMap_eq {α β γ : Type _} (g : α → Option β)
    (h : β → List γ) (k : α → List γ) :
    ∀ l : List α, (∀ x ∈ l, (g x).elim [] h = k x) →
    ((l.filterMap g).map h).flatten = (l.map k).flatten := by
  intro l
  induction l with
  | nil => intro; rfl
  | cons x xs ih =>
    intro hx
    have hxx := hx x (by simp)
    rw [List.filterMap_cons]
    cases hg : g x with
    | none =>
      rw [hg] at hxx
      simp only [Option.elim] at hxx
      rw [List.map_cons, List.flatten_cons, ← hxx, List.nil_append]
      exact ih (fun y hy => hx y (List.mem_cons_of_mem _ hy))
    | some b =>
      rw [hg] at hxx
      simp only [Option.elim] at hxx
      rw [List.map_cons, List.map_cons, List.flatten_cons, List.flatten_cons, hxx]
      rw [ih (fun y hy => hx y (List.mem_cons_of_mem _ hy))]

theorem map_fst_filterMap_sublist {α β γ : Type _} (g : α → Option β)
    (f1 : α → γ) (f2 : β → γ) (hc : ∀ a b, g a = some b → f2 b = f1 a) :
    ∀ l : List α, List.Sublist ((l.filterMap g).map f2) (l.map f1) := by
  intro l
  induction l with
  | nil => simp
  | cons x xs ih =>
    rw [List.filterMap_cons]
    cases hg : g x with
    | none =>
      rw [List.map_cons]
      exact List.Sublist.cons _ ih
    | some b =>
      rw [List.map_cons, List.map_cons, hc x b hg]
      exact List.Sublist.cons₂ _ ih

/-- The flatten records each text path at most once. -/
theorem flat_paths_nodup (root : DNode) :
    ((DNode.flatTexts [] root).map (·.1)).Nodup := by
  have h := DNode.flatTexts_sorted [] root
  have h2 : List.Pairwise (fun a b => lexLt a b = true)
      ((DNode.flatTexts [] root).map (·.1)) :=
    (List.pairwise_map).mpr h
  exact h2.imp (fun hab heq => by
    subst heq
    rw [lexLt_irrefl] at hab
    exact absurd hab (by simp))

theorem flat_fst_inj (root : DNode) {p : List Nat} {s t : List Char}
    (h1 : (p, s) ∈ DNode.flatTexts [] root)
    (h2 : (p, t) ∈ DNode.flatTexts [] root) : s = t := by
  rw [← textDataAt_eq root h1, ← textDataAt_eq root h2]

/-- Any text node intersecting a well-formed two-container range lies
strictly inside the walker root (the common ancestor container). -/
theorem intersects_walker_pred (root : DNode) (r : Rng)
    (hv : validRangeB root r = true) (hne : r.sPath ≠ r.ePath)
    {p : List Nat} {s : List Char} (hp : (p, s) ∈ DNode.flatTexts [] root)
    (hint : intersectsNode r p = true) :
    (isPfx (commonAnc r.sPath r.ePath) p &&
      (p != commonAnc r.sPath r.ePath)) = true := by
  obtain ⟨⟨nidS, sD, hSnode, hSle⟩, ⟨nidE, eD, hEnode, hEle⟩, hKey⟩ :=
    (validRangeB_iff root r).mp hv
  have hSmem : (r.sPath, sD) ∈ DNode.flatTexts [] root := by
    have := DNode.mem_flatTexts_of_nodeAt root r.sPath [] nidS sD hSnode
    simpa using this
  have hEmem : (r.ePath, eD) ∈ DNode.flatTexts [] root := by
    have := DNode.mem_flatTexts_of_nodeAt root r.ePath [] nidE eD hEnode
    simpa using this
  have hpne : p ≠ [] := by
    intro hp0
    subst hp0
    obtain ⟨q, nid, hq, hnode⟩ :=
      DNode.nodeAt_of_mem_flatTexts [] root ([], s) hp
    have hq' : q = [] := by simpa using hq
    subst hq'
    have hroot : root = .text nid s := by
      simpa [DNode.nodeAt] using hnode
    subst hroot
    rw [show DNode.flatTexts [] (DNode.text nid s) = [([], s)] from rfl]
      at hSmem hEmem
    simp only [List.mem_singleton, Prod.mk.injEq] at hSmem hEmem
    exact hne (hSmem.1.trans hEmem.1.symm)
  have antiPS : isPfx p r.sPath = true → p = r.sPath :=
    fun h => DNode.flat_antichain root hp hSmem h
  have antiSP : isPfx r.sPath p = true → r.sPath = p :=
    fun h => DNode.flat_antichain root hSmem hp h
  have antiPE : isPfx p r.ePath = true → p = r.ePath :=
    fun h => DNode.flat_antichain root hp hEmem h
  have antiEP : isPfx r.ePath p = true → r.ePath = p :=
    fun h => DNode.flat_antichain root hEmem hp h
  have hIntChar : intersectsNode r p = true ↔
      ((p = r.ePath ∨ lexLt p r.ePath = true) ∧
        (r.sPath = p ∨ lexLt r.sPath p = true)) := by
    unfold intersectsNode
    rw [Bool.and_eq_true]
    rw [show r.eKey = r.ePath ++ [r.eOff] from rfl,
      show r.sKey = r.sPath ++ [r.sOff] from rfl]
    rw [key_left_iff p r.ePath r.eOff antiPE (fun h => (antiEP h).symm),
      bump_key_iff r.sPath p r.sOff hpne antiSP (fun h => (antiPS h).symm)]
  obtain ⟨hL, hR⟩ := hIntChar.mp hint
  rw [Bool.and_eq_true, bne_iff_ne]
  refine ⟨commonAnc_pfx_between r.sPath r.ePath p hR hL, ?_⟩
  intro hca
  have h1 : isPfx p r.sPath = true := by
    rw [hca]; exact commonAnc_pfx_left _ _
  have h2 : p = r.sPath := antiPS h1
  rw [h2] at hca
  have h3 : isPfx r.sPath r.ePath = true :=
    (commonAnc_eq_left_iff r.sPath r.ePath).mp hca.symm
  exact hne (DNode.flat_antichain root hSmem hEmem h3)

theorem max_sub_right (gs o : Nat) : max gs o - o = gs - o := by
  rcases Nat.le_total gs o with h | h
  · rw [Nat.max_eq_right h]; omega
  · rw [Nat.max_eq_left h]

theorem clip_none_slice {gs ge o n : Nat}
    (hn : min ge (o + n) ≤ max gs o) : min (ge - o) n ≤ gs - o := by
  rcases Nat.le_total gs o with h1 | h1
  · rw [Nat.max_eq_right h1] at hn
    rcases min_le_iff.mp hn with h2 | h2
    · have : ge - o = 0 := by omega
      rw [this]
      exact le_trans (Nat.min_le_left _ _) (by omega)
    · have : n = 0 := by omega
      rw [this]
      exact le_trans (Nat.min_le_right _ _) (by omega)
  · rw [Nat.max_eq_left h1] at hn
    rcases min_le_iff.mp hn with h2 | h2
    · exact le_trans (Nat.min_le_left _ _) (by omega)
    · exact le_trans (Nat.min_le_right _ _) (by omega)

/-- C1 (amended): correctness of the range splitter on ranges whose two
boundary containers are distinct text nodes. -/
theorem claim_C1_amended (root : DNode) (r : Rng)
    (hv : validRangeB root r = true) (hne : r.sPath ≠ r.ePath) :
    List.Pairwise (fun t t' => lexLt t.1 t'.1 = true) (getTextNodesInRange root r) ∧
    ((getTextNodesInRange root r).map (·.1)).Nodup ∧
    (∀ t ∈ getTextNodesInRange root r,
      t.2.1 < t.2.2 ∧
      t.2.1 = (if t.1 = r.sPath then r.sOff else 0) ∧
      t.2.2 = (if t.1 = r.ePath then r.eOff else (textDataAt root t.1).length)) ∧
    (∀ p s, (p, s) ∈ DNode.flatTexts [] root →
      ((∃ so eo, (p, so, eo) ∈ getTextNodesInRange root r) ↔
        (intersectsNode r p = true ∧
          (if p = r.sPath then r.sOff else 0) <
            (if p = r.ePath then r.eOff else s.length)))) ∧
    ((getTextNodesInRange root r).map
      (fun t => ((textDataAt root t.1).take t.2.2).drop t.2.1)).flatten =
      rangeToString root r := by
  have eqA := getTextNodesInRange_eq_clipG root r hv hne
  have hfst : ∀ (e : List Nat × Nat × List Char) (t : List Nat × Nat × Nat),
      (clipG (gpos root r.sPath r.sOff) (gpos root r.ePath r.eOff)
        e.2.1 e.2.2).map (fun ab => (e.1, ab.1, ab.2)) = some t → t.1 = e.1 := by
    intro e t h
    obtain ⟨ab, -, hab⟩ := Option.map_eq_some'.mp h
    rw [← hab]
  have hsub : List.Sublist ((getTextNodesInRange root r).map (·.1))
      ((annotate 0 (DNode.flatTexts [] root)).map (·.1)) := by
    rw [eqA]
    exact map_fst_filterMap_sublist _ _ _ hfst _
  rw [annotate_map_fst] at hsub
  have hflatSorted : List.Pairwise (fun a b => lexLt a b = true)
      ((DNode.flatTexts [] root).map (·.1)) :=
    (List.pairwise_map).mpr (DNode.flatTexts_sorted [] root)
  refine ⟨?_, ?_, ?_, ?_, ?_⟩
  · exact (List.pairwise_map).mp (hflatSorted.sublist hsub)
  · exact (flat_paths_nodup root).sublist hsub
  · -- extent and clipping of every returned tuple (from the definition)
    intro t ht
    rw [getTextNodesInRange_def] at ht
    obtain ⟨e, hef, hfe⟩ := List.mem_filterMap.mp ht
    have heflat : e ∈ DNode.flatTexts [] root := List.mem_of_mem_filter hef
    cases hI : intersectsNode r e.1 with
    | false => rw [hI] at hfe; simp at hfe
    | true =>
      rw [hI, if_pos rfl] at hfe
      by_cases hlt : (if e.1 = r.sPath then r.sOff else 0) <
          (if e.1 = r.ePath then r.eOff else e.2.length)
      · rw [if_pos hlt] at hfe
        have ht' : t = (e.1, (if e.1 = r.sPath then r.sOff else 0),
            (if e.1 = r.ePath then r.eOff else e.2.length)) := by
          exact (Option.some.injEq _ _ ▸ hfe).symm
        subst ht'
        have hdata : textDataAt root e.1 = e.2 := by
          have : ((e.1, e.2) : List Nat × List Char) ∈ DNode.flatTexts [] root := by
            simpa using heflat
          exact textDataAt_eq root this
        exact ⟨hlt, rfl, by rw [hdata]⟩
      · rw [if_neg hlt] at hfe
        simp at hfe
  · -- one tuple per intersecting text node with a non-empty clip
    intro p s hp
    constructor
    · rintro ⟨so, eo, hmem⟩
      rw [getTextNodesInRange_def] at hmem
      obtain ⟨e, hef, hfe⟩ := List.mem_filterMap.mp hmem
      have heflat : e ∈ DNode.flatTexts [] root := List.mem_of_mem_filter hef
      cases hI : intersectsNode r e.1 with
      | false => rw [hI] at hfe; simp at hfe
      | true =>
        rw [hI, if_pos rfl] at hfe
        by_cases hlt : (if e.1 = r.sPath then r.sOff else 0) <
            (if e.1 = r.ePath then r.eOff else e.2.length)
        · rw [if_pos hlt] at hfe
          have hpe : e.1 = p := by
            have := (Option.some.injEq _ _ ▸ hfe)
            exact congrArg (·.1) this
          rw [hpe] at hI hlt
          have hse : e.2 = s := by
            refine flat_fst_inj root ?_ hp
            rw [← hpe]
            simpa using heflat
          rw [hse] at hlt
          exact ⟨hI, hlt⟩
        · rw [if_neg hlt] at hfe
          simp at hfe
    · rintro ⟨hint, hlt⟩
      refine ⟨(if p = r.sPath then r.sOff else 0),
        (if p = r.ePath then r.eOff else s.length), ?_⟩
      rw [getTextNodesInRange_def]
      refine List.mem_filterMap.mpr ⟨(p, s), ?_, ?_⟩
      · exact List.mem_filter.mpr ⟨hp, intersects_walker_pred root r hv hne hp hint⟩
      · rw [hint, if_pos rfl, if_pos hlt]
  · -- concatenation of the covered text equals the range stringification
    rw [eqA]
    rw [flatten_map_filterMap_eq _ _
      (fun e => ((e.2.2.take (gpos root r.ePath r.eOff - e.2.1)).drop
        (gpos root r.sPath r.sOff - e.2.1))) _ ?_]
    · rw [← take_drop_flatten_eq (gpos root r.sPath r.sOff)
        (gpos root r.ePath r.eOff) 0 (DNode.flatTexts [] root)]
      rw [Nat.sub_zero, Nat.sub_zero]
      rfl
    · rintro ⟨p, o, s⟩ hx
      have hdata : textDataAt root p = s := by
        have := annotate_proj 0 _ _ hx
        exact textDataAt_eq root (by simpa using this)
      cases hclip : clipG (gpos root r.sPath r.sOff) (gpos root r.ePath r.eOff) o s with
      | none =>
        unfold clipG at hclip
        rw [ite_eq_right_iff] at hclip
        have hn : ¬ (max (gpos root r.sPath r.sOff) o <
            min (gpos root r.ePath r.eOff) (o + s.length)) := by
          intro h
          exact absurd (hclip h) (by simp)
        simp only [Option.map_none', Option.elim]
        symm
        refine List.drop_eq_nil_of_le ?_
        rw [List.length_take]
        exact clip_none_slice (Nat.not_lt.mp hn)
      | some ab =>
        unfold clipG at hclip
        by_cases hc : max (gpos root r.sPath r.sOff) o <
            min (gpos root r.ePath r.eOff) (o + s.length)
        · rw [if_pos hc] at hclip
          have hab := (Option.some.injEq _ _ ▸ hclip)
          simp only [Option.map_some', Option.elim]
          rw [← hab]
          simp only [hdata]
          have htake : s.take (min (gpos root r.ePath r.eOff) (o + s.length) - o) =
              s.take (gpos root r.ePath r.eOff - o) := by
            rcases Nat.le_total (gpos root r.ePath r.eOff) (o + s.length) with h2 | h2
            · rw [Nat.min_eq_left h2]
            · rw [Nat.min_eq_right h2]
              rw [show o + s.length - o = s.length from by omega, List.take_length]
              exact (List.take_of_length_le (by omega)).symm
          rw [htake, max_sub_right]
        · rw [if_neg hc] at hclip
          simp at hclip

/-- C1, as stated, is false: for a non-collapsed range lying inside a
single text node, the common ancestor container is that text node
itself, the `TreeWalker` rooted there visits no node, and the splitter
returns no tuple at all — although the text node intersects the range
and the range stringifies to a non-empty string. -/
theorem claim_C1_counterexample :
    validRangeB (DNode.elem 0 "p" [] [DNode.text 1 ['h','e','l','l','o']])
      ⟨[0], 1, [0], 3⟩ = true ∧
    Rng.collapsed ⟨[0], 1, [0], 3⟩ = false ∧
    ([0], ['h','e','l','l','o']) ∈ DNode.flatTexts []
      (DNode.elem 0 "p" [] [DNode.text 1 ['h','e','l','l','o']]) ∧
    intersectsNode ⟨[0], 1, [0], 3⟩ [0] = true ∧
    rangeToString (DNode.elem 0 "p" [] [DNode.text 1 ['h','e','l','l','o']])
      ⟨[0], 1, [0], 3⟩ = ['e', 'l'] ∧
    getTextNodesInRange (DNode.elem 0 "p" [] [DNode.text 1 ['h','e','l','l','o']])
      ⟨[0], 1, [0], 3⟩ = [] := by
  decide

/-- Witness: `claim_C1_amended` applies to a concrete cross-element
range (selecting "bcde" out of `<p>ab<b>cd</b>ef</p>`). -/
theorem claim_C1_amended_witness :
    validRangeB
      (DNode.elem 0 "p" [] [DNode.text 1 ['a','b'],
        DNode.elem 2 "b" [] [DNode.text 3 ['c','d']], DNode.text 4 ['e','f']])
      ⟨[0], 1, [2], 1⟩ = true ∧
    ([0] : List Nat) ≠ [2] ∧
    ((getTextNodesInRange
      (DNode.elem 0 "p" [] [DNode.text 1 ['a','b'],
        DNode.elem 2 "b" [] [DNode.text 3 ['c','d']], DNode.text 4 ['e','f']])
      ⟨[0], 1, [2], 1⟩).map
      (fun t => ((textDataAt
        (DNode.elem 0 "p" [] [DNode.text 1 ['a','b'],
          DNode.elem 2 "b" [] [DNode.text 3 ['c','d']], DNode.text 4 ['e','f']])
        t.1).take t.2.2).drop t.2.1)).flatten =
      rangeToString
        (DNode.elem 0 "p" [] [DNode.text 1 ['a','b'],
          DNode.elem 2 "b" [] [DNode.text 3 ['c','d']], DNode.text 4 ['e','f']])
        ⟨[0], 1, [2], 1⟩ :=
  ⟨by decide, by decide,
    (claim_C1_amended _ _ (by decide) (by decide)).2.2.2.2⟩

/-! ## `findTextNodeAtOffset` — the shared offset-to-text-node mapping -/

mutual

/-- `findTextNodeAtOffset`'s recursive `traverse` (highlighter core,
`src/unnamed/part_000` lines 465–497) on one node: on a text node, test
`currentOffset <= targetOffset && targetOffset <= currentOffset + textLength`
(inclusive upper bound) and return the node with local offset
`targetOffset - currentOffset`; otherwise accumulate the text length.
Returns the updated accumulator and the result (path relative to the
traversal root). -/
def ftaNode (target : Nat) (cur : Nat) : DNode → Nat × Option (List Nat × Nat)
  | .text _ s =>
    if cur ≤ target ∧ target ≤ cur + s.length then
      (cur, some ([], target - cur))
    else (cur + s.length, none)
  | .elem _ _ _ cs => ftaList target cur 0 cs

/-- `traverse` over a child list (children numbered from `i`): first
found result wins, the accumulator threads through. -/
def ftaList (target : Nat) (cur : Nat) (i : Nat) : List DNode → Nat × Option (List Nat × Nat)
  | [] => (cur, none)
  | c :: cs =>
    match ftaNode target cur c with
    | (cur', some (p, off)) => (cur', some (i :: p, off))
    | (cur', none) => ftaList target cur' (i + 1) cs

end

/-- `findTextNodeAtOffset(root, targetOffset)`: depth-first offset
accumulation from 0. -/
def findTextNodeAtOffset (root : DNode) (target : Nat) : Option (List Nat × Nat) :=
  (ftaNode target 0 root).2

mutual

/-- Rebasing the flatten root prefixes every path. -/
theorem flatTexts_shift (p : List Nat) (d : DNode) :
    DNode.flatTexts p d = (DNode.flatTexts [] d).map (fun e => (p ++ e.1, e.2)) := by
  cases d with
  | text nid s => simp [DNode.flatTexts]
  | elem nid tag attrs cs =>
    rw [DNode.flatTexts, DNode.flatTexts]
    exact flatTextsL_shift p 0 cs

theorem flatTextsL_shift (p : List Nat) (i : Nat) (cs : List DNode) :
    DNode.flatTextsL p i cs = (DNode.flatTextsL [] i cs).map (fun e => (p ++ e.1, e.2)) := by
  cases cs with
  | nil => simp [DNode.flatTextsL]
  | cons c cs' =>
    rw [DNode.flatTextsL, DNode.flatTextsL]
    simp only [List.nil_append]
    rw [List.map_append]
    congr 1
    · rw [flatTexts_shift (p ++ [i]) c, flatTexts_shift [i] c, List.map_map]
      refine List.map_congr_left ?_
      intro e he
      simp
    · exact flatTextsL_shift p (i + 1) cs'

end

theorem annotate_append (base : Nat) (l1 l2 : List (List Nat × List Char)) :
    annotate base (l1 ++ l2) =
      annotate base l1 ++ annotate (base + ((l1.map (·.2)).flatten).length) l2 := by
  induction l1 generalizing base with
  | nil => simp [annotate]
  | cons x rest ih =>
    cases x with
    | mk q t =>
      rw [List.cons_append, annotate, annotate, ih (base + t.length)]
      simp only [List.map_cons, List.flatten_cons, List.length_append,
        List.cons_append]
      rw [show base + t.length + ((rest.map (·.2)).flatten).length =
        base + (t.length + ((rest.map (·.2)).flatten).length) from by omega]

theorem annotate_map_path (base : Nat) (f : List Nat → List Nat)
    (l : List (List Nat × List Char)) :
    annotate base (l.map (fun e => (f e.1, e.2))) =
      (annotate base l).map (fun e => (f e.1, e.2.1, e.2.2)) := by
  induction l generalizing base with
  | nil => rfl
  | cons x rest ih => cases x; simp [annotate, ih]

/-- Every text node ends within the total text of the root. -/
theorem annotate_end_le (base : Nat) (l : List (List Nat × List Char)) :
    ∀ e ∈ annotate base l, e.2.1 + e.2.2.length ≤ base + ((l.map (·.2)).flatten).length := by
  induction l generalizing base with
  | nil => intro e he; simp [annotate] at he
  | cons x rest ih =>
    intro e he
    cases x with
    | mk q t =>
      rw [annotate, List.mem_cons] at he
      simp only [List.map_cons, List.flatten_cons, List.length_append]
      rcases he with he | he
      · subst he; simp
      · have := ih (base + t.length) e he
        omega

theorem annotate_last_end (base : Nat) (l : List (List Nat × List Char))
    (hne : l ≠ []) :
    ∃ e ∈ annotate base l,
      e.2.1 + e.2.2.length = base + ((l.map (·.2)).flatten).length := by
  induction l generalizing base with
  | nil => exact absurd rfl hne
  | cons x rest ih =>
    cases x with
    | mk q t =>
      cases rest with
      | nil =>
        refine ⟨(q, base, t), by simp [annotate], by simp⟩
      | cons y rest' =>
        obtain ⟨e, he, hend⟩ := ih (base + t.length) (by simp)
        refine ⟨e, List.mem_cons_of_mem _ he, ?_⟩
        rw [hend]
        simp only [List.map_cons, List.flatten_cons, List.length_append]
        omega

/-- `find?` for an offset-based predicate commutes with a path-only
relabelling. -/
theorem find?_path_map (l : List (List Nat × Nat × List Char))
    (f : List Nat → List Nat) (target : Nat) :
    ((l.map (fun e => (f e.1, e.2.1, e.2.2))).find?
        (fun e => target ≤ e.2.1 + e.2.2.length)) =
      (l.find? (fun e => target ≤ e.2.1 + e.2.2.length)).map
        (fun e => (f e.1, e.2.1, e.2.2)) := by
  induction l with
  | nil => rfl
  | cons x rest ih =>
    by_cases h : target ≤ x.2.1 + x.2.2.length
    · rw [List.map_cons, List.find?_cons_of_pos _ (by simpa using h),
        List.find?_cons_of_pos _ (by simpa using h), Option.map_some']
    · rw [List.map_cons, List.find?_cons_of_neg _ (by simpa using h),
        List.find?_cons_of_neg _ (by simpa using h), ih]

mutual

/-- The traversal returns the first text node (in document order) whose
inclusive offset span contains the target, with the matching local
offset; if no span reaches the target it returns the advanced
accumulator and no result. -/
theorem ftaNode_spec (d : DNode) (target cur : Nat) (hcur : cur ≤ target) :
    ftaNode target cur d =
      (match (annotate cur (DNode.flatTexts [] d)).find?
          (fun e => target ≤ e.2.1 + e.2.2.length) with
        | some e => (e.2.1, some (e.1, target - e.2.1))
        | none => (cur + (DNode.textContent d).length, none)) := by
  cases d with
  | text nid s =>
    rw [ftaNode]
    rw [show DNode.flatTexts [] (DNode.text nid s) = [([], s)] from rfl]
    rw [show annotate cur [(([] : List Nat), s)] = [(([] : List Nat), cur, s)] from rfl]
    rw [DNode.textContent]
    by_cases h : target ≤ cur + s.length
    · rw [if_pos ⟨hcur, h⟩, List.find?_cons_of_pos _ (by simpa using h)]
    · rw [if_neg (fun hc => h hc.2), List.find?_cons_of_neg _ (by simpa using h),
        List.find?_nil]
  | elem nid tag attrs cs =>
    rw [ftaNode, DNode.flatTexts, DNode.textContent,
      DNode.textContentL_eq_flat cs [] 0]
    exact ftaList_spec cs target cur 0 hcur

theorem ftaList_spec (cs : List DNode) (target cur i : Nat) (hcur : cur ≤ target) :
    ftaList target cur i cs =
      (match (annotate cur (DNode.flatTextsL [] i cs)).find?
          (fun e => target ≤ e.2.1 + e.2.2.length) with
        | some e => (e.2.1, some (e.1, target - e.2.1))
        | none => (cur + (((DNode.flatTextsL [] i cs).map (·.2)).flatten).length,
            none)) := by
  cases cs with
  | nil => rw [ftaList]; rfl
  | cons c cs' =>
    rw [ftaList, DNode.flatTextsL]
    simp only [List.nil_append]
    rw [annotate_append, List.find?_append]
    rw [flatTexts_shift [i] c]
    rw [show ((DNode.flatTexts [] c).map (fun e => (([i] : List Nat) ++ e.1, e.2))) =
      ((DNode.flatTexts [] c).map (fun e => (i :: e.1, e.2))) from rfl]
    rw [annotate_map_path cur (fun q => i :: q), find?_path_map]
    have hlen1 : ((((DNode.flatTexts [] c).map
        (fun e => ((i :: e.1 : List Nat), e.2))).map (·.2)).flatten).length =
        (DNode.textContent c).length := by
      rw [List.map_map, DNode.textContent_eq_flat c []]
      rfl
    rw [hlen1, ftaNode_spec c target cur hcur]
    cases hf : (annotate cur (DNode.flatTexts [] c)).find?
        (fun e => target ≤ e.2.1 + e.2.2.length) with
    | some e => rfl
    | none =>
      have hcur' : cur + (DNode.textContent c).length ≤ target := by
        cases heq : DNode.flatTexts [] c with
        | nil =>
          have h0 : (DNode.textContent c).length = 0 := by
            rw [DNode.textContent_eq_flat c [], heq]
            rfl
          omega
        | cons x rest =>
          obtain ⟨e, he, hend⟩ :=
            annotate_last_end cur (DNode.flatTexts [] c) (by rw [heq]; simp)
          have hno := List.find?_eq_none.mp hf e he
          simp only [decide_eq_true_eq, Nat.not_le] at hno
          rw [DNode.textContent_eq_flat c []]
          omega
      dsimp only
      rw [ftaList_spec cs' target (cur + (DNode.textContent c).length) (i + 1) hcur']
      cases hf2 : (annotate (cur + (DNode.textContent c).length)
          (DNode.flatTextsL [] (i + 1) cs')).find?
          (fun e => target ≤ e.2.1 + e.2.2.length) with
      | some e2 => rfl
      | none =>
        simp only [List.map_append, List.flatten_append, List.length_append,
          List.map_map]
        rw [show (((DNode.flatTexts [] c).map
            ((fun x => x.2) ∘ fun e => ((i :: e.1 : List Nat), e.2))).flatten).length =
            (DNode.textContent c).length from by
          rw [DNode.textContent_eq_flat c []]; rfl]
        rw [Nat.add_assoc]
        rfl

end

/-- C10: boundary behaviour of the shared offset-to-text-node mapping
`findTextNodeAtOffset`. (a) When the target offset exceeds the total
text length under the root, the function returns `null`. (b) When the
target falls exactly on the end boundary of a non-empty text node, the
function returns that earlier node with local offset equal to its full
text length — never the following node with local offset 0 — because
the containment test uses an inclusive upper bound. -/
theorem claim_C10 (root : DNode) (target : Nat) :
    ((DNode.textContent root).length < target →
      findTextNodeAtOffset root target = none) ∧
    (∀ p o s, (p, o, s) ∈ annotate 0 (DNode.flatTexts [] root) → s ≠ [] →
      target = o + s.length →
      findTextNodeAtOffset root target = some (p, s.length)) := by
  have hspec := ftaNode_spec root target 0 (Nat.zero_le _)
  constructor
  · intro hgt
    unfold findTextNodeAtOffset
    rw [hspec]
    have hnone : (annotate 0 (DNode.flatTexts [] root)).find?
        (fun e => target ≤ e.2.1 + e.2.2.length) = none := by
      rw [List.find?_eq_none]
      intro e he
      have h := annotate_end_le 0 (DNode.flatTexts [] root) e he
      have hlen : ((DNode.flatTexts [] root).map (·.2)).flatten.length =
          (DNode.textContent root).length := by
        rw [DNode.textContent_eq_flat root []]
      simp only [decide_eq_true_eq, Nat.not_le]
      omega
    rw [hnone]
  · intro p o s hmem hne htarget
    unfold findTextNodeAtOffset
    rw [hspec]
    have hfind : (annotate 0 (DNode.flatTexts [] root)).find?
        (fun e => target ≤ e.2.1 + e.2.2.length) = some (p, o, s) := by
      obtain ⟨as, bs, hl⟩ := List.append_of_mem hmem
      have hpw := annotate_pairwise_le 0 (DNode.flatTexts [] root)
      rw [hl] at hpw
      have hbefore : ∀ a ∈ as, a.2.1 + a.2.2.length ≤ o := by
        intro a ha
        have := (List.pairwise_append.mp hpw).2.2 a ha (p, o, s) (by simp)
        simpa using this
      rw [List.find?_eq_some]
      refine ⟨by simp [htarget], as, bs, hl, ?_⟩
      intro a ha
      have h1 := hbefore a ha
      have hs0 : 0 < s.length := List.length_pos.mpr hne
      have h2 : ¬ (target ≤ a.2.1 + a.2.2.length) := by omega
      simpa using h2
    rw [hfind]
    dsimp only
    rw [show target - o = s.length from by omega]

/-- Witness: `claim_C10` at the concrete document `<p>ab|cd</p>` (two
adjacent text nodes) — target 2 is the boundary between them and is
resolved to the first node at its full length; target 5 exceeds the
total length 4 and yields `null`. -/
theorem claim_C10_witness :
    findTextNodeAtOffset
      (DNode.elem 0 "p" [] [DNode.text 1 ['a','b'], DNode.text 2 ['c','d']]) 2 =
      some ([0], 2) ∧
    findTextNodeAtOffset
      (DNode.elem 0 "p" [] [DNode.text 1 ['a','b'], DNode.text 2 ['c','d']]) 5 =
      none :=
  ⟨(claim_C10 (DNode.elem 0 "p" [] [DNode.text 1 ['a','b'], DNode.text 2 ['c','d']]) 2).2
      [0] 0 ['a','b'] (by decide) (by decide) (by decide),
    (claim_C10 (DNode.elem 0 "p" [] [DNode.text 1 ['a','b'], DNode.text 2 ['c','d']]) 5).1
      (by decide)⟩

/-! ## `createTextQuote` — the content descriptor (locator.ts) -/

/-- Web Annotation text quote: `exact` plus bounded context. The source
fields `prefix`/`suffix` are named `pfx`/`sfx` here. -/
structure TextQuote where
  exact : List Char
  pfx : List Char
  sfx : List Char
  deriving Repr

/-- JavaScript `String.prototype.substring(a, b)`: both indices are
clamped to `[0, length]` and swapped when the start exceeds the end. -/
def jsSubstring (s : List Char) (a b : Int) : List Char :=
  (s.take (max (min (max a 0).toNat s.length) (min (max b 0).toNat s.length))).drop
    (min (min (max a 0).toNat s.length) (min (max b 0).toNat s.length))

/-- `createTextQuote(range)` (locator.ts lines 45–70):
`exact = range.toString()`;
`prefix = startText.substring(Math.max(0, startOffset - 32), startOffset)`
with `startText = range.startContainer.textContent`;
`suffix = endText.substring(endOffset, endOffset + 32)` with
`endText = range.endContainer.textContent`. -/
def createTextQuote (root : DNode) (r : Rng) : TextQuote :=
  { exact := rangeToString root r
    pfx := jsSubstring (textDataAt root r.sPath)
      (max 0 ((r.sOff : Int) - 32)) (r.sOff : Int)
    sfx := jsSubstring (textDataAt root r.ePath)
      (r.eOff : Int) ((r.eOff : Int) + 32) }

/-- C8: context bounds of the text-quote descriptor. `exact` is the
range's stringification; `prefix` is the up-to-32-character slice of
the start container's own text immediately preceding `startOffset`
(all of it when fewer than 32 characters precede); `suffix` is the
up-to-32-character slice of the end container's own text immediately
following `endOffset`. -/
theorem claim_C8 (root : DNode) (r : Rng) (hv : validRangeB root r = true) :
    (createTextQuote root r).exact = rangeToString root r ∧
    (createTextQuote root r).pfx =
      ((textDataAt root r.sPath).take r.sOff).drop (r.sOff - 32) ∧
    (createTextQuote root r).pfx.length = min r.sOff 32 ∧
    (createTextQuote root r).sfx = ((textDataAt root r.ePath).drop r.eOff).take 32 ∧
    (createTextQuote root r).sfx.length =
      min ((textDataAt root r.ePath).length - r.eOff) 32 := by
  obtain ⟨⟨nidS, sD, hSnode, hSle⟩, ⟨nidE, eD, hEnode, hEle⟩, -⟩ :=
    (validRangeB_iff root r).mp hv
  have hSdata : textDataAt root r.sPath = sD := by
    unfold textDataAt; rw [hSnode]
  have hEdata : textDataAt root r.ePath = eD := by
    unfold textDataAt; rw [hEnode]
  refine ⟨rfl, ?_, ?_, ?_, ?_⟩
  · show jsSubstring (textDataAt root r.sPath)
      (max 0 ((r.sOff : Int) - 32)) (r.sOff : Int) = _
    rw [hSdata]
    unfold jsSubstring
    have h1 : (max (max 0 ((r.sOff : Int) - 32)) 0).toNat = r.sOff - 32 := by
      omega
    have h2 : (max (r.sOff : Int) 0).toNat = r.sOff := by omega
    rw [h1, h2]
    have h3 : min (r.sOff - 32) sD.length = r.sOff - 32 := by omega
    have h4 : min r.sOff sD.length = r.sOff := by omega
    rw [h3, h4]
    have h5 : max (r.sOff - 32) r.sOff = r.sOff := by omega
    have h6 : min (r.sOff - 32) r.sOff = r.sOff - 32 := by omega
    rw [h5, h6]
  · show (jsSubstring (textDataAt root r.sPath)
      (max 0 ((r.sOff : Int) - 32)) (r.sOff : Int)).length = _
    rw [hSdata]
    unfold jsSubstring
    rw [List.length_drop, List.length_take]
    omega
  · show jsSubstring (textDataAt root r.ePath)
      (r.eOff : Int) ((r.eOff : Int) + 32) = _
    rw [hEdata]
    unfold jsSubstring
    have h1 : (max (r.eOff : Int) 0).toNat = r.eOff := by omega
    have h2 : (max ((r.eOff : Int) + 32) 0).toNat = r.eOff + 32 := by omega
    rw [h1, h2]
    have h3 : min r.eOff eD.length = r.eOff := by omega
    rw [h3]
    have h5 : max r.eOff (min (r.eOff + 32) eD.length) =
        min (r.eOff + 32) eD.length := by omega
    have h6 : min r.eOff (min (r.eOff + 32) eD.length) = r.eOff := by omega
    rw [h5, h6]
    rcases Nat.le_total (r.eOff + 32) eD.length with h | h
    · rw [Nat.min_eq_left h]
      rw [List.drop_take]
      rw [show r.eOff + 32 - r.eOff = 32 from by omega]
    · rw [Nat.min_eq_right h]
      rw [List.take_length]
      rw [List.take_of_length_le (by rw [List.length_drop]; omega)]
  · show (jsSubstring (textDataAt root r.ePath)
      (r.eOff : Int) ((r.eOff : Int) + 32)).length = _
    rw [hEdata]
    unfold jsSubstring
    rw [List.length_drop, List.length_take]
    omega

/-- Witness: `claim_C8` at a concrete cross-element range. -/
theorem claim_C8_witness :
    validRangeB
      (DNode.elem 0 "p" [] [DNode.text 1 ['a','b'],
        DNode.elem 2 "b" [] [DNode.text 3 ['c','d']], DNode.text 4 ['e','f']])
      ⟨[0], 1, [2], 1⟩ = true ∧
    (createTextQuote
      (DNode.elem 0 "p" [] [DNode.text 1 ['a','b'],
        DNode.elem 2 "b" [] [DNode.text 3 ['c','d']], DNode.text 4 ['e','f']])
      ⟨[0], 1, [2], 1⟩).pfx.length = min 1 32 :=
  ⟨by decide,
    (claim_C8
      (DNode.elem 0 "p" [] [DNode.text 1 ['a','b'],
        DNode.elem 2 "b" [] [DNode.text 3 ['c','d']], DNode.text 4 ['e','f']])
      ⟨[0], 1, [2], 1⟩ (by decide)).2.2.1⟩

/-! ## Rectangle hit-testing (`findElementsInRect`, hunter `ancestor.ts`
lines 320–448)

Element geometry, computed style and self-ownership are environmental
inputs: an element is modelled by its `getBoundingClientRect` box
(rationals for screen-space floats), its visibility
(`display:none`/`visibility:hidden` checks), whether one of the tool's
own `closest(...)` selectors matches, whether it is `document.body` or
`document.documentElement`, and its `getDepth` value. -/

structure SelectionRect where
  startX : Rat
  startY : Rat
  endX : Rat
  endY : Rat
  deriving Repr

structure RectEl where
  left : Rat
  top : Rat
  right : Rat
  bottom : Rat
  visible : Bool
  selfOwned : Bool
  isRoot : Bool
  depth : Nat
  deriving Repr, DecidableEq

namespace RectEl
/-- `getBoundingClientRect().width`. -/
def width (e : RectEl) : Rat := e.right - e.left
/-- `getBoundingClientRect().height`. -/
def height (e : RectEl) : Rat := e.bottom - e.top
end RectEl

def rectMinX (rect : SelectionRect) : Rat := min rect.startX rect.endX
def rectMaxX (rect : SelectionRect) : Rat := max rect.startX rect.endX
def rectMinY (rect : SelectionRect) : Rat := min rect.startY rect.endY
def rectMaxY (rect : SelectionRect) : Rat := max rect.startY rect.endY
/-- `selectionArea = (maxX - minX) * (maxY - minY)`. -/
def selectionArea (rect : SelectionRect) : Rat :=
  (rectMaxX rect - rectMinX rect) * (rectMaxY rect - rectMinY rect)

/-- `isFullyInside`: the element's box lies within the normalized rect. -/
def isFullyInside (rect : SelectionRect) (e : RectEl) : Bool :=
  e.left ≥ rectMinX rect && e.right ≤ rectMaxX rect &&
  e.top ≥ rectMinY rect && e.bottom ≤ rectMaxY rect

/-- `isPartiallyInside`: the boxes touch or overlap. -/
def isPartiallyInside (rect : SelectionRect) (e : RectEl) : Bool :=
  e.right ≥ rectMinX rect && e.left ≤ rectMaxX rect &&
  e.bottom ≥ rectMinY rect && e.top ≤ rectMaxY rect

/-- `intersectArea = max 0 (intersectRight - intersectLeft) * max 0 (…)`. -/
def intersectArea (rect : SelectionRect) (e : RectEl) : Rat :=
  max 0 (min e.right (rectMaxX rect) - max e.left (rectMinX rect)) *
  max 0 (min e.bottom (rectMaxY rect) - max e.top (rectMinY rect))

def elementArea (e : RectEl) : Rat := e.width * e.height

/-- `overlapRatio = elementArea > 0 ? intersectArea / elementArea : 0`. -/
def overlapRatio (rect : SelectionRect) (e : RectEl) : Rat :=
  if elementArea e > 0 then intersectArea rect e / elementArea e else 0

/-- The loop body's inclusion test: skip invisible, self-owned and root
elements, then `width > 5 && height > 5 && isPartiallyInside &&
isReasonableSize && (isFullyInside || hasSignificantOverlap)`. -/
def elIncluded (rect : SelectionRect) (e : RectEl) : Bool :=
  e.visible && !e.selfOwned && !e.isRoot &&
  (e.width > 5) && (e.height > 5) &&
  isPartiallyInside rect e &&
  (elementArea e ≤ selectionArea rect * 3) &&
  (isFullyInside rect e || overlapRatio rect e ≥ 1/2)

/-- `findElementsInRect(rect)`: filter all candidate elements with the
inclusion test, then sort by descending DOM depth (stable, per the
ECMAScript `Array.prototype.sort` contract). -/
def findElementsInRect (rect : SelectionRect) (els : List RectEl) : List RectEl :=
  (els.filter (elIncluded rect)).mergeSort (fun a b => decide (b.depth ≤ a.depth))

/-- C7 (amended): an element is returned iff it is visible, not
self-owned, not the document root, both box dimensions exceed 5px, and
it is either fully contained in the normalized rect or has overlap
ratio ≥ 0.5 with area at most 3× the selection area; the result is a
permutation of those candidates sorted by descending DOM depth. -/
theorem claim_C7_amended (rect : SelectionRect) (els : List RectEl) :
    (∀ e, e ∈ findElementsInRect rect els ↔
      (e ∈ els ∧ e.visible = true ∧ e.selfOwned = false ∧ e.isRoot = false ∧
        e.width > 5 ∧ e.height > 5 ∧
        (isFullyInside rect e = true ∨
          (overlapRatio rect e ≥ 1/2 ∧
            elementArea e ≤ selectionArea rect * 3)))) ∧
    List.Pairwise (fun a b => b.depth ≤ a.depth) (findElementsInRect rect els) := by
  constructor
  · intro e
    unfold findElementsInRect
    rw [List.mem_mergeSort, List.mem_filter]
    unfold elIncluded
    simp only [Bool.and_eq_true, Bool.not_eq_true', Bool.or_eq_true,
      decide_eq_true_eq]
    constructor
    · rintro ⟨hmem, ⟨⟨⟨⟨⟨⟨hv, hs⟩, hr⟩, hw⟩, hh⟩, hpart⟩, hreas⟩, hfull⟩
      refine ⟨hmem, hv, hs, hr, hw, hh, ?_⟩
      rcases hfull with hfull | hsig
      · exact Or.inl hfull
      · exact Or.inr ⟨hsig, hreas⟩
    · rintro ⟨hmem, hv, hs, hr, hw, hh, hcase⟩
      have hwpos : (0 : Rat) < e.width := lt_trans (by norm_num) hw
      have hhpos : (0 : Rat) < e.height := lt_trans (by norm_num) hh
      have hareapos : (0 : Rat) < elementArea e := mul_pos hwpos hhpos
      have hselnonneg : (0 : Rat) ≤ selectionArea rect := by
        unfold selectionArea rectMaxX rectMinX rectMaxY rectMinY
        apply mul_nonneg <;>
          · rw [sub_nonneg]
            exact min_le_max
      rcases hcase with hfull | ⟨hsig, hreas⟩
      · -- fully inside implies partially inside and a reasonable size
        unfold isFullyInside at hfull
        simp only [Bool.and_eq_true, decide_eq_true_eq] at hfull
        obtain ⟨⟨⟨hL, hR⟩, hT⟩, hB⟩ := hfull
        have hpart : isPartiallyInside rect e = true := by
          unfold isPartiallyInside
          simp only [Bool.and_eq_true, decide_eq_true_eq]
          unfold RectEl.width at hwpos
          unfold RectEl.height at hhpos
          refine ⟨⟨⟨?_, ?_⟩, ?_⟩, ?_⟩ <;> linarith
        have harea : elementArea e ≤ selectionArea rect * 3 := by
          have h1 : e.width ≤ rectMaxX rect - rectMinX rect := by
            unfold RectEl.width; linarith
          have h2 : e.height ≤ rectMaxY rect - rectMinY rect := by
            unfold RectEl.height; linarith
          have h3 : elementArea e ≤ selectionArea rect := by
            unfold elementArea selectionArea
            exact mul_le_mul h1 h2 (le_of_lt hhpos) (by linarith)
          linarith
        refine ⟨hmem, ⟨⟨⟨⟨⟨⟨hv, hs⟩, hr⟩, hw⟩, hh⟩, hpart⟩, harea⟩,
          Or.inl ?_⟩
        unfold isFullyInside
        simp only [Bool.and_eq_true, decide_eq_true_eq]
        exact ⟨⟨⟨hL, hR⟩, hT⟩, hB⟩
      · -- significant overlap implies partial intersection
        have hinter : intersectArea rect e ≥ elementArea e * (1/2) := by
          unfold overlapRatio at hsig
          rw [if_pos hareapos] at hsig
          rw [ge_iff_le, le_div_iff₀ hareapos] at hsig
          linarith
        have hipos : (0 : Rat) < intersectArea rect e := by
          have : (0 : Rat) < elementArea e * (1/2) := by positivity
          linarith
        have hpart : isPartiallyInside rect e = true := by
          unfold intersectArea at hipos
          have hw0 : (0 : Rat) <
              max 0 (min e.right (rectMaxX rect) - max e.left (rectMinX rect)) := by
            by_contra hno
            push_neg at hno
            have h0 : max 0 (min e.right (rectMaxX rect) - max e.left (rectMinX rect)) = 0 :=
              le_antisymm hno (le_max_left _ _)
            rw [h0, zero_mul] at hipos
            exact absurd hipos (lt_irrefl 0)
          have hh0 : (0 : Rat) <
              max 0 (min e.bottom (rectMaxY rect) - max e.top (rectMinY rect)) := by
            by_contra hno
            push_neg at hno
            have h0 : max 0 (min e.bottom (rectMaxY rect) - max e.top (rectMinY rect)) = 0 :=
              le_antisymm hno (le_max_left _ _)
            rw [h0, mul_zero] at hipos
            exact absurd hipos (lt_irrefl 0)
          have hw1 : (0 : Rat) < min e.right (rectMaxX rect) - max e.left (rectMinX rect) := by
            rcases le_or_lt (min e.right (rectMaxX rect) - max e.left (rectMinX rect)) 0 with h | h
            · rw [max_eq_left h] at hw0; exact absurd hw0 (lt_irrefl 0)
            · exact h
          have hh1 : (0 : Rat) < min e.bottom (rectMaxY rect) - max e.top (rectMinY rect) := by
            rcases le_or_lt (min e.bottom (rectMaxY rect) - max e.top (rectMinY rect)) 0 with h | h
            · rw [max_eq_left h] at hh0; exact absurd hh0 (lt_irrefl 0)
            · exact h
          unfold isPartiallyInside
          simp only [Bool.and_eq_true, decide_eq_true_eq]
          have c1 : max e.left (rectMinX rect) < min e.right (rectMaxX rect) := by linarith
          have c2 : max e.top (rectMinY rect) < min e.bottom (rectMaxY rect) := by linarith
          refine ⟨⟨⟨?_, ?_⟩, ?_⟩, ?_⟩
          · have := lt_of_le_of_lt (le_max_right e.left (rectMinX rect))
              (lt_of_lt_of_le c1 (min_le_left _ _))
            linarith
          · have := lt_of_le_of_lt (le_max_left e.left (rectMinX rect))
              (lt_of_lt_of_le c1 (min_le_right _ _))
            linarith
          · have := lt_of_le_of_lt (le_max_right e.top (rectMinY rect))
              (lt_of_lt_of_le c2 (min_le_left _ _))
            linarith
          · have := lt_of_le_of_lt (le_max_left e.top (rectMinY rect))
              (lt_of_lt_of_le c2 (min_le_right _ _))
            linarith
        exact ⟨hmem, ⟨⟨⟨⟨⟨⟨hv, hs⟩, hr⟩, hw⟩, hh⟩, hpart⟩, hreas⟩, Or.inr hsig⟩
  · unfold findElementsInRect
    have h : List.Pairwise (fun a b : RectEl => decide (b.depth ≤ a.depth) = true)
        ((els.filter (elIncluded rect)).mergeSort
          (fun a b => decide (b.depth ≤ a.depth))) :=
      List.sorted_mergeSort
        (fun a b c hab hbc => by
          simp only [decide_eq_true_eq] at *
          omega)
        (fun a b => by
          simp only [Bool.or_eq_true, decide_eq_true_eq]
          omega)
        (els.filter (elIncluded rect))
    exact h.imp (fun hab => by simpa using hab)

/-- C7, as stated, is false: the hit-tester additionally requires both
box dimensions to exceed 5 pixels, so a fully contained 4×4 element is
rejected although the claim's inclusion rule admits it. -/
theorem claim_C7_counterexample :
    isFullyInside ⟨0, 0, 100, 100⟩
      ⟨10, 10, 14, 14, true, false, false, 5⟩ = true ∧
    findElementsInRect ⟨0, 0, 100, 100⟩
      [⟨10, 10, 14, 14, true, false, false, 5⟩] = [] := by
  refine ⟨rfl, ?_⟩
  unfold findElementsInRect
  have hw : ¬((⟨10, 10, 14, 14, true, false, false, 5⟩ : RectEl).width > 5) := by
    norm_num [RectEl.width]
  rw [List.filter_cons_of_neg (by simp [elIncluded, hw]), List.filter_nil,
    List.mergeSort_nil]

/-- Witness: `claim_C7_amended` at a concrete rect and element list. -/
theorem claim_C7_amended_witness :
    (⟨10, 10, 40, 40, true, false, false, 7⟩ : RectEl) ∈
      findElementsInRect ⟨0, 0, 100, 100⟩
        [⟨10, 10, 40, 40, true, false, false, 7⟩] :=
  ((claim_C7_amended ⟨0, 0, 100, 100⟩
      [⟨10, 10, 40, 40, true, false, false, 7⟩]).1
    ⟨10, 10, 40, 40, true, false, false, 7⟩).mpr
    ⟨by simp, rfl, rfl, rfl, by norm_num [RectEl.width],
      by norm_num [RectEl.height], Or.inl (by decide)⟩

/-! ## Bounded restoration polling (`tryRestoreWithRetry`,
`GOGOMode.tsx` lines 69–103) -/

/-- `RETRY_INTERVAL = 500` (ms between retries). -/
def RETRY_INTERVAL : Nat := 500

/-- `MAX_RETRIES = 20`. -/
def MAX_RETRIES : Nat := 20

inductive RetryOutcome where
  | restored (success : Bool) (attempt : Nat)
  | timedOut
  deriving Repr, DecidableEq

/-- One annotation's polling loop. `present k` models whether the
annotation's exact quote occurs in `document.body.textContent` at
attempt `k` (the host page loads asynchronously); `restoreResult k`
models the boolean `restoreHighlight` returns at attempt `k`.  The
returned list holds the delays (ms) of the scheduled retries, the
second component is the outcome: if the text is present, restore runs;
otherwise reschedule after `RETRY_INTERVAL` while
`retryCount < MAX_RETRIES`, else give up with a logged timeout. -/
def tryRestoreWithRetry (present restoreResult : Nat → Bool) (k : Nat) :
    List Nat × RetryOutcome :=
  if present k then ([], .restored (restoreResult k) k)
  else if k < MAX_RETRIES then
    (RETRY_INTERVAL :: (tryRestoreWithRetry present restoreResult (k + 1)).1,
      (tryRestoreWithRetry present restoreResult (k + 1)).2)
  else ([], .timedOut)
  termination_by MAX_RETRIES + 1 - k
  decreasing_by all_goals { simp only [MAX_RETRIES] at *; omega }

/-- `restoreWhenReady` starts one independent polling loop per stored
annotation of the page (`pageAnnotations.forEach`). -/
def restoreAnnotationsWithRetry (anns : List ((Nat → Bool) × (Nat → Bool))) :
    List (List Nat × RetryOutcome) :=
  anns.map (fun a => tryRestoreWithRetry a.1 a.2 0)

theorem tryRestore_absent (present restoreResult : Nat → Bool)
    (hp : ∀ k, present k = false) :
    ∀ n k, MAX_RETRIES + 1 - k ≤ n →
      tryRestoreWithRetry present restoreResult k =
        (List.replicate (MAX_RETRIES - k) RETRY_INTERVAL, .timedOut) := by
  intro n
  induction n with
  | zero =>
    intro k hk
    rw [tryRestoreWithRetry, hp k]
    rw [if_neg (by simp)]
    rw [if_neg (by simp only [MAX_RETRIES] at *; omega)]
    rw [show MAX_RETRIES - k = 0 from by simp only [MAX_RETRIES] at *; omega]
    rfl
  | succ n ih =>
    intro k hk
    rw [tryRestoreWithRetry, hp k]
    rw [if_neg (by simp)]
    by_cases h : k < MAX_RETRIES
    · rw [if_pos h, ih (k + 1) (by omega)]
      rw [show MAX_RETRIES - k = (MAX_RETRIES - (k + 1)) + 1 from by omega,
        List.replicate_succ]
    · rw [if_neg h, show MAX_RETRIES - k = 0 from by omega]
      rfl

theorem tryRestore_bound (present restoreResult : Nat → Bool) :
    ∀ n k, MAX_RETRIES + 1 - k ≤ n →
      (tryRestoreWithRetry present restoreResult k).1.length ≤ MAX_RETRIES - k ∧
      ∀ d ∈ (tryRestoreWithRetry present restoreResult k).1, d = RETRY_INTERVAL := by
  intro n
  induction n with
  | zero =>
    intro k hk
    rw [tryRestoreWithRetry]
    by_cases hp : present k
    · rw [if_pos hp]
      exact ⟨by simp, by simp⟩
    · rw [if_neg hp, if_neg (by simp only [MAX_RETRIES] at *; omega)]
      exact ⟨by simp, by simp⟩
  | succ n ih =>
    intro k hk
    rw [tryRestoreWithRetry]
    by_cases hp : present k
    · rw [if_pos hp]
      exact ⟨by simp, by simp⟩
    · rw [if_neg hp]
      by_cases h : k < MAX_RETRIES
      · rw [if_pos h]
        obtain ⟨h1, h2⟩ := ih (k + 1) (by omega)
        constructor
        · simp only [List.length_cons]
          omega
        · intro d hd
          rcases List.mem_cons.mp hd with hd | hd
          · exact hd
          · exact h2 d hd
      · rw [if_neg h]
        exact ⟨by simp, by simp⟩

/-- C9: the per-annotation restoration loop is bounded: with the exact
quote text absent from the page throughout, it reschedules itself
exactly `MAX_RETRIES` (20) times at the fixed 500 ms interval and then
gives up with a timeout; in every run it schedules at most 20 retries,
each after exactly 500 ms (so it always terminates within the retry
budget); and the polling loops of a list of annotations are
independent: each annotation's outcome is the run of its own loop,
unaffected by the other annotations' outcomes. -/
theorem claim_C9 (present restoreResult : Nat → Bool) :
    ((∀ k, present k = false) →
      tryRestoreWithRetry present restoreResult 0 =
        (List.replicate MAX_RETRIES RETRY_INTERVAL, RetryOutcome.timedOut)) ∧
    (tryRestoreWithRetry present restoreResult 0).1.length ≤ MAX_RETRIES ∧
    (∀ d ∈ (tryRestoreWithRetry present restoreResult 0).1, d = RETRY_INTERVAL) ∧
    (∀ (pre : List ((Nat → Bool) × (Nat → Bool))) (a : (Nat → Bool) × (Nat → Bool))
        (post : List ((Nat → Bool) × (Nat → Bool))),
      restoreAnnotationsWithRetry (pre ++ a :: post) =
        restoreAnnotationsWithRetry pre ++
          tryRestoreWithRetry a.1 a.2 0 :: restoreAnnotationsWithRetry post) := by
  refine ⟨?_, ?_, ?_, ?_⟩
  · intro hp
    have := tryRestore_absent present restoreResult hp (MAX_RETRIES + 1) 0 (by omega)
    simpa using this
  · exact ((tryRestore_bound present restoreResult (MAX_RETRIES + 1) 0 (by omega)).1).trans
      (by omega)
  · exact (tryRestore_bound present restoreResult (MAX_RETRIES + 1) 0 (by omega)).2
  · intro pre a post
    unfold restoreAnnotationsWithRetry
    rw [List.map_append, List.map_cons]

/-- Witness: `claim_C9` for an annotation whose quote never appears:
exactly twenty 500 ms reschedules, then a timeout. -/
theorem claim_C9_witness :
    tryRestoreWithRetry (fun _ => false) (fun _ => false) 0 =
      (List.replicate MAX_RETRIES RETRY_INTERVAL, RetryOutcome.timedOut) :=
  (claim_C9 (fun _ => false) (fun _ => false)).1 (fun _ => rfl)

/-! ## Document and DOM mutation model

A `Document` is the root `<html>` element with a distinguished `<body>`
child (browsers guarantee `document.body` exists); `nextId` models the
allocator of fresh JavaScript object identities for nodes the engine
creates.  Absolute node paths are child-index paths from `<html>`. -/

structure Document where
  nextId : Nat
  htmlId : Nat
  htmlAttrs : List (String × String)
  pre : List DNode
  bodyId : Nat
  bodyAttrs : List (String × String)
  bodyKids : List DNode
  post : List DNode
  deriving Repr

/-- `document.body`. -/
def Document.body (d : Document) : DNode :=
  .elem d.bodyId "body" d.bodyAttrs d.bodyKids

/-- `document.documentElement` (the `<html>` root). -/
def Document.html (d : Document) : DNode :=
  .elem d.htmlId "html" d.htmlAttrs (d.pre ++ d.body :: d.post)

/-- The annotation type `'agree' | 'question'`. -/
inductive HType where
  | agree
  | question
  deriving Repr, DecidableEq

/-- The CSS class `gogo-highlight-${type}`. -/
def className : HType → String
  | .agree => "gogo-highlight-agree"
  | .question => "gogo-highlight-question"

/-- First matching attribute value (DOM `getAttribute`). -/
def getAttr (attrs : List (String × String)) (k : String) : Option String :=
  (attrs.find? (fun a => a.1 == k)).map (·.2)

/-- The id is safe inside the CSS attribute selector
`[data-gogo-id="<id>"]`: a double quote or a backslash in the
interpolated id produces an invalid selector, on which
`querySelector`/`querySelectorAll` throw a `SyntaxError`. -/
def selectorSafe (id : String) : Bool :=
  !(id.data.contains '\"' || id.data.contains '\\')

mutual

/-- `querySelector('tag[data-gogo-id="id"]') !== null` (any tag when
`tagF = none`): does an element with the attribute exist in the
subtree? -/
def hasGogoId (tagF : Option String) (id : String) : DNode → Bool
  | .text _ _ => false
  | .elem _ tag attrs cs =>
    ((match tagF with
      | some t => t == tag
      | none => true) &&
      (getAttr attrs "data-gogo-id" == some id)) ||
    hasGogoIdL tagF id cs

def hasGogoIdL (tagF : Option String) (id : String) : List DNode → Bool
  | [] => false
  | c :: cs => hasGogoId tagF id c || hasGogoIdL tagF id cs

end

mutual

/-- Does a text node with JavaScript identity `tid` occur in the
subtree? -/
def hasTextId (tid : Nat) : DNode → Bool
  | .text nid _ => nid == tid
  | .elem _ _ _ cs => hasTextIdL tid cs

def hasTextIdL (tid : Nat) : List DNode → Bool
  | [] => false
  | c :: cs => hasTextId tid c || hasTextIdL tid cs

end

mutual

/-- One fragment wrap: `nodeRange.setStart/setEnd(node, so/eo)` on the
text node with identity `tid` followed by
`nodeRange.surroundContents(mark)`.  The text node splits into the part
before the range, the `<mark class=cls data-gogo-id=id>` wrapping the
covered slice, and the part after; the original node object keeps the
before part.  (The model omits the zero-length text-node remnants
`splitText` can leave at the boundaries — equivalent up to
`normalize()`, and no property below observes them.)  `fresh` seeds the
identities of the created nodes. -/
def wrapText (tid so eo fresh : Nat) (cls id : String) : DNode → List DNode
  | .text nid s =>
    if nid == tid then
      (if so = 0 then [] else [.text nid (s.take so)]) ++
      (.elem fresh "mark" [("class", cls), ("data-gogo-id", id)]
        (if so < eo then [.text (fresh + 1) ((s.take eo).drop so)] else [])) ::
      (if eo < s.length then [.text (fresh + 2) (s.drop eo)] else [])
    else [.text nid s]
  | .elem nid tag attrs cs => [.elem nid tag attrs (wrapTextL tid so eo fresh cls id cs)]

def wrapTextL (tid so eo fresh : Nat) (cls id : String) : List DNode → List DNode
  | [] => []
  | c :: cs => wrapText tid so eo fresh cls id c ++ wrapTextL tid so eo fresh cls id cs

end

/-- Apply one fragment wrap to the whole document. -/
def Document.wrapTextNode (d : Document) (tid so eo : Nat) (cls id : String) : Document :=
  { d with
    nextId := d.nextId + 3
    pre := wrapTextL tid so eo d.nextId cls id d.pre
    bodyKids := wrapTextL tid so eo d.nextId cls id d.bodyKids
    post := wrapTextL tid so eo d.nextId cls id d.post }

/-- The JavaScript node identity at a path (tuples hold live node
references; the model resolves the reference at capture time). -/
def idAtPath (root : DNode) (p : List Nat) : Nat :=
  match root.nodeAt p with
  | some (.text nid _) => nid
  | some (.elem nid _ _ _) => nid
  | none => 0

/-- `highlightRangeLegacy` (highlighter core lines 171–193): build the
mark, try `range.surroundContents(mark)` and on an exception fall back
to `extractContents` + `appendChild` + `insertNode`; the mark element
is returned in both cases (never null).
Model: for a range inside one text container, `surroundContents`
succeeds and splits that node around the covered slice.  Otherwise this
function is reached from `highlightRange` only when the splitter found
no fragment, i.e. the range covers no text; `surroundContents` then
either succeeds on an empty extraction (same-parent boundaries) or
throws and the catch re-inserts the extracted — textless — fragment at
the range start.  Both cases insert a childless mark at the start
boundary; the model leaves the textless covered structure in place
rather than moving it into the mark (equivalent for every property
proved below: document text content, which elements carry which
`data-gogo-id`, and totality). -/
def highlightRangeLegacy (d : Document) (r : Rng) (cls id : String) : Document :=
  if r.sPath = r.ePath then
    d.wrapTextNode (idAtPath d.html r.sPath) r.sOff r.eOff cls id
  else
    d.wrapTextNode (idAtPath d.html r.sPath) r.sOff r.sOff cls id

/-- Result of `highlightRange`: the mutated document, whether the final
`document.querySelector('[data-gogo-id="id"]')` found a mark (the
non-null return), and ghost instrumentation: whether the legacy
whole-range fallback ran, and which fragments were wrapped or skipped
(a skipped fragment models an individual `surroundContents` throwing,
caught by the per-fragment `try`). -/
structure HighlightResult where
  doc : Document
  firstMark : Bool
  legacyUsed : Bool
  wrapped : List Nat
  skipped : List Nat
  deriving Repr

/-- The `textNodeRanges.forEach` loop of `highlightRange`: each
fragment is wrapped independently; a fragment whose wrap throws
(`F tid = true`) is caught, logged and skipped, and the loop
continues. -/
def wrapLoop (F : Nat → Bool) (cls id : String) :
    Document → List (Nat × Nat × Nat) → Document × List Nat × List Nat
  | d, [] => (d, [], [])
  | d, (tid, so, eo) :: rest =>
    if F tid then
      match wrapLoop F cls id d rest with
      | (d', w, sk) => (d', w, tid :: sk)
    else
      match wrapLoop F cls id (d.wrapTextNode tid so eo cls id) rest with
      | (d', w, sk) => (d', tid :: w, sk)

/-- `highlightRange` body, after the id is chosen
(`customId || crypto.randomUUID()`): split the range into per-text-node
fragments; with no fragment fall back to the legacy whole-range wrap
(which returns its mark directly); otherwise wrap each fragment and
finish with `document.querySelector('[data-gogo-id="id"]')` — which
throws (uncaught here) when the id breaks the selector. -/
def highlightRangeCore (F : Nat → Bool) (d : Document) (r : Rng) (ty : HType)
    (id : String) : Except Unit HighlightResult :=
  if (getTextNodesInRange d.html r).isEmpty then
    .ok ⟨highlightRangeLegacy d r (className ty) id, true, true, [], []⟩
  else
    match wrapLoop F (className ty) id d
        ((getTextNodesInRange d.html r).map
          (fun t => (idAtPath d.html t.1, t.2.1, t.2.2))) with
    | (d', w, sk) =>
      if selectorSafe id then
        .ok ⟨d', hasGogoId none id d'.html, false, w, sk⟩
      else .error ()

/-- `highlightRange(range, type, customId?)` with the per-fragment
failure oracle `F` (`F tid` models the wrap of that text node throwing,
e.g. the node was detached concurrently); `freshUuid` models the
`crypto.randomUUID()` result used when no custom id is given. -/
def highlightRangeWith (F : Nat → Bool) (d : Document) (r : Rng) (ty : HType)
    (customId : Option String) (freshUuid : String) : Except Unit HighlightResult :=
  highlightRangeCore F d r ty (customId.getD freshUuid)

/-- `highlightRange` in a quiescent environment (no fragment wrap
throws). -/
def highlightRange (d : Document) (r : Rng) (ty : HType)
    (customId : Option String) (freshUuid : String) : Except Unit HighlightResult :=
  highlightRangeWith (fun _ => false) d r ty customId freshUuid

mutual

/-- `removeHighlight`'s replacement step: every element carrying
`data-gogo-id = id` is replaced by a plain text node holding its
`textContent` (the replacement text node reuses the element's identity
slot; identities are irrelevant to every property below). -/
def stripGogo (id : String) : DNode → DNode
  | .text nid s => .text nid s
  | .elem nid tag attrs cs =>
    if getAttr attrs "data-gogo-id" == some id then
      .text nid (DNode.textContent (.elem nid tag attrs cs))
    else
      .elem nid tag attrs (stripGogoL id cs)

def stripGogoL (id : String) : List DNode → List DNode
  | [] => []
  | c :: cs => stripGogo id c :: stripGogoL id cs

end

/-- The merging pass of `Node.normalize()` on a child list: empty text
nodes are removed and runs of adjacent text nodes are concatenated into
the first node of the run. -/
def mergeText : List DNode → List DNode
  | [] => []
  | .elem nid t a cs :: rest => .elem nid t a cs :: mergeText rest
  | .text nid s :: rest =>
    if s.isEmpty then mergeText rest
    else
      match mergeText rest with
      | .text _ t2 :: r => .text nid (s ++ t2) :: r
      | r => .text nid s :: r

mutual

/-- `Node.normalize()` applied below a node. -/
def normalizeNode : DNode → DNode
  | .text nid s => .text nid s
  | .elem nid tag attrs cs => .elem nid tag attrs (mergeText (normalizeChildren cs))

def normalizeChildren : List DNode → List DNode
  | [] => []
  | c :: cs => normalizeNode c :: normalizeChildren cs

end

/-- `removeHighlight(id)` (highlighter core lines 204–235):
`document.querySelectorAll('[data-gogo-id="id"]')` (throws uncaught on
a selector-breaking id; there is no try/catch in this function); when
no element matches, log and return (before any mutation); otherwise
replace every matching element by a plain text node with the same text
content and run `document.body.normalize()`. -/
def removeHighlight (d : Document) (id : String) : Except Unit Document :=
  if selectorSafe id then
    if hasGogoId none id d.html then
      .ok { d with
        pre := stripGogoL id d.pre
        bodyKids := mergeText (normalizeChildren (stripGogoL id d.bodyKids))
        post := stripGogoL id d.post }
    else .ok d
  else .error ()

/-! ## XPath generation and evaluation -/

/-- One step `tag[idx]` of an absolute XPath (1-based position among the
parent's element children with that tag). -/
structure XStep where
  tag : String
  idx : Nat
  deriving Repr, DecidableEq

/-- An XPath string as `restoreHighlight` receives it: either a string
`document.evaluate` rejects with a `SyntaxError` (such as the empty
string `generateXPath` produces on failure), or a well-formed
`/tag[i]/tag[j]/...` step list. -/
inductive XPathExpr where
  | malformed
  | steps (l : List XStep)
  deriving Repr

/-- Number of element children among `cs`. -/
def countElems (cs : List DNode) : Nat :=
  cs.countP (fun c =>
    match c with
    | .elem _ _ _ _ => true
    | .text _ _ => false)

/-- 1-based position of child `i` within `parent.children` (the
element-only collection). -/
def elemIndex1 (cs : List DNode) (i : Nat) : Nat :=
  countElems (cs.take i) + 1

/-- The `tag[index]` steps along a child-index path, walking down from a
child list; `none` when the path leaves the tree or crosses a text node
(the source walks the same element chain bottom-up via
`parentElement`). -/
def xpathSteps (cs : List DNode) : List Nat → Option (List XStep)
  | [] => some []
  | i :: p =>
    match cs[i]? with
    | some (.elem _ tag _ cs') =>
      (xpathSteps cs' p).map (fun rest => ⟨tag, elemIndex1 cs i⟩ :: rest)
    | _ => none

/-- `generateXPath` on an element at absolute path `p`: climb from the
element while `parentElement` exists, recording `tag[index]` each level.
The `<html>` root has no `parentElement` (its parent is the document),
so the loop stops there and `<html>` itself never contributes a step:
the path of `<html>` is empty and yields `''` (a malformed expression),
and every other element's path starts at its `<html>`-child ancestor. -/
def generateXPathElem (d : Document) (p : List Nat) : XPathExpr :=
  if p = [] then .malformed
  else
    match xpathSteps (d.pre ++ d.body :: d.post) p with
    | some steps => .steps steps
    | none => .malformed

/-- `generateXPath(node)` for the node at absolute path `p`: a text node
is replaced by its `parentElement`; a node that is not (or whose parent
is not) an element yields `''`, a malformed expression. -/
def generateXPath (d : Document) (p : List Nat) : XPathExpr :=
  match d.html.nodeAt p with
  | some (.text _ _) => generateXPathElem d p.dropLast
  | some (.elem _ _ _ _) => generateXPathElem d p
  | none => .malformed

/-- Select the `k`-th (1-based) element child with the given tag,
returning its child index (children numbered from `i`). -/
def selectStep : List DNode → Nat → String → Nat → Option (Nat × DNode)
  | [], _, _, _ => none
  | c :: cs, i, tag, k =>
    match c with
    | .elem _ t _ _ =>
      if t == tag then
        if k = 1 then some (i, c) else selectStep cs (i + 1) tag (k - 1)
      else selectStep cs (i + 1) tag k
    | .text _ _ => selectStep cs (i + 1) tag k

/-- Evaluate a step list from a context node, returning the resolved
node's path relative to that node. -/
def evalFrom (n : DNode) : List XStep → Option (List Nat)
  | [] => some []
  | s :: rest =>
    match n with
    | .text _ _ => none
    | .elem _ _ _ cs =>
      match selectStep cs 0 s.tag s.idx with
      | none => none
      | some (i, c) => (evalFrom c rest).map (fun q => i :: q)

/-- `document.evaluate(xpath, document, null, FIRST_ORDERED_NODE_TYPE)`:
a malformed expression throws (`.error`); otherwise the first matched
node or `null`.  The document node's only element child is `<html>`, so
a first step other than `html[1]` matches nothing.  (The bare
expression `/` — never produced by `generateXPath`, whose step lists
are nonempty — is mapped to no match.) -/
def evalXPath (d : Document) : XPathExpr → Except Unit (Option (List Nat))
  | .malformed => .error ()
  | .steps [] => .ok none
  | .steps (s :: rest) =>
    .ok (if s.tag == "html" && s.idx == 1 then evalFrom d.html rest else none)

/-! ## Restoring highlights -/

/-- JavaScript `hay.indexOf(pat)`: position of the first occurrence, or
`none` (`-1`). -/
def idxOfPat : List Char → List Char → Option Nat
  | hay, pat =>
    if pat.isPrefixOf hay then some 0
    else
      match hay with
      | [] => none
      | _ :: t => (idxOfPat t pat).map (· + 1)

/-- `findAndHighlightText(text, id, type, startOffset)` (highlighter
core lines 403–451): resolve `startOffset` and
`startOffset + text.length` inside `document.body` via
`findTextNodeAtOffset`, build the range (body-relative paths rebased to
absolute), and run `highlightRange`; true iff the mark was found.  The
whole body sits in a `try` whose catch returns false. -/
def findAndHighlightText (d : Document) (text : List Char) (id : String)
    (ty : HType) (startOffset : Nat) : Bool × Document :=
  match findTextNodeAtOffset d.body startOffset with
  | none => (false, d)
  | some (ps, offs) =>
    match findTextNodeAtOffset d.body (startOffset + text.length) with
    | none => (false, d)
    | some (pe, offe) =>
      match highlightRangeCore (fun _ => false) d
          ⟨d.pre.length :: ps, offs, d.pre.length :: pe, offe⟩ ty id with
      | .ok res => (res.firstMark, res.doc)
      | .error _ => (false, d)

/-- `restoreByTextQuote` (highlighter core lines 364–395): search
`document.body.textContent` for `prefix + exact + suffix`; on a hit the
exact text starts at `patternIndex + prefix.length`; otherwise fall
back to searching `exact` alone; no occurrence at all is failure. -/
def restoreByTextQuote (d : Document) (id : String) (tq : TextQuote)
    (ty : HType) : Bool × Document :=
  match idxOfPat (DNode.textContent d.body) (tq.pfx ++ tq.exact ++ tq.sfx) with
  | some pIdx => findAndHighlightText d tq.exact id ty (pIdx + tq.pfx.length)
  | none =>
    match idxOfPat (DNode.textContent d.body) tq.exact with
    | none => (false, d)
    | some eIdx => findAndHighlightText d tq.exact id ty eIdx

/-- `restoreHighlight(id, xpath, textQuote, type)` (highlighter core
lines 273–358).  The idempotency pre-check
`document.querySelector('mark[data-gogo-id="id"]')` sits BEFORE the
`try` block, so a selector-breaking id throws uncaught (`.error`).
Inside the `try`: evaluate the XPath (a `SyntaxError` is caught and
returns false); no match falls back to TextQuote; on a match, search
the node's `textContent` for `exact` (miss falls back to TextQuote),
resolve both boundaries with `findTextNodeAtOffset`, highlight, and
return true unconditionally. -/
def restoreHighlight (d : Document) (id : String) (xp : XPathExpr)
    (tq : TextQuote) (ty : HType) : Except Unit (Bool × Document) :=
  if selectorSafe id then
    if hasGogoId (some "mark") id d.html then .ok (true, d)
    else
      match evalXPath d xp with
      | .error _ => .ok (false, d)
      | .ok none => .ok (restoreByTextQuote d id tq ty)
      | .ok (some nodePath) =>
        match d.html.nodeAt nodePath with
        | none => .ok (false, d)
        | some node =>
          match idxOfPat (DNode.textContent node) tq.exact with
          | none => .ok (restoreByTextQuote d id tq ty)
          | some idx =>
            match findTextNodeAtOffset node idx with
            | none => .ok (false, d)
            | some (ps, offs) =>
              match findTextNodeAtOffset node (idx + tq.exact.length) with
              | none => .ok (false, d)
              | some (pe, offe) =>
                match highlightRangeCore (fun _ => false) d
                    ⟨nodePath ++ ps, offs, nodePath ++ pe, offe⟩ ty id with
                | .ok res => .ok (true, res.doc)
                | .error _ => .ok (false, d)
  else .error ()

/-- `createLocationInfo(range)` (locator.ts): the persisted locator is
the XPath of the range's start container plus the text quote. -/
def createLocationInfo (d : Document) (r : Rng) : XPathExpr × TextQuote :=
  (generateXPath d r.sPath, createTextQuote d.html r)

/-- The Range `restoreHighlight` reconstructs on the TextQuote fallback
path, mirrored as a value (body-relative boundaries rebased to absolute
paths): the pattern hit positions `exact` in `document.body.textContent`
and both boundaries resolve through `findTextNodeAtOffset`. -/
def resolvedRangeTQ (d : Document) (tq : TextQuote) : Option Rng :=
  match
    (match idxOfPat (DNode.textContent d.body) (tq.pfx ++ tq.exact ++ tq.sfx) with
     | some pIdx => some (pIdx + tq.pfx.length)
     | none => idxOfPat (DNode.textContent d.body) tq.exact)
  with
  | none => none
  | some startOffset =>
    match findTextNodeAtOffset d.body startOffset with
    | none => none
    | some (ps, offs) =>
      match findTextNodeAtOffset d.body (startOffset + tq.exact.length) with
      | none => none
      | some (pe, offe) =>
        some ⟨d.pre.length :: ps, offs, d.pre.length :: pe, offe⟩

/-! ## Helper lemmas: marks inserted by wraps -/

/-- The tag filter of the relevant `querySelector` calls. -/
def tagOk : Option String → String → Bool
  | none, _ => true
  | some t, tag => t == tag

theorem hasGogoId_elem (tf : Option String) (id : String) (nid : Nat)
    (tag : String) (attrs : List (String × String)) (cs : List DNode) :
    hasGogoId tf id (.elem nid tag attrs cs) =
      ((tagOk tf tag && (getAttr attrs "data-gogo-id" == some id)) ||
        hasGogoIdL tf id cs) := by
  cases tf <;> rfl

theorem hasGogoIdL_append (tf : Option String) (id : String) (l1 l2 : List DNode) :
    hasGogoIdL tf id (l1 ++ l2) = (hasGogoIdL tf id l1 || hasGogoIdL tf id l2) := by
  induction l1 with
  | nil => simp [hasGogoIdL]
  | cons c cs ih => rw [List.cons_append, hasGogoIdL, hasGogoIdL, ih, Bool.or_assoc]

theorem hasGogoIdL_of_mem {tf : Option String} {id : String} {c : DNode}
    {cs : List DNode} (hm : c ∈ cs) (h : hasGogoId tf id c = true) :
    hasGogoIdL tf id cs = true := by
  induction cs with
  | nil => simp at hm
  | cons c0 cs' ih =>
    rw [hasGogoIdL, Bool.or_eq_true]
    rcases List.mem_cons.mp hm with h0 | h0
    · exact Or.inl (h0 ▸ h)
    · exact Or.inr (ih h0)

theorem hasTextIdL_of_mem {tid : Nat} {c : DNode} {cs : List DNode}
    (hm : c ∈ cs) (h : hasTextId tid c = true) :
    hasTextIdL tid cs = true := by
  induction cs with
  | nil => simp at hm
  | cons c0 cs' ih =>
    rw [hasTextIdL, Bool.or_eq_true]
    rcases List.mem_cons.mp hm with h0 | h0
    · exact Or.inl (h0 ▸ h)
    · exact Or.inr (ih h0)

theorem wrapTextL_append (tid so eo fresh : Nat) (cls id : String)
    (l1 l2 : List DNode) :
    wrapTextL tid so eo fresh cls id (l1 ++ l2) =
      wrapTextL tid so eo fresh cls id l1 ++ wrapTextL tid so eo fresh cls id l2 := by
  induction l1 with
  | nil => simp [wrapTextL]
  | cons c cs ih => rw [List.cons_append, wrapTextL, wrapTextL, ih, List.append_assoc]

/-- The attribute list of a created mark carries the id. -/
theorem getAttr_mark (cls id : String) :
    getAttr [("class", cls), ("data-gogo-id", id)] "data-gogo-id" = some id := by
  unfold getAttr
  rw [List.find?_cons_of_neg _ (by simp), List.find?_cons_of_pos _ (by simp)]
  rfl

mutual

/-- A wrap of a text node that exists in the subtree inserts a mark
carrying the id. -/
theorem wrap_gogo_of_textId (tf : Option String) (tid so eo fresh : Nat)
    (cls id : String) (n : DNode) (htag : tagOk tf "mark" = true)
    (h : hasTextId tid n = true) :
    hasGogoIdL tf id (wrapText tid so eo fresh cls id n) = true := by
  cases n with
  | text nid s =>
    rw [hasTextId] at h
    rw [wrapText, if_pos h, hasGogoIdL_append, Bool.or_eq_true]
    right
    rw [hasGogoIdL, Bool.or_eq_true]
    left
    rw [hasGogoId_elem, htag, getAttr_mark]
    simp
  | elem nid tag attrs cs =>
    rw [hasTextId] at h
    rw [wrapText, hasGogoIdL, hasGogoId_elem, Bool.or_eq_true]
    left
    rw [Bool.or_eq_true]
    right
    exact wrapL_gogo_of_textId tf tid so eo fresh cls id cs htag h

theorem wrapL_gogo_of_textId (tf : Option String) (tid so eo fresh : Nat)
    (cls id : String) (cs : List DNode) (htag : tagOk tf "mark" = true)
    (h : hasTextIdL tid cs = true) :
    hasGogoIdL tf id (wrapTextL tid so eo fresh cls id cs) = true := by
  cases cs with
  | nil => rw [hasTextIdL] at h; exact absurd h (by simp)
  | cons c cs' =>
    rw [hasTextIdL, Bool.or_eq_true] at h
    rw [wrapTextL, hasGogoIdL_append, Bool.or_eq_true]
    rcases h with h | h
    · exact Or.inl (wrap_gogo_of_textId tf tid so eo fresh cls id c htag h)
    · exact Or.inr (wrapL_gogo_of_textId tf tid so eo fresh cls id cs' htag h)

end

mutual

/-- Wrapping never removes an existing attribute-carrying element. -/
theorem wrap_gogo_mono (tf : Option String) (id0 : String) (tid so eo fresh : Nat)
    (cls id : String) (n : DNode) (h : hasGogoId tf id0 n = true) :
    hasGogoIdL tf id0 (wrapText tid so eo fresh cls id n) = true := by
  cases n with
  | text nid s => rw [hasGogoId] at h; exact absurd h (by simp)
  | elem nid tag attrs cs =>
    rw [hasGogoId_elem, Bool.or_eq_true] at h
    rw [wrapText, hasGogoIdL, Bool.or_eq_true]
    left
    rw [hasGogoId_elem, Bool.or_eq_true]
    rcases h with h | h
    · exact Or.inl h
    · exact Or.inr (wrapL_gogo_mono tf id0 tid so eo fresh cls id cs h)

theorem wrapL_gogo_mono (tf : Option String) (id0 : String) (tid so eo fresh : Nat)
    (cls id : String) (cs : List DNode) (h : hasGogoIdL tf id0 cs = true) :
    hasGogoIdL tf id0 (wrapTextL tid so eo fresh cls id cs) = true := by
  cases cs with
  | nil => rw [hasGogoIdL] at h; exact absurd h (by simp)
  | cons c cs' =>
    rw [hasGogoIdL, Bool.or_eq_true] at h
    rw [wrapTextL, hasGogoIdL_append, Bool.or_eq_true]
    rcases h with h | h
    · exact Or.inl (wrap_gogo_mono tf id0 tid so eo fresh cls id c h)
    · exact Or.inr (wrapL_gogo_mono tf id0 tid so eo fresh cls id cs' h)

end

/-- Wrapping the whole document is wrapping the `<html>` root. -/
theorem wrapTextNode_html (d : Document) (tid so eo : Nat) (cls id : String) :
    wrapText tid so eo d.nextId cls id d.html =
      [(d.wrapTextNode tid so eo cls id).html] := by
  show wrapText tid so eo d.nextId cls id
      (.elem d.htmlId "html" d.htmlAttrs (d.pre ++ d.body :: d.post)) = _
  rw [wrapText, wrapTextL_append]
  show _ = [DNode.elem d.htmlId "html" d.htmlAttrs
    (wrapTextL tid so eo d.nextId cls id d.pre ++
      DNode.elem d.bodyId "body" d.bodyAttrs
        (wrapTextL tid so eo d.nextId cls id d.bodyKids) :: wrapTextL tid so eo d.nextId cls id d.post)]
  rw [wrapTextL]
  rfl

theorem wrapTextNode_gogo_of_textId (tf : Option String) (d : Document)
    (tid so eo : Nat) (cls id : String) (htag : tagOk tf "mark" = true)
    (h : hasTextId tid d.html = true) :
    hasGogoId tf id (d.wrapTextNode tid so eo cls id).html = true := by
  have h1 := wrap_gogo_of_textId tf tid so eo d.nextId cls id d.html htag h
  rw [wrapTextNode_html] at h1
  rw [hasGogoIdL, hasGogoIdL, Bool.or_false] at h1
  exact h1

theorem wrapTextNode_gogo_mono (tf : Option String) (id0 : String) (d : Document)
    (tid so eo : Nat) (cls id : String)
    (h : hasGogoId tf id0 d.html = true) :
    hasGogoId tf id0 (d.wrapTextNode tid so eo cls id).html = true := by
  have h1 := wrap_gogo_mono tf id0 tid so eo d.nextId cls id d.html h
  rw [wrapTextNode_html] at h1
  rw [hasGogoIdL, hasGogoIdL, Bool.or_false] at h1
  exact h1

theorem hasTextIdL_of_getElem (tid : Nat) (cs : List DNode) (i : Nat) (c : DNode)
    (hc : cs[i]? = some c) (h : hasTextId tid c = true) :
    hasTextIdL tid cs = true :=
  hasTextIdL_of_mem (List.getElem?_mem hc) h

/-- A text node reachable by `nodeAt` occurs in the tree. -/
theorem hasTextId_of_nodeAt (root : DNode) (p : List Nat) (nid : Nat)
    (s : List Char) (h : root.nodeAt p = some (.text nid s)) :
    hasTextId nid root = true := by
  induction p generalizing root with
  | nil =>
    rw [DNode.nodeAt] at h
    cases h
    rw [hasTextId]
    simp
  | cons i p' ih =>
    cases root with
    | text nid2 s2 => rw [DNode.nodeAt] at h; cases h
    | elem nid2 tag attrs cs =>
      rw [DNode.nodeAt] at h
      cases hc : cs[i]? with
      | none => rw [hc] at h; cases h
      | some c =>
        rw [hc] at h
        simp only [Option.bind_some] at h
        rw [hasTextId]
        exact hasTextIdL_of_getElem nid cs i c hc (ih c h)

/-! ## Helper lemmas: the per-fragment wrap loop -/

theorem wrapLoop_doc_skip (F : Nat → Bool) (cls id : String)
    (l : List (Nat × Nat × Nat)) :
    ∀ d, (∀ t ∈ l, F t.1 = true) → (wrapLoop F cls id d l).1 = d := by
  induction l with
  | nil => intro d _; rfl
  | cons t rest ih =>
    intro d h
    obtain ⟨tid, so, eo⟩ := t
    have hF : F tid = true := h (tid, so, eo) (by simp)
    rw [wrapLoop, if_pos hF]
    have := ih d (fun t ht => h t (by simp [ht]))
    cases hl : wrapLoop F cls id d rest with
    | mk d' wsk => rw [hl] at this; exact this

theorem wrapLoop_wrapped (F : Nat → Bool) (cls id : String)
    (l : List (Nat × Nat × Nat)) :
    ∀ d, (wrapLoop F cls id d l).2.1 = (l.filter (fun t => !F t.1)).map (·.1) := by
  induction l with
  | nil => intro d; rfl
  | cons t rest ih =>
    intro d
    obtain ⟨tid, so, eo⟩ := t
    rw [wrapLoop]
    by_cases hF : F tid = true
    · rw [if_pos hF]
      cases hl : wrapLoop F cls id d rest with
      | mk d' wsk =>
        have := ih d
        rw [hl] at this
        simpa [List.filter_cons, hF] using this
    · rw [if_neg hF]
      cases hl : wrapLoop F cls id (d.wrapTextNode tid so eo cls id) rest with
      | mk d' wsk =>
        have := ih (d.wrapTextNode tid so eo cls id)
        rw [hl] at this
        simp only [Bool.not_eq_true] at hF
        simpa [List.filter_cons, hF] using this

theorem wrapLoop_skipped (F : Nat → Bool) (cls id : String)
    (l : List (Nat × Nat × Nat)) :
    ∀ d, (wrapLoop F cls id d l).2.2 = (l.filter (fun t => F t.1)).map (·.1) := by
  induction l with
  | nil => intro d; rfl
  | cons t rest ih =>
    intro d
    obtain ⟨tid, so, eo⟩ := t
    rw [wrapLoop]
    by_cases hF : F tid = true
    · rw [if_pos hF]
      cases hl : wrapLoop F cls id d rest with
      | mk d' wsk =>
        have := ih d
        rw [hl] at this
        simpa [List.filter_cons, hF] using this
    · rw [if_neg hF]
      cases hl : wrapLoop F cls id (d.wrapTextNode tid so eo cls id) rest with
      | mk d' wsk =>
        have := ih (d.wrapTextNode tid so eo cls id)
        rw [hl] at this
        simp only [Bool.not_eq_true] at hF
        simpa [List.filter_cons, hF] using this

theorem wrapLoop_mark_mono (F : Nat → Bool) (tf : Option String) (cls id id0 : String)
    (l : List (Nat × Nat × Nat)) :
    ∀ d, hasGogoId tf id0 d.html = true →
      hasGogoId tf id0 (wrapLoop F cls id d l).1.html = true := by
  induction l with
  | nil => intro d h; exact h
  | cons t rest ih =>
    intro d h
    obtain ⟨tid, so, eo⟩ := t
    rw [wrapLoop]
    by_cases hF : F tid = true
    · rw [if_pos hF]
      have := ih d h
      cases hl : wrapLoop F cls id d rest with
      | mk d' wsk => rw [hl] at this; exact this
    · rw [if_neg hF]
      have hmono := wrapTextNode_gogo_mono tf id0 d tid so eo cls id h
      have := ih (d.wrapTextNode tid so eo cls id) hmono
      cases hl : wrapLoop F cls id (d.wrapTextNode tid so eo cls id) rest with
      | mk d' wsk => rw [hl] at this; exact this

/-- If every fragment's text node exists and some fragment's wrap does
not throw, the loop leaves a mark with the id in the document. -/
theorem wrapLoop_mark (F : Nat → Bool) (tf : Option String) (cls id : String)
    (l : List (Nat × Nat × Nat)) (htag : tagOk tf "mark" = true) :
    ∀ d, (∀ t ∈ l, hasTextId t.1 d.html = true) → (∃ t ∈ l, F t.1 = false) →
      hasGogoId tf id (wrapLoop F cls id d l).1.html = true := by
  induction l with
  | nil => intro d _ hex; simp at hex
  | cons t rest ih =>
    intro d hall hex
    obtain ⟨tid, so, eo⟩ := t
    rw [wrapLoop]
    by_cases hF : F tid = true
    · rw [if_pos hF]
      have hex' : ∃ t ∈ rest, F t.1 = false := by
        obtain ⟨w, hw, hFw⟩ := hex
        rcases List.mem_cons.mp hw with h0 | h0
        · exfalso; rw [h0] at hFw; rw [hFw] at hF; exact Bool.false_ne_true hF
        · exact ⟨w, h0, hFw⟩
      have := ih d (fun t ht => hall t (by simp [ht])) hex'
      cases hl : wrapLoop F cls id d rest with
      | mk d' wsk => rw [hl] at this; exact this
    · rw [if_neg hF]
      have htid : hasTextId tid d.html = true := hall (tid, so, eo) (by simp)
      have hins := wrapTextNode_gogo_of_textId tf d tid so eo cls id htag htid
      have := wrapLoop_mark_mono F tf cls id id rest
        (d.wrapTextNode tid so eo cls id) hins
      cases hl : wrapLoop F cls id (d.wrapTextNode tid so eo cls id) rest with
      | mk d' wsk => rw [hl] at this; exact this

/-! ## Helper lemmas: fragments reference real text nodes -/

/-- Every tuple of the splitter references a text node of the document,
with positive extent. -/
theorem mem_getTextNodes_node (root : DNode) (r : Rng)
    (t : List Nat × Nat × Nat) (h : t ∈ getTextNodesInRange root r) :
    (∃ nid s, root.nodeAt t.1 = some (.text nid s) ∧ idAtPath root t.1 = nid) ∧
      t.2.1 < t.2.2 := by
  rw [getTextNodesInRange_def] at h
  obtain ⟨e, he, hmap⟩ := List.mem_filterMap.mp h
  have heF := List.mem_filter.mp he
  have heMem : e ∈ DNode.flatTexts [] root := heF.1
  by_cases hint : intersectsNode r e.1 = true
  · rw [if_pos hint] at hmap
    by_cases hlt : (if e.1 = r.sPath then r.sOff else 0) <
        (if e.1 = r.ePath then r.eOff else e.2.length)
    · rw [if_pos hlt] at hmap
      have ht : t = (e.1, (if e.1 = r.sPath then r.sOff else 0),
          (if e.1 = r.ePath then r.eOff else e.2.length)) := by
        cases hmap; rfl
      obtain ⟨q, nid, hq, hnode⟩ := DNode.nodeAt_of_mem_flatTexts [] root e heMem
      simp only [List.nil_append] at hq
      rw [← hq] at hnode
      constructor
      · refine ⟨nid, e.2, ?_, ?_⟩
        · rw [ht]; exact hnode
        · rw [ht]
          show idAtPath root e.1 = nid
          unfold idAtPath
          rw [hnode]
      · rw [ht]; exact hlt
    · rw [if_neg hlt] at hmap; cases hmap
  · rw [if_neg hint] at hmap; cases hmap

theorem mem_getTextNodes_textId (root : DNode) (r : Rng)
    (t : List Nat × Nat × Nat) (h : t ∈ getTextNodesInRange root r) :
    hasTextId (idAtPath root t.1) root = true := by
  obtain ⟨⟨nid, s, hnode, hid⟩, _⟩ := mem_getTextNodes_node root r t h
  rw [hid]
  exact hasTextId_of_nodeAt root t.1 nid s hnode

/-- `highlightRangeCore` with no environmental wrap failure, on a range
whose start container is a live text node: it returns `ok`, reports the
mark found, and a `<mark data-gogo-id=id>` element is in the document. -/
theorem core_clean_mark (d : Document) (r : Rng) (ty : HType) (id : String)
    (tf : Option String) (htag : tagOk tf "mark" = true)
    (hsafe : selectorSafe id = true)
    (htid : hasTextId (idAtPath d.html r.sPath) d.html = true) :
    ∃ res, highlightRangeCore (fun _ => false) d r ty id = .ok res ∧
      res.firstMark = true ∧ hasGogoId tf id res.doc.html = true := by
  unfold highlightRangeCore
  by_cases hemp : (getTextNodesInRange d.html r).isEmpty = true
  · rw [if_pos hemp]
    refine ⟨_, rfl, rfl, ?_⟩
    show hasGogoId tf id (highlightRangeLegacy d r (className ty) id).html = true
    unfold highlightRangeLegacy
    by_cases hsame : r.sPath = r.ePath
    · rw [if_pos hsame]
      exact wrapTextNode_gogo_of_textId tf d _ _ _ _ _ htag htid
    · rw [if_neg hsame]
      exact wrapTextNode_gogo_of_textId tf d _ _ _ _ _ htag htid
  · rw [if_neg hemp]
    have hne : getTextNodesInRange d.html r ≠ [] := by
      intro hc; rw [hc] at hemp; exact hemp rfl
    obtain ⟨t0, l0, hl0⟩ := List.exists_cons_of_ne_nil hne
    have hall : ∀ t ∈ (getTextNodesInRange d.html r).map
        (fun t => (idAtPath d.html t.1, t.2.1, t.2.2)),
        hasTextId t.1 d.html = true := by
      intro t ht
      obtain ⟨u, hu, hut⟩ := List.mem_map.mp ht
      rw [← hut]
      exact mem_getTextNodes_textId d.html r u hu
    have hex : ∃ t ∈ (getTextNodesInRange d.html r).map
        (fun t => (idAtPath d.html t.1, t.2.1, t.2.2)),
        (fun _ => false) t.1 = false := by
      refine ⟨(idAtPath d.html t0.1, t0.2.1, t0.2.2), ?_, rfl⟩
      exact List.mem_map.mpr ⟨t0, by rw [hl0]; simp, rfl⟩
    have hmarkTf := wrapLoop_mark (fun _ => false) tf (className ty) id _ htag d hall hex
    have hmarkNone := wrapLoop_mark (fun _ => false) none (className ty) id _ rfl d hall hex
    cases hl : wrapLoop (fun _ => false) (className ty) id d
        ((getTextNodesInRange d.html r).map
          (fun t => (idAtPath d.html t.1, t.2.1, t.2.2))) with
    | mk d' wsk =>
      obtain ⟨w, sk⟩ := wsk
      rw [hl] at hmarkTf hmarkNone
      dsimp only
      rw [if_pos hsafe]
      exact ⟨_, rfl, hmarkNone, hmarkTf⟩

/-! ## C5: structural-wrap error policy -/

/-- Two-fragment document for exercising the splitter:
`<body><p>ab<b>cd</b></p></body>`. -/
def cexDoc5 : Document :=
  ⟨100, 0, [], [], 1, [],
    [.elem 2 "p" [] [.text 3 ['a', 'b'], .elem 4 "b" [] [.text 5 ['c', 'd']]]], []⟩

/-- A range covering both text nodes of `cexDoc5`. -/
def cexRng5 : Rng := ⟨[0, 0, 0], 0, [0, 0, 1, 0], 2⟩

/-- C5 counterexample: the claim says the overall creation succeeds
whenever at least one fragment was produced.  Here the splitter
produces two fragments, every individual wrap throws (each is caught
and skipped, no legacy fallback), and the final
`querySelector('[data-gogo-id="id"]')` finds nothing: `highlightRange`
returns null — the creation did not succeed although fragments were
produced. -/
theorem claim_C5_counterexample :
    (getTextNodesInRange cexDoc5.html cexRng5).length = 2 ∧
    ∃ res, highlightRangeWith (fun _ => true) cexDoc5 cexRng5 .agree
        (some "x") "u" = .ok res ∧
      res.legacyUsed = false ∧ res.firstMark = false ∧
      res.wrapped = [] ∧ res.skipped = [3, 5] := by
  refine ⟨by decide, _, rfl, rfl, rfl, rfl, rfl⟩

/-- C5 amended: (1) the legacy whole-range wrap runs if and only if the
splitter produced no fragment (and then the mark is returned directly);
(2) with fragments present, each fragment whose wrap throws is skipped
and every other fragment is still wrapped, in order; (3) the creation
succeeds if at least one fragment's wrap succeeded; (4) if every
fragment's wrap throws, the creation returns null (fails) and the
document is unchanged — even though fragments were produced. -/
theorem claim_C5_amended (F : Nat → Bool) (d : Document) (r : Rng)
    (ty : HType) (id : String) :
    (getTextNodesInRange d.html r = [] →
      highlightRangeCore F d r ty id =
        .ok ⟨highlightRangeLegacy d r (className ty) id, true, true, [], []⟩) ∧
    (getTextNodesInRange d.html r ≠ [] → selectorSafe id = true →
      ∃ res, highlightRangeCore F d r ty id = .ok res ∧
        res.legacyUsed = false ∧
        res.wrapped = (((getTextNodesInRange d.html r).map
          (fun t => (idAtPath d.html t.1, t.2.1, t.2.2))).filter
            (fun t => !F t.1)).map (·.1) ∧
        res.skipped = (((getTextNodesInRange d.html r).map
          (fun t => (idAtPath d.html t.1, t.2.1, t.2.2))).filter
            (fun t => F t.1)).map (·.1)) ∧
    ((∃ t ∈ getTextNodesInRange d.html r, F (idAtPath d.html t.1) = false) →
      selectorSafe id = true →
      ∃ res, highlightRangeCore F d r ty id = .ok res ∧ res.firstMark = true) ∧
    (getTextNodesInRange d.html r ≠ [] →
      (∀ t ∈ getTextNodesInRange d.html r, F (idAtPath d.html t.1) = true) →
      selectorSafe id = true → hasGogoId none id d.html = false →
      ∃ res, highlightRangeCore F d r ty id = .ok res ∧
        res.firstMark = false ∧ res.doc = d) := by
  refine ⟨?_, ?_, ?_, ?_⟩
  · intro hE
    unfold highlightRangeCore
    rw [if_pos (by rw [hE]; rfl)]
  · intro hne hsafe
    unfold highlightRangeCore
    rw [if_neg (by simpa [List.isEmpty_iff] using hne)]
    have hw := wrapLoop_wrapped F (className ty) id
      ((getTextNodesInRange d.html r).map
        (fun t => (idAtPath d.html t.1, t.2.1, t.2.2))) d
    have hsk := wrapLoop_skipped F (className ty) id
      ((getTextNodesInRange d.html r).map
        (fun t => (idAtPath d.html t.1, t.2.1, t.2.2))) d
    cases hl : wrapLoop F (className ty) id d
        ((getTextNodesInRange d.html r).map
          (fun t => (idAtPath d.html t.1, t.2.1, t.2.2))) with
    | mk d' wsk =>
      obtain ⟨w, sk⟩ := wsk
      rw [hl] at hw hsk
      dsimp only
      rw [if_pos hsafe]
      refine ⟨_, rfl, rfl, ?_, ?_⟩
      · simpa using hw
      · simpa using hsk
  · intro hex hsafe
    obtain ⟨t0, ht0, hF0⟩ := hex
    have hne : getTextNodesInRange d.html r ≠ [] := by
      intro hc; rw [hc] at ht0; simp at ht0
    unfold highlightRangeCore
    rw [if_neg (by simpa [List.isEmpty_iff] using hne)]
    have hall : ∀ t ∈ (getTextNodesInRange d.html r).map
        (fun t => (idAtPath d.html t.1, t.2.1, t.2.2)),
        hasTextId t.1 d.html = true := by
      intro t ht
      obtain ⟨u, hu, hut⟩ := List.mem_map.mp ht
      rw [← hut]
      exact mem_getTextNodes_textId d.html r u hu
    have hex' : ∃ t ∈ (getTextNodesInRange d.html r).map
        (fun t => (idAtPath d.html t.1, t.2.1, t.2.2)), F t.1 = false := by
      exact ⟨(idAtPath d.html t0.1, t0.2.1, t0.2.2),
        List.mem_map.mpr ⟨t0, ht0, rfl⟩, hF0⟩
    have hmark := wrapLoop_mark F none (className ty) id _ rfl d hall hex'
    cases hl : wrapLoop F (className ty) id d
        ((getTextNodesInRange d.html r).map
          (fun t => (idAtPath d.html t.1, t.2.1, t.2.2))) with
    | mk d' wsk =>
      obtain ⟨w, sk⟩ := wsk
      rw [hl] at hmark
      dsimp only
      rw [if_pos hsafe]
      exact ⟨_, rfl, hmark⟩
  · intro hne hallF hsafe hnoexist
    unfold highlightRangeCore
    rw [if_neg (by simpa [List.isEmpty_iff] using hne)]
    have hskip : ∀ t ∈ (getTextNodesInRange d.html r).map
        (fun t => (idAtPath d.html t.1, t.2.1, t.2.2)), F t.1 = true := by
      intro t ht
      obtain ⟨u, hu, hut⟩ := List.mem_map.mp ht
      rw [← hut]
      exact hallF u hu
    have hdoc := wrapLoop_doc_skip F (className ty) id _ d hskip
    cases hl : wrapLoop F (className ty) id d
        ((getTextNodesInRange d.html r).map
          (fun t => (idAtPath d.html t.1, t.2.1, t.2.2))) with
    | mk d' wsk =>
      obtain ⟨w, sk⟩ := wsk
      rw [hl] at hdoc
      dsimp only at hdoc ⊢
      rw [if_pos hsafe, hdoc]
      refine ⟨_, rfl, ?_, rfl⟩
      exact hnoexist

/-- Single-text-node document for the legacy-branch witness. -/
def wDoc5 : Document := ⟨10, 0, [], [], 1, [], [.text 2 ['h', 'i']], []⟩

/-- A range inside the single text node of `wDoc5` (the splitter finds
no fragment there). -/
def wRng5 : Rng := ⟨[0, 0], 0, [0, 0], 1⟩

theorem claim_C5_amended_witness :
    (getTextNodesInRange wDoc5.html wRng5 = [] ∧
      highlightRangeCore (fun _ => false) wDoc5 wRng5 .agree "w" =
        .ok ⟨highlightRangeLegacy wDoc5 wRng5 (className .agree) "w",
          true, true, [], []⟩) ∧
    ((∃ t ∈ getTextNodesInRange cexDoc5.html cexRng5,
        (fun _ => false) (idAtPath cexDoc5.html t.1) = false) ∧
      ∃ res, highlightRangeCore (fun _ => false) cexDoc5 cexRng5 .agree "w" =
        .ok res ∧ res.firstMark = true) := by
  constructor
  · exact ⟨by decide,
      (claim_C5_amended (fun _ => false) wDoc5 wRng5 .agree "w").1 (by decide)⟩
  · exact ⟨by decide,
      (claim_C5_amended (fun _ => false) cexDoc5 cexRng5 .agree "w").2.2.1
        (by decide) (by decide)⟩

/-! ## C6: exception containment at the entry points -/

/-- A minimal document. -/
def cexDoc6 : Document := ⟨0, 0, [], [], 1, [], [.text 2 ['h']], []⟩

/-- C6 counterexample: an annotation id containing a double quote makes
the interpolated CSS selector `[data-gogo-id="<id>"]` invalid.
`removeHighlight` runs `document.querySelectorAll` with no try/catch at
all, and `restoreHighlight` runs its idempotency `querySelector` BEFORE
its try block: both let the `SyntaxError` escape to the caller. -/
theorem claim_C6_counterexample :
    removeHighlight cexDoc6 "a\"b" = .error () ∧
    restoreHighlight cexDoc6 "a\"b" .malformed ⟨[], [], []⟩ .agree =
      .error () := by
  exact ⟨rfl, rfl⟩

/-- C6 amended: for selector-safe annotation ids — ids the
engine-interpolated CSS attribute selectors accept, which is the case
for every id the engine itself generates — the create, remove and
restore entry points always return normally (no exception escapes);
internal failures surface only as boolean/null sentinel results. -/
theorem claim_C6_amended (F : Nat → Bool) (d : Document) (r : Rng) (ty : HType)
    (customId : Option String) (freshUuid : String) (id : String)
    (xp : XPathExpr) (tq : TextQuote) :
    (selectorSafe (customId.getD freshUuid) = true →
      ∃ res, highlightRangeWith F d r ty customId freshUuid = .ok res) ∧
    (selectorSafe id = true → ∃ d2, removeHighlight d id = .ok d2) ∧
    (selectorSafe id = true →
      ∃ b d2, restoreHighlight d id xp tq ty = .ok (b, d2)) := by
  refine ⟨?_, ?_, ?_⟩
  · intro hsafe
    unfold highlightRangeWith highlightRangeCore
    by_cases hemp : (getTextNodesInRange d.html r).isEmpty = true
    · rw [if_pos hemp]
      exact ⟨_, rfl⟩
    · rw [if_neg hemp]
      cases hl : wrapLoop F (className ty) (customId.getD freshUuid) d
          ((getTextNodesInRange d.html r).map
            (fun t => (idAtPath d.html t.1, t.2.1, t.2.2))) with
      | mk d' wsk =>
        obtain ⟨w, sk⟩ := wsk
        dsimp only
        rw [if_pos hsafe]
        exact ⟨_, rfl⟩
  · intro hsafe
    unfold removeHighlight
    rw [if_pos hsafe]
    by_cases hg : hasGogoId none id d.html = true
    · rw [if_pos hg]; exact ⟨_, rfl⟩
    · rw [if_neg hg]; exact ⟨d, rfl⟩
  · intro hsafe
    unfold restoreHighlight
    rw [if_pos hsafe]
    by_cases hm : hasGogoId (some "mark") id d.html = true
    · rw [if_pos hm]; exact ⟨true, d, rfl⟩
    · rw [if_neg hm]
      cases hx : evalXPath d xp with
      | error u => exact ⟨false, d, rfl⟩
      | ok o =>
        cases o with
        | none =>
          exact ⟨(restoreByTextQuote d id tq ty).1,
            (restoreByTextQuote d id tq ty).2, rfl⟩
        | some nodePath =>
          dsimp only
          cases hn : d.html.nodeAt nodePath with
          | none => exact ⟨false, d, rfl⟩
          | some node =>
            dsimp only
            cases hi : idxOfPat (DNode.textContent node) tq.exact with
            | none =>
              exact ⟨(restoreByTextQuote d id tq ty).1,
                (restoreByTextQuote d id tq ty).2, rfl⟩
            | some idx =>
              dsimp only
              cases hs : findTextNodeAtOffset node idx with
              | none => exact ⟨false, d, rfl⟩
              | some pr =>
                obtain ⟨ps, offs⟩ := pr
                dsimp only
                cases he : findTextNodeAtOffset node (idx + tq.exact.length) with
                | none => exact ⟨false, d, rfl⟩
                | some pr2 =>
                  obtain ⟨pe, offe⟩ := pr2
                  dsimp only
                  cases hc : highlightRangeCore (fun _ => false) d
                      ⟨nodePath ++ ps, offs, nodePath ++ pe, offe⟩ ty id with
                  | error u => exact ⟨false, d, rfl⟩
                  | ok res => exact ⟨true, res.doc, rfl⟩

theorem claim_C6_amended_witness :
    selectorSafe "w" = true ∧
    (∃ res, highlightRangeWith (fun _ => false) cexDoc6
      ⟨[0, 0], 0, [0, 0], 1⟩ .agree (some "w") "u" = .ok res) ∧
    (∃ d2, removeHighlight cexDoc6 "w" = .ok d2) ∧
    (∃ b d2, restoreHighlight cexDoc6 "w" .malformed ⟨[], [], []⟩ .agree =
      .ok (b, d2)) := by
  have h := claim_C6_amended (fun _ => false) cexDoc6 ⟨[0, 0], 0, [0, 0], 1⟩
    .agree (some "w") "u" "w" .malformed ⟨[], [], []⟩
  exact ⟨by decide, h.1 (by decide), h.2.1 (by decide), h.2.2 (by decide)⟩

/-! ## Helper lemmas: resolved offsets reference real text nodes -/

/-- Navigating from `<html>` into the body child. -/
theorem nodeAt_html_body (d : Document) (q : List Nat) :
    d.html.nodeAt (d.pre.length :: q) = d.body.nodeAt q := by
  show DNode.nodeAt (.elem d.htmlId "html" d.htmlAttrs (d.pre ++ d.body :: d.post))
    (d.pre.length :: q) = _
  rw [DNode.nodeAt]
  rw [List.getElem?_append_right (Nat.le_refl _)]
  simp

/-- The found entries of `annotate` start at or before the target
(the annotated spans are contiguous from the base). -/
theorem annotate_find?_le (t : Nat) :
    ∀ (base : Nat) (l : List (List Nat × List Char)) (e : List Nat × Nat × List Char),
    (annotate base l).find? (fun e => t ≤ e.2.1 + e.2.2.length) = some e →
    base ≤ t → e.2.1 ≤ t := by
  intro base l
  induction l generalizing base with
  | nil => intro e he _; simp [annotate] at he
  | cons x rest ih =>
    intro e he hbase
    obtain ⟨xp, xs⟩ := x
    rw [annotate] at he
    by_cases hp : t ≤ base + xs.length
    · rw [List.find?_cons_of_pos _ (by simpa using hp)] at he
      cases he
      exact hbase
    · rw [List.find?_cons_of_neg _ (by simpa using hp)] at he
      exact ih (base + xs.length) e he (by omega)

/-- What a successful `findTextNodeAtOffset` tells us: the returned
path is an annotated text node whose span contains the target, and the
local offset is the target minus the node's global start. -/
theorem fta_spec_mem (root : DNode) (t : Nat) (p : List Nat) (off : Nat)
    (h : findTextNodeAtOffset root t = some (p, off)) :
    ∃ o s, (p, o, s) ∈ annotate 0 (DNode.flatTexts [] root) ∧
      o ≤ t ∧ t ≤ o + s.length ∧ off = t - o := by
  unfold findTextNodeAtOffset at h
  rw [ftaNode_spec root t 0 (Nat.zero_le _)] at h
  cases hf : (annotate 0 (DNode.flatTexts [] root)).find?
      (fun e => t ≤ e.2.1 + e.2.2.length) with
  | none => rw [hf] at h; simp at h
  | some e =>
    rw [hf] at h
    simp only at h
    cases h
    have hmem := List.mem_of_find?_eq_some hf
    have hpred : t ≤ e.2.1 + e.2.2.length := by
      have := List.find?_some hf
      simpa using this
    have hle := annotate_find?_le t 0 _ e hf (Nat.zero_le _)
    exact ⟨e.2.1, e.2.2, hmem, hle, hpred, rfl⟩

/-- A successful `findTextNodeAtOffset` resolves to a real text node. -/
theorem fta_node_text (root : DNode) (t : Nat) (p : List Nat) (off : Nat)
    (h : findTextNodeAtOffset root t = some (p, off)) :
    ∃ nid s, root.nodeAt p = some (.text nid s) ∧ off ≤ s.length := by
  obtain ⟨o, s, hmem, ho, hts, hoff⟩ := fta_spec_mem root t p off h
  have hproj := annotate_proj 0 _ _ hmem
  obtain ⟨q, nid, hq, hnode⟩ :=
    DNode.nodeAt_of_mem_flatTexts [] root (p, s) hproj
  simp only [List.nil_append] at hq
  rw [← hq] at hnode
  exact ⟨nid, s, hnode, by omega⟩

/-- `findAndHighlightText` reporting success leaves a mark element
carrying the id (for any tag filter accepting `mark`). -/
theorem fAHT_true_mark (tf : Option String) (d : Document) (text : List Char)
    (id : String) (ty : HType) (off : Nat) (d2 : Document)
    (htag : tagOk tf "mark" = true) (hsafe : selectorSafe id = true)
    (h : findAndHighlightText d text id ty off = (true, d2)) :
    hasGogoId tf id d2.html = true := by
  unfold findAndHighlightText at h
  cases hs : findTextNodeAtOffset d.body off with
  | none => rw [hs] at h; cases h
  | some pr =>
    obtain ⟨ps, offs⟩ := pr
    rw [hs] at h
    cases he : findTextNodeAtOffset d.body (off + text.length) with
    | none => rw [he] at h; simp at h
    | some pr2 =>
      obtain ⟨pe, offe⟩ := pr2
      rw [he] at h
      dsimp only at h
      obtain ⟨nid, s, hnode, _⟩ := fta_node_text d.body off ps offs hs
      have hnodeH : d.html.nodeAt (d.pre.length :: ps) = some (.text nid s) := by
        rw [nodeAt_html_body]; exact hnode
      have htid : hasTextId (idAtPath d.html
          (Rng.mk (d.pre.length :: ps) offs (d.pre.length :: pe) offe).sPath)
          d.html = true := by
        show hasTextId (idAtPath d.html (d.pre.length :: ps)) d.html = true
        unfold idAtPath
        rw [hnodeH]
        exact hasTextId_of_nodeAt d.html _ nid s hnodeH
      obtain ⟨res, hcore, hfm, hmark⟩ := core_clean_mark d
        ⟨d.pre.length :: ps, offs, d.pre.length :: pe, offe⟩ ty id tf htag hsafe htid
      rw [hcore] at h
      simp only at h
      obtain ⟨hb, hd⟩ := Prod.mk.injEq .. ▸ h
      rw [← hd]
      exact hmark

/-- `restoreByTextQuote` reporting success leaves a mark element
carrying the id. -/
theorem rbtq_true_mark (tf : Option String) (d : Document) (id : String)
    (tq : TextQuote) (ty : HType) (d2 : Document)
    (htag : tagOk tf "mark" = true) (hsafe : selectorSafe id = true)
    (h : restoreByTextQuote d id tq ty = (true, d2)) :
    hasGogoId tf id d2.html = true := by
  unfold restoreByTextQuote at h
  cases h1 : idxOfPat (DNode.textContent d.body) (tq.pfx ++ tq.exact ++ tq.sfx) with
  | some pIdx =>
    rw [h1] at h
    exact fAHT_true_mark tf d tq.exact id ty _ d2 htag hsafe h
  | none =>
    rw [h1] at h
    cases h2 : idxOfPat (DNode.textContent d.body) tq.exact with
    | none => rw [h2] at h; cases h
    | some eIdx =>
      rw [h2] at h
      exact fAHT_true_mark tf d tq.exact id ty _ d2 htag hsafe h

/-- `restoreHighlight` reporting success leaves a mark element carrying
the id. -/
theorem restore_true_mark (d : Document) (id : String) (xp : XPathExpr)
    (tq : TextQuote) (ty : HType) (d2 : Document)
    (hsafe : selectorSafe id = true)
    (h : restoreHighlight d id xp tq ty = .ok (true, d2)) :
    hasGogoId (some "mark") id d2.html = true := by
  unfold restoreHighlight at h
  rw [if_pos hsafe] at h
  by_cases hm : hasGogoId (some "mark") id d.html = true
  · rw [if_pos hm] at h
    cases h
    exact hm
  · rw [if_neg hm] at h
    cases hx : evalXPath d xp with
    | error u => rw [hx] at h; simp at h
    | ok o =>
      rw [hx] at h
      cases o with
      | none =>
        simp only at h
        cases hr : restoreByTextQuote d id tq ty with
        | mk b dd =>
          rw [hr] at h
          cases h
          exact rbtq_true_mark (some "mark") d id tq ty d2 rfl hsafe hr
      | some nodePath =>
        simp only at h
        cases hn : d.html.nodeAt nodePath with
        | none => rw [hn] at h; simp at h
        | some node =>
          rw [hn] at h
          simp only at h
          cases hi : idxOfPat (DNode.textContent node) tq.exact with
          | none =>
            rw [hi] at h
            simp only at h
            cases hr : restoreByTextQuote d id tq ty with
            | mk b dd =>
              rw [hr] at h
              cases h
              exact rbtq_true_mark (some "mark") d id tq ty d2 rfl hsafe hr
          | some idx =>
            rw [hi] at h
            simp only at h
            cases hs : findTextNodeAtOffset node idx with
            | none => rw [hs] at h; simp at h
            | some pr =>
              obtain ⟨ps, offs⟩ := pr
              rw [hs] at h
              simp only at h
              cases he : findTextNodeAtOffset node (idx + tq.exact.length) with
              | none => rw [he] at h; simp at h
              | some pr2 =>
                obtain ⟨pe, offe⟩ := pr2
                rw [he] at h
                simp only at h
                obtain ⟨nid, s, hnode, _⟩ := fta_node_text node idx ps offs hs
                have hnodeH : d.html.nodeAt (nodePath ++ ps) =
                    some (.text nid s) := by
                  rw [DNode.nodeAt_append, hn]
                  simpa using hnode
                have htid : hasTextId (idAtPath d.html
                    (Rng.mk (nodePath ++ ps) offs (nodePath ++ pe) offe).sPath)
                    d.html = true := by
                  show hasTextId (idAtPath d.html (nodePath ++ ps)) d.html = true
                  unfold idAtPath
                  rw [hnodeH]
                  exact hasTextId_of_nodeAt d.html _ nid s hnodeH
                obtain ⟨res, hcore, hfm, hmark⟩ := core_clean_mark d
                  ⟨nodePath ++ ps, offs, nodePath ++ pe, offe⟩ ty id
                  (some "mark") rfl hsafe htid
                rw [hcore] at h
                simp only [Except.ok.injEq, Prod.mk.injEq] at h
                rw [← h.2]
                exact hmark

/-! ## C3: idempotent restoration -/

/-- C3: (1) with a `<mark data-gogo-id=id>` already in the document,
`restoreHighlight` short-circuits: success and an unchanged document;
(2) whenever `restoreHighlight` reports success it leaves such a mark
behind, so running it again with the same descriptor is a no-op — a
second restore never duplicates the highlight. -/
theorem claim_C3 (d : Document) (id : String) (xp : XPathExpr) (tq : TextQuote)
    (ty : HType) (hsafe : selectorSafe id = true) :
    (hasGogoId (some "mark") id d.html = true →
      restoreHighlight d id xp tq ty = .ok (true, d)) ∧
    (∀ d2, restoreHighlight d id xp tq ty = .ok (true, d2) →
      hasGogoId (some "mark") id d2.html = true ∧
      restoreHighlight d2 id xp tq ty = .ok (true, d2)) := by
  constructor
  · intro hm
    unfold restoreHighlight
    rw [if_pos hsafe, if_pos hm]
  · intro d2 h
    have hmark := restore_true_mark d id xp tq ty d2 hsafe h
    refine ⟨hmark, ?_⟩
    unfold restoreHighlight
    rw [if_pos hsafe, if_pos hmark]

/-- `<body><p>ab</p></body>` with an existing mark around `b`:
`<body><p>a<mark class="gogo-highlight-agree" data-gogo-id="w">b</mark></p></body>`. -/
def wDoc3 : Document :=
  ⟨10, 0, [], [], 1, [],
    [.elem 2 "p" [] [.text 3 ['a'],
      .elem 4 "mark" [("class", "gogo-highlight-agree"), ("data-gogo-id", "w")]
        [.text 5 ['b']]]], []⟩

theorem claim_C3_witness :
    (selectorSafe "w" = true ∧ hasGogoId (some "mark") "w" wDoc3.html = true ∧
      restoreHighlight wDoc3 "w" .malformed ⟨['b'], [], []⟩ .agree =
        .ok (true, wDoc3)) ∧
    (restoreHighlight wDoc3 "w" .malformed ⟨['b'], [], []⟩ .agree =
        .ok (true, wDoc3) →
      hasGogoId (some "mark") "w" wDoc3.html = true ∧
      restoreHighlight wDoc3 "w" .malformed ⟨['b'], [], []⟩ .agree =
        .ok (true, wDoc3)) := by
  have h := claim_C3 wDoc3 "w" .malformed ⟨['b'], [], []⟩ .agree (by decide)
  refine ⟨⟨by decide, by decide, h.1 (by decide)⟩, fun hr => h.2 wDoc3 hr⟩

/-! ## Helper lemmas: text content and removal -/

theorem textContentL_append (l1 l2 : List DNode) :
    DNode.textContentL (l1 ++ l2) =
      DNode.textContentL l1 ++ DNode.textContentL l2 := by
  induction l1 with
  | nil => simp [DNode.textContentL]
  | cons c cs ih =>
    rw [List.cons_append, DNode.textContentL, DNode.textContentL, ih,
      List.append_assoc]

mutual

/-- Replacing every carrier of the id by plain text leaves no carrier. -/
theorem strip_gogo (tf : Option String) (id : String) (n : DNode) :
    hasGogoId tf id (stripGogo id n) = false := by
  cases n with
  | text nid s => rfl
  | elem nid tag attrs cs =>
    rw [stripGogo]
    by_cases hm : (getAttr attrs "data-gogo-id" == some id) = true
    · rw [if_pos hm]
      rfl
    · rw [if_neg hm]
      rw [hasGogoId_elem, Bool.eq_false_iff.mpr hm, Bool.and_false, Bool.false_or]
      exact stripL_gogo tf id cs

theorem stripL_gogo (tf : Option String) (id : String) (cs : List DNode) :
    hasGogoIdL tf id (stripGogoL id cs) = false := by
  cases cs with
  | nil => rfl
  | cons c cs' =>
    rw [stripGogoL, hasGogoIdL, strip_gogo tf id c, stripL_gogo tf id cs',
      Bool.or_false]

end

mutual

/-- The replacement text node holds exactly the carrier's text. -/
theorem strip_content (id : String) (n : DNode) :
    DNode.textContent (stripGogo id n) = DNode.textContent n := by
  cases n with
  | text nid s => rfl
  | elem nid tag attrs cs =>
    rw [stripGogo]
    by_cases hm : (getAttr attrs "data-gogo-id" == some id) = true
    · rw [if_pos hm]
      rfl
    · rw [if_neg hm]
      rw [DNode.textContent, DNode.textContent]
      exact stripL_content id cs

theorem stripL_content (id : String) (cs : List DNode) :
    DNode.textContentL (stripGogoL id cs) = DNode.textContentL cs := by
  cases cs with
  | nil => rfl
  | cons c cs' =>
    rw [stripGogoL, DNode.textContentL, DNode.textContentL,
      strip_content id c, stripL_content id cs']

end

theorem mergeText_gogo (tf : Option String) (id : String) (l : List DNode) :
    hasGogoIdL tf id (mergeText l) = hasGogoIdL tf id l := by
  induction l with
  | nil => rfl
  | cons c rest ih =>
    cases c with
    | elem nid t a cs => rw [mergeText, hasGogoIdL, hasGogoIdL, ih]
    | text nid s =>
      rw [mergeText]
      by_cases he : s.isEmpty = true
      · rw [if_pos he, ih]
        simp [hasGogoIdL, hasGogoId]
      · rw [if_neg he]
        have ih' := ih
        cases hm : mergeText rest with
        | nil =>
          rw [hm] at ih'
          dsimp only
          simp only [hasGogoIdL, hasGogoId] at ih' ⊢
          simpa using ih'
        | cons m r' =>
          rw [hm] at ih'
          cases m with
          | text nid2 t2 =>
            dsimp only
            simp only [hasGogoIdL, hasGogoId] at ih' ⊢
            simpa using ih'
          | elem nid2 tg at2 cs2 =>
            dsimp only
            simp only [hasGogoIdL, hasGogoId] at ih' ⊢
            simpa using ih'

theorem mergeText_content (l : List DNode) :
    DNode.textContentL (mergeText l) = DNode.textContentL l := by
  induction l with
  | nil => rfl
  | cons c rest ih =>
    cases c with
    | elem nid t a cs =>
      rw [mergeText, DNode.textContentL, DNode.textContentL, ih]
    | text nid s =>
      rw [mergeText]
      by_cases he : s.isEmpty = true
      · rw [if_pos he, ih, DNode.textContentL]
        rw [List.isEmpty_iff.mp he]
        rfl
      · rw [if_neg he]
        have ih' := ih
        cases hm : mergeText rest with
        | nil =>
          rw [hm] at ih'
          dsimp only
          simp only [DNode.textContentL, DNode.textContent] at ih' ⊢
          rw [← ih']
        | cons m r' =>
          rw [hm] at ih'
          cases m with
          | text nid2 t2 =>
            dsimp only
            simp only [DNode.textContentL, DNode.textContent] at ih' ⊢
            rw [← ih', ← List.append_assoc]
          | elem nid2 tg at2 cs2 =>
            dsimp only
            simp only [DNode.textContentL, DNode.textContent] at ih' ⊢
            rw [← ih']

mutual

theorem normalize_gogo (tf : Option String) (id : String) (n : DNode) :
    hasGogoId tf id (normalizeNode n) = hasGogoId tf id n := by
  cases n with
  | text nid s => rfl
  | elem nid tag attrs cs =>
    rw [normalizeNode, hasGogoId_elem, hasGogoId_elem, mergeText_gogo,
      normalizeL_gogo tf id cs]

theorem normalizeL_gogo (tf : Option String) (id : String) (cs : List DNode) :
    hasGogoIdL tf id (normalizeChildren cs) = hasGogoIdL tf id cs := by
  cases cs with
  | nil => rfl
  | cons c cs' =>
    rw [normalizeChildren, hasGogoIdL, hasGogoIdL, normalize_gogo tf id c,
      normalizeL_gogo tf id cs']

end

mutual

theorem normalize_content (n : DNode) :
    DNode.textContent (normalizeNode n) = DNode.textContent n := by
  cases n with
  | text nid s => rfl
  | elem nid tag attrs cs =>
    rw [normalizeNode, DNode.textContent, DNode.textContent, mergeText_content,
      normalizeL_content cs]

theorem normalizeL_content (cs : List DNode) :
    DNode.textContentL (normalizeChildren cs) = DNode.textContentL cs := by
  cases cs with
  | nil => rfl
  | cons c cs' =>
    rw [normalizeChildren, DNode.textContentL, DNode.textContentL,
      normalize_content c, normalizeL_content cs']

end

mutual

/-- A fragment wrap moves characters into the mark but never changes
the total text. -/
theorem wrap_content (tid so eo fresh : Nat) (cls id : String) (n : DNode)
    (hso : so ≤ eo) :
    DNode.textContentL (wrapText tid so eo fresh cls id n) =
      DNode.textContent n := by
  cases n with
  | text nid s =>
    rw [wrapText]
    by_cases ht : (nid == tid) = true
    · rw [if_pos ht]
      rw [textContentL_append, DNode.textContentL]
      have hA : DNode.textContentL
          (if so = 0 then [] else [DNode.text nid (s.take so)]) = s.take so := by
        by_cases h0 : so = 0
        · rw [if_pos h0, h0, List.take_zero]; rfl
        · rw [if_neg h0, DNode.textContentL, DNode.textContent,
            DNode.textContentL, List.append_nil]
      have hM : DNode.textContent
          (DNode.elem fresh "mark" [("class", cls), ("data-gogo-id", id)]
            (if so < eo then [DNode.text (fresh + 1) ((s.take eo).drop so)]
              else [])) = (s.take eo).drop so := by
        rw [DNode.textContent]
        by_cases hlt : so < eo
        · rw [if_pos hlt, DNode.textContentL, DNode.textContent,
            DNode.textContentL, List.append_nil]
        · rw [if_neg hlt]
          have heq : eo = so := by omega
          rw [heq, List.drop_eq_nil_of_le
            (by simp [Nat.min_le_left])]
          rfl
      have hB : DNode.textContentL
          (if eo < s.length then [DNode.text (fresh + 2) (s.drop eo)]
            else []) = s.drop eo := by
        by_cases hlen : eo < s.length
        · rw [if_pos hlen, DNode.textContentL, DNode.textContent,
            DNode.textContentL, List.append_nil]
        · rw [if_neg hlen, List.drop_eq_nil_of_le (by omega)]
          rfl
      rw [hA, hM, hB]
      have h1 : (s.take eo).take so = s.take so := by
        rw [List.take_take, Nat.min_eq_left hso]
      calc s.take so ++ ((s.take eo).drop so ++ s.drop eo)
          = ((s.take eo).take so ++ (s.take eo).drop so) ++ s.drop eo := by
            rw [h1, List.append_assoc]
        _ = s.take eo ++ s.drop eo := by rw [List.take_append_drop]
        _ = s := List.take_append_drop _ _
    · rw [if_neg ht]
      rw [DNode.textContentL, DNode.textContentL, List.append_nil]
  | elem nid tag attrs cs =>
    rw [wrapText, DNode.textContentL, DNode.textContentL, List.append_nil,
      DNode.textContent, DNode.textContent]
    exact wrapL_content tid so eo fresh cls id cs hso

theorem wrapL_content (tid so eo fresh : Nat) (cls id : String)
    (cs : List DNode) (hso : so ≤ eo) :
    DNode.textContentL (wrapTextL tid so eo fresh cls id cs) =
      DNode.textContentL cs := by
  cases cs with
  | nil => rfl
  | cons c cs' =>
    rw [wrapTextL, textContentL_append, DNode.textContentL,
      wrap_content tid so eo fresh cls id c hso,
      wrapL_content tid so eo fresh cls id cs' hso]

end

theorem wrapTextNode_content (d : Document) (tid so eo : Nat) (cls id : String)
    (hso : so ≤ eo) :
    DNode.textContent (d.wrapTextNode tid so eo cls id).html =
      DNode.textContent d.html := by
  have h := wrap_content tid so eo d.nextId cls id d.html hso
  rw [wrapTextNode_html] at h
  rw [DNode.textContentL, DNode.textContentL, List.append_nil] at h
  exact h

theorem wrapLoop_content (F : Nat → Bool) (cls id : String)
    (l : List (Nat × Nat × Nat)) :
    ∀ d, (∀ t ∈ l, t.2.1 ≤ t.2.2) →
      DNode.textContent (wrapLoop F cls id d l).1.html =
        DNode.textContent d.html := by
  induction l with
  | nil => intro d _; rfl
  | cons t rest ih =>
    intro d hle
    obtain ⟨tid, so, eo⟩ := t
    rw [wrapLoop]
    by_cases hF : F tid = true
    · rw [if_pos hF]
      have := ih d (fun t ht => hle t (by simp [ht]))
      cases hl : wrapLoop F cls id d rest with
      | mk d' wsk => rw [hl] at this; exact this
    · rw [if_neg hF]
      have hso : so ≤ eo := hle (tid, so, eo) (by simp)
      have h1 := ih (d.wrapTextNode tid so eo cls id)
        (fun t ht => hle t (by simp [ht]))
      have h2 := wrapTextNode_content d tid so eo cls id hso
      cases hl : wrapLoop F cls id (d.wrapTextNode tid so eo cls id) rest with
      | mk d' wsk =>
        rw [hl] at h1
        exact h1.trans h2

/-- Highlight creation preserves the document's text content. -/
theorem core_content (F : Nat → Bool) (d : Document) (r : Rng) (ty : HType)
    (id : String) (res : HighlightResult)
    (hso : r.sPath = r.ePath → r.sOff ≤ r.eOff)
    (h : highlightRangeCore F d r ty id = .ok res) :
    DNode.textContent res.doc.html = DNode.textContent d.html := by
  unfold highlightRangeCore at h
  by_cases hemp : (getTextNodesInRange d.html r).isEmpty = true
  · rw [if_pos hemp] at h
    cases h
    show DNode.textContent (highlightRangeLegacy d r (className ty) id).html = _
    unfold highlightRangeLegacy
    by_cases hsame : r.sPath = r.ePath
    · rw [if_pos hsame]
      exact wrapTextNode_content d _ _ _ _ _ (hso hsame)
    · rw [if_neg hsame]
      exact wrapTextNode_content d _ _ _ _ _ (Nat.le_refl _)
  · rw [if_neg hemp] at h
    have hle : ∀ t ∈ (getTextNodesInRange d.html r).map
        (fun t => (idAtPath d.html t.1, t.2.1, t.2.2)), t.2.1 ≤ t.2.2 := by
      intro t ht
      obtain ⟨u, hu, hut⟩ := List.mem_map.mp ht
      have := (mem_getTextNodes_node d.html r u hu).2
      rw [← hut]
      exact Nat.le_of_lt this
    have hc := wrapLoop_content F (className ty) id _ d hle
    cases hl : wrapLoop F (className ty) id d
        ((getTextNodesInRange d.html r).map
          (fun t => (idAtPath d.html t.1, t.2.1, t.2.2))) with
    | mk d' wsk =>
      obtain ⟨w, sk⟩ := wsk
      rw [hl] at h hc
      dsimp only at h
      by_cases hsafe : selectorSafe id = true
      · rw [if_pos hsafe] at h
        cases h
        exact hc
      · rw [if_neg hsafe] at h
        cases h

/-- Removal preserves the document's text content. -/
theorem remove_content (d : Document) (id : String) (d2 : Document)
    (h : removeHighlight d id = .ok d2) :
    DNode.textContent d2.html = DNode.textContent d.html := by
  unfold removeHighlight at h
  by_cases hsafe : selectorSafe id = true
  · rw [if_pos hsafe] at h
    by_cases hg : hasGogoId none id d.html = true
    · rw [if_pos hg] at h
      cases h
      show DNode.textContent (DNode.elem d.htmlId "html" d.htmlAttrs
        (stripGogoL id d.pre ++
          DNode.elem d.bodyId "body" d.bodyAttrs
            (mergeText (normalizeChildren (stripGogoL id d.bodyKids))) ::
          stripGogoL id d.post)) = _
      show DNode.textContentL _ = DNode.textContent d.html
      rw [textContentL_append, DNode.textContentL, DNode.textContent,
        mergeText_content, normalizeL_content, stripL_content, stripL_content,
        stripL_content]
      show _ = DNode.textContentL (d.pre ++ d.body :: d.post)
      rw [textContentL_append, DNode.textContentL]
      rfl
    · rw [if_neg hg] at h
      cases h
      rfl
  · rw [if_neg hsafe] at h
    cases h

/-! ## C4: removal completeness -/

/-- C4: (1) after a successful `removeHighlight(id)` no element of the
document carries the id (the engine only ever puts `data-gogo-id` on
mark elements it creates, so the structural `<html>`/`<body>` elements
are hypothesised not to carry it) and the text content is unchanged —
each carrier was replaced by a text node holding its text and adjacent
text nodes were normalized; (2) with no carrier present the call is a
no-op returning the document unchanged; (3) creating a highlight and
then removing highlights restores the text content that existed before
the highlight was created. -/
theorem claim_C4 (d : Document) (id : String) :
    (∀ d2, getAttr d.htmlAttrs "data-gogo-id" ≠ some id →
      getAttr d.bodyAttrs "data-gogo-id" ≠ some id →
      removeHighlight d id = .ok d2 →
      hasGogoId none id d2.html = false ∧
      DNode.textContent d2.html = DNode.textContent d.html) ∧
    (selectorSafe id = true → hasGogoId none id d.html = false →
      removeHighlight d id = .ok d) ∧
    (∀ F r ty cid u res d2,
      (r.sPath = r.ePath → r.sOff ≤ r.eOff) →
      highlightRangeWith F d r ty cid u = .ok res →
      removeHighlight res.doc id = .ok d2 →
      DNode.textContent d2.html = DNode.textContent d.html) := by
  refine ⟨?_, ?_, ?_⟩
  · intro d2 hhtml hbody h
    refine ⟨?_, remove_content d id d2 h⟩
    unfold removeHighlight at h
    by_cases hsafe : selectorSafe id = true
    · rw [if_pos hsafe] at h
      by_cases hg : hasGogoId none id d.html = true
      · rw [if_pos hg] at h
        cases h
        show hasGogoId none id (DNode.elem d.htmlId "html" d.htmlAttrs
          (stripGogoL id d.pre ++
            DNode.elem d.bodyId "body" d.bodyAttrs
              (mergeText (normalizeChildren (stripGogoL id d.bodyKids))) ::
            stripGogoL id d.post)) = false
        rw [hasGogoId_elem]
        have hh : (getAttr d.htmlAttrs "data-gogo-id" == some id) = false :=
          beq_eq_false_iff_ne.mpr hhtml
        have hb : (getAttr d.bodyAttrs "data-gogo-id" == some id) = false :=
          beq_eq_false_iff_ne.mpr hbody
        rw [hh, Bool.and_false, Bool.false_or, hasGogoIdL_append, hasGogoIdL,
          hasGogoId_elem, hb, Bool.and_false, Bool.false_or, mergeText_gogo,
          normalizeL_gogo, stripL_gogo, stripL_gogo, stripL_gogo]
        rfl
      · rw [if_neg hg] at h
        cases h
        exact Bool.eq_false_iff.mpr hg
    · rw [if_neg hsafe] at h
      cases h
  · intro hsafe hg
    unfold removeHighlight
    rw [if_pos hsafe, if_neg (by rw [hg]; exact Bool.false_ne_true)]
  · intro F r ty cid u res d2 hso hcreate hremove
    have h1 := core_content F d r ty (cid.getD u) res hso hcreate
    have h2 := remove_content res.doc id d2 hremove
    exact h2.trans h1

/-- Document with one highlighted fragment:
`<body><p>a<mark data-gogo-id="w">b</mark>c</p></body>`. -/
def wDoc4 : Document :=
  ⟨10, 0, [], [], 1, [],
    [.elem 2 "p" [] [.text 3 ['a'],
      .elem 4 "mark" [("class", "gogo-highlight-agree"), ("data-gogo-id", "w")]
        [.text 5 ['b']], .text 6 ['c']]], []⟩

theorem claim_C4_witness :
    (∃ d2, removeHighlight wDoc4 "w" = .ok d2 ∧
      hasGogoId none "w" d2.html = false ∧
      DNode.textContent d2.html = DNode.textContent wDoc4.html) ∧
    (hasGogoId none "z" wDoc4.html = false ∧
      removeHighlight wDoc4 "z" = .ok wDoc4) ∧
    (∃ res d2, highlightRangeWith (fun _ => false) wDoc4
        ⟨[0, 0, 0], 0, [0, 0, 0], 1⟩ .agree (some "y") "u" = .ok res ∧
      removeHighlight res.doc "y" = .ok d2 ∧
      DNode.textContent d2.html = DNode.textContent wDoc4.html) := by
  have h := claim_C4 wDoc4 "w"
  have hz := claim_C4 wDoc4 "z"
  have hy := claim_C4 wDoc4 "y"
  refine ⟨⟨_, rfl, h.1 _ (by decide) (by decide) rfl⟩,
    ⟨by decide, hz.2.1 (by decide) (by decide)⟩, ⟨_, _, rfl, rfl, ?_⟩⟩
  exact hy.2.2 (fun _ => false) ⟨[0, 0, 0], 0, [0, 0, 0], 1⟩ .agree (some "y") "u"
    _ _ (fun _ => by decide) rfl rfl

/-! ## Helper lemmas: slices, substring search, annotate rebasing -/

theorem lexLt_singleton_lt (p : List Nat) (a b : Nat)
    (h : lexLt (p ++ [a]) (p ++ [b]) = true) : a < b := by
  induction p with
  | nil =>
    rw [List.nil_append, List.nil_append, lexLt] at h
    rcases Bool.or_eq_true_iff.mp h with h | h
    · simpa using h
    · rw [lexLt] at h
      simp at h
  | cons c cs ih =>
    rw [List.cons_append, List.cons_append, lexLt_cons_cons] at h
    rcases Bool.or_eq_true_iff.mp h with h | h
    · simp at h
    · exact ih (Bool.and_eq_true_iff.mp h).2

theorem take_min_length (l : List Char) (n : Nat) :
    l.take (min n l.length) = l.take n := by
  by_cases h : n ≤ l.length
  · rw [Nat.min_eq_left h]
  · rw [Nat.min_eq_right (by omega), List.take_length,
      List.take_of_length_le (by omega)]

theorem drop_take_add (l : List Char) (a m n : Nat) :
    (l.drop a).take (m + n) = (l.drop a).take m ++ (l.drop (a + m)).take n := by
  rw [List.take_add]
  congr 1
  rw [List.drop_drop]

theorem isPrefixOf_of_take {pat l : List Char} {i : Nat}
    (h : (l.drop i).take pat.length = pat) :
    pat.isPrefixOf (l.drop i) = true := by
  rw [List.isPrefixOf_iff_prefix, List.prefix_iff_eq_take]
  exact h.symm

theorem take_of_isPrefixOf {pat x : List Char}
    (h : pat.isPrefixOf x = true) : x.take pat.length = pat := by
  rw [List.isPrefixOf_iff_prefix, List.prefix_iff_eq_take] at h
  exact h.symm

theorem idxOf_le (pat : List Char) :
    ∀ (l : List Char) (j : Nat), idxOfPat l pat = some j → j ≤ l.length := by
  intro l
  induction l with
  | nil =>
    intro j h
    rw [idxOfPat] at h
    by_cases hp : pat.isPrefixOf ([] : List Char) = true
    · rw [if_pos hp] at h; cases h; exact Nat.le_refl 0
    · rw [if_neg hp] at h; cases h
  | cons c t ih =>
    intro j h
    rw [idxOfPat] at h
    by_cases hp : pat.isPrefixOf (c :: t) = true
    · rw [if_pos hp] at h; cases h; exact Nat.zero_le _
    · rw [if_neg hp] at h
      cases hj : idxOfPat t pat with
      | none => rw [hj] at h; cases h
      | some j' =>
        rw [hj] at h
        simp only [Option.map_some'] at h
        cases h
        have := ih j' hj
        have hlen : (c :: t).length = t.length + 1 := rfl
        omega

theorem idxOf_found (pat : List Char) :
    ∀ (l : List Char), (∃ i, pat.isPrefixOf (l.drop i) = true) →
    ∃ j, idxOfPat l pat = some j ∧ pat.isPrefixOf (l.drop j) = true := by
  intro l
  induction l with
  | nil =>
    rintro ⟨i, hi⟩
    rw [List.drop_nil] at hi
    refine ⟨0, ?_, by simpa using hi⟩
    rw [idxOfPat, if_pos hi]
  | cons c t ih =>
    rintro ⟨i, hi⟩
    rw [idxOfPat]
    by_cases h0 : pat.isPrefixOf (c :: t) = true
    · exact ⟨0, by rw [if_pos h0], by simpa using h0⟩
    · rw [if_neg h0]
      have hex : ∃ i, pat.isPrefixOf (t.drop i) = true := by
        cases i with
        | zero => exact absurd (by simpa using hi) h0
        | succ i' => exact ⟨i', by simpa using hi⟩
      obtain ⟨j, hj, hpj⟩ := ih hex
      exact ⟨j + 1, by rw [hj]; rfl, by simpa using hpj⟩

theorem jsSubstring_pfx (s : List Char) (off : Nat) (h : off ≤ s.length) :
    jsSubstring s (max 0 ((off : Int) - 32)) (off : Int) =
      (s.take off).drop (off - 32) := by
  unfold jsSubstring
  have h1 : (max (max (0 : Int) ((off : Int) - 32)) 0).toNat = off - 32 := by
    rw [max_eq_left (le_max_left (0 : Int) ((off : Int) - 32))]
    by_cases hc : 32 ≤ off
    · rw [max_eq_right (show (0 : Int) ≤ (off : Int) - 32 by omega)]
      omega
    · rw [max_eq_left (show (off : Int) - 32 ≤ 0 by omega)]
      omega
  have h2 : (max (off : Int) 0).toNat = off := by
    rw [max_eq_left (show (0 : Int) ≤ (off : Int) by omega)]
    omega
  rw [h1, h2]
  have h3 : min (off - 32) s.length = off - 32 := by omega
  have h4 : min off s.length = off := by omega
  rw [h3, h4]
  have h5 : max (off - 32) off = off := by omega
  have h6 : min (off - 32) off = off - 32 := by omega
  rw [h5, h6]

theorem jsSubstring_sfx (s : List Char) (off : Nat) (h : off ≤ s.length) :
    jsSubstring s (off : Int) ((off : Int) + 32) = (s.drop off).take 32 := by
  unfold jsSubstring
  have h2 : (max (off : Int) 0).toNat = off := by
    rw [max_eq_left (show (0 : Int) ≤ (off : Int) by omega)]
    omega
  have h3 : (max ((off : Int) + 32) 0).toNat = off + 32 := by
    rw [max_eq_left (show (0 : Int) ≤ (off : Int) + 32 by omega)]
    omega
  rw [h2, h3]
  have h4 : min off s.length = off := by omega
  rw [h4]
  have hmin : off ≤ min (off + 32) s.length :=
    Nat.le_min.mpr ⟨Nat.le_add_right off 32, h⟩
  have h5 : max off (min (off + 32) s.length) = min (off + 32) s.length :=
    max_eq_right hmin
  have h6 : min off (min (off + 32) s.length) = off := min_eq_left hmin
  rw [h5, h6, take_min_length, List.drop_take]
  congr 1
  omega

theorem annotate_base_map (l : List (List Nat × List Char)) :
    ∀ base, annotate base l =
      (annotate 0 l).map (fun e => (e.1, base + e.2.1, e.2.2)) := by
  induction l with
  | nil => intro base; rfl
  | cons x rest ih =>
    intro base
    obtain ⟨p, s⟩ := x
    rw [annotate, annotate, ih (base + s.length), ih (0 + s.length),
      List.map_cons, List.map_map]
    refine congrArg₂ _ (by simp) ?_
    apply List.map_congr_left
    intro e _
    show (e.1, base + s.length + e.2.1, e.2.2) =
      (e.1, base + (0 + s.length + e.2.1), e.2.2)
    simp [Nat.add_assoc]

theorem flatTextsL_append (p : List Nat) (i : Nat) (l1 l2 : List DNode) :
    DNode.flatTextsL p i (l1 ++ l2) =
      DNode.flatTextsL p i l1 ++ DNode.flatTextsL p (i + l1.length) l2 := by
  induction l1 generalizing i with
  | nil => simp [DNode.flatTextsL]
  | cons c cs ih =>
    rw [List.cons_append, DNode.flatTextsL, DNode.flatTextsL, ih (i + 1),
      List.append_assoc]
    congr 3
    simp only [List.length_cons]
    omega

/-- A slice of the concatenated text that stays within one annotated
node is a slice of that node's data. -/
theorem slice_within (l : List (List Nat × List Char)) (p : List Nat) (o : Nat)
    (s : List Char) (hmem : (p, o, s) ∈ annotate 0 l) (a b : Nat)
    (ha : o ≤ a) (hb : b ≤ o + s.length) :
    ((l.map (·.2)).flatten.take b).drop a =
      (s.take (b - o)).drop (a - o) := by
  have hmain := take_drop_flatten_eq a b 0 l
  rw [Nat.sub_zero, Nat.sub_zero] at hmain
  rw [hmain]
  obtain ⟨as, bs, hsplit⟩ := List.append_of_mem hmem
  have hpw := annotate_pairwise_le 0 l
  rw [hsplit] at hpw ⊢
  rw [List.map_append, List.flatten_append, List.map_cons, List.flatten_cons]
  have h1 : ((as.map
      (fun e => (e.2.2.take (b - e.2.1)).drop (a - e.2.1))).flatten) = [] := by
    rw [List.flatten_eq_nil_iff]
    intro x hx
    obtain ⟨e, he, hex⟩ := List.mem_map.mp hx
    have hend : e.2.1 + e.2.2.length ≤ o := by
      have := (List.pairwise_append.mp hpw).2.2 e he (p, o, s) (by simp)
      simpa using this
    rw [← hex]
    apply List.drop_eq_nil_of_le
    rw [List.length_take]
    have := Nat.min_le_right (b - e.2.1) e.2.2.length
    omega
  have h2 : ((bs.map
      (fun e => (e.2.2.take (b - e.2.1)).drop (a - e.2.1))).flatten) = [] := by
    rw [List.flatten_eq_nil_iff]
    intro x hx
    obtain ⟨e, he, hex⟩ := List.mem_map.mp hx
    have hstart : o + s.length ≤ e.2.1 := by
      have hpw2 := (List.pairwise_append.mp hpw).2.1
      rw [List.pairwise_cons] at hpw2
      have := hpw2.1 e he
      simpa using this
    rw [← hex]
    have : b - e.2.1 = 0 := by omega
    rw [this, List.take_zero, List.drop_nil]
  rw [h1, h2, List.nil_append, List.append_nil]

/-- `findTextNodeAtOffset` succeeds whenever the target does not exceed
the total text length and the tree holds at least one text node. -/
theorem fta_some (root : DNode) (target : Nat)
    (hne : DNode.flatTexts [] root ≠ [])
    (hle : target ≤ (DNode.textContent root).length) :
    ∃ p off, findTextNodeAtOffset root target = some (p, off) := by
  unfold findTextNodeAtOffset
  rw [ftaNode_spec root target 0 (Nat.zero_le _)]
  cases hf : (annotate 0 (DNode.flatTexts [] root)).find?
      (fun e => target ≤ e.2.1 + e.2.2.length) with
  | some e => exact ⟨e.1, target - e.2.1, rfl⟩
  | none =>
    exfalso
    obtain ⟨e, he, hend⟩ := annotate_last_end 0 _ hne
    have hno := List.find?_eq_none.mp hf e he
    simp only [decide_eq_true_eq, Nat.not_le] at hno
    rw [DNode.textContent_eq_flat root []] at hle
    omega

/-- The element chain above an element resolved by `nodeAt` yields a
well-formed step list. -/
theorem xpathSteps_some (q : List Nat) :
    ∀ (cs : List DNode) (nid : Nat) (tag : String)
      (attrs : List (String × String)) (cs2 : List DNode)
      (rn : Nat) (rt : String) (ra : List (String × String)),
    (DNode.elem rn rt ra cs).nodeAt q = some (.elem nid tag attrs cs2) →
    ∃ st, xpathSteps cs q = some st := by
  induction q with
  | nil => intro cs _ _ _ _ _ _ _ _; exact ⟨[], rfl⟩
  | cons i q' ih =>
    intro cs nid tag attrs cs2 rn rt ra h
    rw [DNode.nodeAt] at h
    cases hc : cs[i]? with
    | none => rw [hc] at h; cases h
    | some c =>
      rw [hc] at h
      simp only [Option.bind_some] at h
      cases c with
      | text n2 s2 =>
        cases q' with
        | nil => rw [DNode.nodeAt] at h; cases h
        | cons j q'' => rw [DNode.nodeAt] at h; cases h
      | elem n2 t2 a2 k2 =>
        obtain ⟨st, hst⟩ := ih k2 nid tag attrs cs2 n2 t2 a2 h
        rw [xpathSteps, hc]
        dsimp only
        rw [hst]
        exact ⟨_, rfl⟩

/-! ## Helper lemmas: the body inside the document -/

/-- Total text length of the part of the document preceding `<body>`. -/
def preTextLen (d : Document) : Nat :=
  (((DNode.flatTextsL [] 0 d.pre).map (·.2)).flatten).length

theorem html_flat_decomp (d : Document) :
    DNode.flatTexts [] d.html =
      DNode.flatTextsL [] 0 d.pre ++
      (DNode.flatTexts [] d.body).map (fun e => (d.pre.length :: e.1, e.2)) ++
      DNode.flatTextsL [] (d.pre.length + 1) d.post := by
  show DNode.flatTexts []
    (.elem d.htmlId "html" d.htmlAttrs (d.pre ++ d.body :: d.post)) = _
  rw [DNode.flatTexts, flatTextsL_append, DNode.flatTextsL]
  simp only [List.nil_append, Nat.zero_add]
  rw [flatTexts_shift [d.pre.length] d.body]
  rw [← List.append_assoc]
  rfl

theorem docText_decomp (d : Document) :
    docText d.html =
      ((DNode.flatTextsL [] 0 d.pre).map (·.2)).flatten ++
      (DNode.textContent d.body ++
        ((DNode.flatTextsL [] (d.pre.length + 1) d.post).map (·.2)).flatten) := by
  unfold docText
  rw [html_flat_decomp, List.map_append, List.map_append, List.flatten_append,
    List.flatten_append, List.append_assoc]
  congr 2
  rw [List.map_map, DNode.textContent_eq_flat d.body []]
  rfl

theorem html_body_annotate (d : Document) (q : List Nat) (o : Nat) (s : List Char)
    (hmem : (q, o, s) ∈ annotate 0 (DNode.flatTexts [] d.body)) :
    (d.pre.length :: q, preTextLen d + o, s) ∈
      annotate 0 (DNode.flatTexts [] d.html) := by
  rw [html_flat_decomp, annotate_append, annotate_append]
  refine List.mem_append.mpr (Or.inl (List.mem_append.mpr (Or.inr ?_)))
  rw [Nat.zero_add]
  show _ ∈ annotate (preTextLen d)
    ((DNode.flatTexts [] d.body).map (fun e => (d.pre.length :: e.1, e.2)))
  rw [annotate_map_path (preTextLen d) (fun q => d.pre.length :: q),
    annotate_base_map (DNode.flatTexts [] d.body) (preTextLen d)]
  rw [List.map_map]
  refine List.mem_map.mpr ⟨(q, o, s), hmem, rfl⟩

theorem html_slice (d : Document) (x y : Nat)
    (hy : y ≤ (DNode.textContent d.body).length) :
    ((docText d.html).take (preTextLen d + y)).drop (preTextLen d + x) =
      ((DNode.textContent d.body).take y).drop x := by
  rw [docText_decomp]
  have hA : (((DNode.flatTextsL [] 0 d.pre).map (·.2)).flatten).length =
      preTextLen d := rfl
  rw [List.take_append_eq_append_take, hA,
    List.take_of_length_le (by rw [hA]; omega)]
  have he1 : preTextLen d + y - preTextLen d = y := by omega
  rw [he1, List.drop_append_eq_append_drop,
    List.drop_eq_nil_of_le (by rw [hA]; omega), hA]
  have he2 : preTextLen d + x - preTextLen d = x := by omega
  rw [he2, List.nil_append, List.take_append_eq_append_take,
    Nat.sub_eq_zero_of_le hy, List.take_zero, List.append_nil]

/-- Global html offset of an in-body boundary point. -/
theorem gpos_html_of_body (d : Document) (q : List Nat) (o : Nat)
    (s : List Char) (off : Nat)
    (hmem : (q, o, s) ∈ annotate 0 (DNode.flatTexts [] d.body)) :
    gpos d.html (d.pre.length :: q) off = preTextLen d + o + off := by
  have h := gpos_eq d.html (html_body_annotate d q o s hmem) off
  rw [h, Nat.add_assoc]

/-! ## Helper lemmas: the quote pattern occurs in the body text -/

/-- For a valid in-body range, the body-global start offset is at most
the end offset. -/
theorem body_offsets_le (d : Document) (r : Rng) (qs qe : List Nat)
    (oS oE : Nat) (sD eD : List Char)
    (hv : validRangeB d.html r = true)
    (hs : r.sPath = d.pre.length :: qs) (he : r.ePath = d.pre.length :: qe)
    (hSann : (qs, oS, sD) ∈ annotate 0 (DNode.flatTexts [] d.body))
    (hEann : (qe, oE, eD) ∈ annotate 0 (DNode.flatTexts [] d.body))
    (hSle : r.sOff ≤ sD.length) :
    oS + r.sOff ≤ oE + r.eOff := by
  obtain ⟨⟨nidS, sD2, hSnode, -⟩, ⟨nidE, eD2, hEnode, -⟩, hKey⟩ :=
    (validRangeB_iff d.html r).mp hv
  unfold Rng.sKey Rng.eKey at hKey
  rcases hKey with hKey | hKey
  · obtain ⟨hp, ho⟩ := append_singleton_inj hKey
    have hq : qs = qe := by
      rw [hs, he] at hp
      exact (List.cons_eq_cons.mp hp).2
    have heq : ((qs, oS, sD) : List Nat × Nat × List Char) = (qe, oE, eD) :=
      annotate_eq_of_fst d.body hSann hEann hq
    have hoo : oS = oE := congrArg (fun e => e.2.1) heq
    omega
  · by_cases hpq : r.sPath = r.ePath
    · have hq : qs = qe := by
        rw [hs, he] at hpq
        exact (List.cons_eq_cons.mp hpq).2
      have heq : ((qs, oS, sD) : List Nat × Nat × List Char) = (qe, oE, eD) :=
        annotate_eq_of_fst d.body hSann hEann hq
      have hoo : oS = oE := congrArg (fun e => e.2.1) heq
      have hlt : r.sOff < r.eOff := by
        rw [hpq] at hKey
        exact lexLt_singleton_lt r.ePath r.sOff r.eOff hKey
      omega
    · have hSmemH : (r.sPath, sD2) ∈ DNode.flatTexts [] d.html := by
        have := DNode.mem_flatTexts_of_nodeAt d.html r.sPath [] nidS sD2 hSnode
        simpa using this
      have hEmemH : (r.ePath, eD2) ∈ DNode.flatTexts [] d.html := by
        have := DNode.mem_flatTexts_of_nodeAt d.html r.ePath [] nidE eD2 hEnode
        simpa using this
      have hanti : isPfx r.ePath r.sPath = true → r.sPath = r.ePath :=
        fun hpfx => (DNode.flat_antichain d.html hEmemH hSmemH hpfx).symm
      have hlex : lexLt r.sPath r.ePath = true :=
        lex_of_keys r.sPath r.ePath r.sOff r.eOff hanti hKey hpq
      have hlexB : lexLt qs qe = true := by
        rw [hs, he] at hlex
        simpa [lexLt_cons_cons] using hlex
      have hrel := annotate_rel_of_lex d.body hSann hEann hlexB
      simp only at hrel
      omega

/-- The descriptor pattern `prefix ++ exact ++ suffix` occurs in
`document.body.textContent`, and any occurrence `indexOf` finds
positions `exact` at the pattern index plus the prefix length. -/
theorem tq_resolution (d : Document) (r : Rng) (qs qe : List Nat)
    (hv : validRangeB d.html r = true)
    (hs : r.sPath = d.pre.length :: qs) (he : r.ePath = d.pre.length :: qe) :
    ∃ j,
      idxOfPat (DNode.textContent d.body)
        ((createTextQuote d.html r).pfx ++ (createTextQuote d.html r).exact ++
          (createTextQuote d.html r).sfx) = some j ∧
      ((DNode.textContent d.body).drop
          (j + (createTextQuote d.html r).pfx.length)).take
          (createTextQuote d.html r).exact.length =
        (createTextQuote d.html r).exact ∧
      j + (createTextQuote d.html r).pfx.length +
          (createTextQuote d.html r).exact.length ≤
        (DNode.textContent d.body).length := by
  obtain ⟨⟨nidS, sD, hSnode, hSle⟩, ⟨nidE, eD, hEnode, hEle⟩, -⟩ :=
    (validRangeB_iff d.html r).mp hv
  have hSb : d.body.nodeAt qs = some (.text nidS sD) := by
    rw [← nodeAt_html_body d qs, ← hs]; exact hSnode
  have hEb : d.body.nodeAt qe = some (.text nidE eD) := by
    rw [← nodeAt_html_body d qe, ← he]; exact hEnode
  have hSmem : (qs, sD) ∈ DNode.flatTexts [] d.body := by
    have := DNode.mem_flatTexts_of_nodeAt d.body qs [] nidS sD hSb
    simpa using this
  have hEmem : (qe, eD) ∈ DNode.flatTexts [] d.body := by
    have := DNode.mem_flatTexts_of_nodeAt d.body qe [] nidE eD hEb
    simpa using this
  obtain ⟨oS, hSann⟩ := exists_mem_annotate 0 _ hSmem
  obtain ⟨oE, hEann⟩ := exists_mem_annotate 0 _ hEmem
  have hg : oS + r.sOff ≤ oE + r.eOff :=
    body_offsets_le d r qs qe oS oE sD eD hv hs he hSann hEann hSle
  have hbt : DNode.textContent d.body =
      ((DNode.flatTexts [] d.body).map (·.2)).flatten :=
    DNode.textContent_eq_flat d.body []
  have hgeB : oE + r.eOff ≤ (DNode.textContent d.body).length := by
    have h1 := annotate_end_le 0 (DNode.flatTexts [] d.body) _ hEann
    simp only at h1
    rw [hbt]
    omega
  have hgS : gpos d.html r.sPath r.sOff = preTextLen d + (oS + r.sOff) := by
    rw [hs, gpos_html_of_body d qs oS sD r.sOff hSann, Nat.add_assoc]
  have hgE : gpos d.html r.ePath r.eOff = preTextLen d + (oE + r.eOff) := by
    rw [he, gpos_html_of_body d qe oE eD r.eOff hEann, Nat.add_assoc]
  have hExact : (createTextQuote d.html r).exact =
      ((DNode.textContent d.body).take (oE + r.eOff)).drop (oS + r.sOff) := by
    show rangeToString d.html r = _
    unfold rangeToString
    rw [hgS, hgE, html_slice d _ _ hgeB]
  have hSdata : textDataAt d.html r.sPath = sD := by
    unfold textDataAt; rw [hSnode]
  have hEdata : textDataAt d.html r.ePath = eD := by
    unfold textDataAt; rw [hEnode]
  have hpfx : (createTextQuote d.html r).pfx =
      (sD.take r.sOff).drop (r.sOff - 32) := by
    show jsSubstring (textDataAt d.html r.sPath) _ _ = _
    rw [hSdata]
    exact jsSubstring_pfx sD r.sOff hSle
  have hsfx : (createTextQuote d.html r).sfx = (eD.drop r.eOff).take 32 := by
    show jsSubstring (textDataAt d.html r.ePath) _ _ = _
    rw [hEdata]
    exact jsSubstring_sfx eD r.eOff hEle
  have hpfxlen : (createTextQuote d.html r).pfx.length =
      r.sOff - (r.sOff - 32) := by
    rw [hpfx, List.length_drop, List.length_take, Nat.min_eq_left hSle]
  have hsfxlen : (createTextQuote d.html r).sfx.length =
      min 32 (eD.length - r.eOff) := by
    rw [hsfx, List.length_take, List.length_drop]
  have hexlen : (createTextQuote d.html r).exact.length =
      oE + r.eOff - (oS + r.sOff) := by
    rw [hExact, List.length_drop, List.length_take, Nat.min_eq_left hgeB]
  have hS1 : ((DNode.textContent d.body).take (oS + r.sOff)).drop
      (oS + r.sOff - (createTextQuote d.html r).pfx.length) =
      (createTextQuote d.html r).pfx := by
    rw [hbt]
    rw [slice_within (DNode.flatTexts [] d.body) qs oS sD hSann
      (oS + r.sOff - (createTextQuote d.html r).pfx.length) (oS + r.sOff)
      (by omega) (by omega)]
    have e1 : oS + r.sOff - oS = r.sOff := by omega
    have e2 : oS + r.sOff - (createTextQuote d.html r).pfx.length - oS =
        r.sOff - 32 := by omega
    rw [e1, e2, hpfx]
  have hsfle : (createTextQuote d.html r).sfx.length ≤ eD.length - r.eOff := by
    rw [hsfxlen]; omega
  have hS3 : ((DNode.textContent d.body).take
      (oE + r.eOff + (createTextQuote d.html r).sfx.length)).drop (oE + r.eOff) =
      (createTextQuote d.html r).sfx := by
    rw [hbt]
    rw [slice_within (DNode.flatTexts [] d.body) qe oE eD hEann
      (oE + r.eOff) (oE + r.eOff + (createTextQuote d.html r).sfx.length)
      (by omega) (by omega)]
    have e1 : oE + r.eOff + (createTextQuote d.html r).sfx.length - oE =
        r.eOff + (createTextQuote d.html r).sfx.length := by omega
    have e2 : oE + r.eOff - oE = r.eOff := by omega
    rw [e1, e2, List.drop_take]
    have e3 : r.eOff + (createTextQuote d.html r).sfx.length - r.eOff =
        (createTextQuote d.html r).sfx.length := by omega
    rw [e3, hsfxlen, ← List.length_drop, take_min_length, hsfx]
  have hsliceP : ((DNode.textContent d.body).drop
      (oS + r.sOff - (createTextQuote d.html r).pfx.length)).take
      (createTextQuote d.html r).pfx.length = (createTextQuote d.html r).pfx := by
    have h1 := hS1
    rw [List.drop_take] at h1
    have e1 : oS + r.sOff -
        (oS + r.sOff - (createTextQuote d.html r).pfx.length) =
        (createTextQuote d.html r).pfx.length := by omega
    rw [e1] at h1
    exact h1
  have hsliceE : ((DNode.textContent d.body).drop (oS + r.sOff)).take
      (createTextQuote d.html r).exact.length =
      (createTextQuote d.html r).exact := by
    have h1 := hExact.symm
    rw [List.drop_take] at h1
    rw [hexlen]
    exact h1
  have hsliceS : ((DNode.textContent d.body).drop (oE + r.eOff)).take
      (createTextQuote d.html r).sfx.length = (createTextQuote d.html r).sfx := by
    have h1 := hS3
    rw [List.drop_take] at h1
    have e1 : oE + r.eOff + (createTextQuote d.html r).sfx.length -
        (oE + r.eOff) = (createTextQuote d.html r).sfx.length := by omega
    rw [e1] at h1
    exact h1
  have hpat : ((DNode.textContent d.body).drop
      (oS + r.sOff - (createTextQuote d.html r).pfx.length)).take
      ((createTextQuote d.html r).pfx.length +
        ((createTextQuote d.html r).exact.length +
          (createTextQuote d.html r).sfx.length)) =
      (createTextQuote d.html r).pfx ++ ((createTextQuote d.html r).exact ++
        (createTextQuote d.html r).sfx) := by
    have eA1 : oS + r.sOff - (createTextQuote d.html r).pfx.length +
        (createTextQuote d.html r).pfx.length = oS + r.sOff := by omega
    have eA2 : oS + r.sOff + (createTextQuote d.html r).exact.length =
        oE + r.eOff := by omega
    rw [drop_take_add, eA1, drop_take_add, eA2, hsliceP, hsliceE, hsliceS]
  have hpre : ((createTextQuote d.html r).pfx ++ (createTextQuote d.html r).exact ++
      (createTextQuote d.html r).sfx).isPrefixOf
      ((DNode.textContent d.body).drop
        (oS + r.sOff - (createTextQuote d.html r).pfx.length)) = true := by
    apply isPrefixOf_of_take
    rw [List.length_append, List.length_append, List.append_assoc, Nat.add_assoc]
    exact hpat
  obtain ⟨j, hj, hpj⟩ := idxOf_found _ (DNode.textContent d.body) ⟨_, hpre⟩
  obtain ⟨rest, hrest⟩ := List.isPrefixOf_iff_prefix.mp hpj
  have hjle := idxOf_le _ _ _ hj
  have hdropj : (DNode.textContent d.body).drop
      (j + (createTextQuote d.html r).pfx.length) =
      (createTextQuote d.html r).exact ++ ((createTextQuote d.html r).sfx ++ rest) := by
    have h1 : (DNode.textContent d.body).drop
        (j + (createTextQuote d.html r).pfx.length) =
        ((DNode.textContent d.body).drop j).drop
          (createTextQuote d.html r).pfx.length := by
      rw [List.drop_drop]
    rw [h1, ← hrest, List.append_assoc, List.append_assoc]
    exact List.drop_left _ _
  refine ⟨j, hj, ?_, ?_⟩
  · rw [hdropj]
    exact List.take_left _ _
  · have hlen := congrArg List.length hrest
    rw [List.length_append, List.length_append, List.length_append,
      List.length_drop] at hlen
    omega

/-! ## C2: round-trip anchoring -/

/-- `generateXPath` climbs only while `parentElement` exists, so the
`<html>` step is never recorded; the resulting `/body[1]/...` path finds
no node under the document (whose only element child is `<html>`):
`document.evaluate` returns null and the resolver falls back to the
text quote. -/
theorem generated_xpath_no_match (d : Document) (p : List Nat) (q : List Nat)
    (nid : Nat) (s : List Char)
    (hp : p = d.pre.length :: q)
    (hnode : d.html.nodeAt p = some (.text nid s)) :
    evalXPath d (generateXPath d p) = .ok none := by
  have hq : q ≠ [] := by
    intro hq0
    rw [hp, hq0, nodeAt_html_body d []] at hnode
    rw [DNode.nodeAt] at hnode
    simp [Document.body] at hnode
  unfold generateXPath
  rw [hnode]
  have hdrop : p.dropLast = d.pre.length :: q.dropLast := by
    rw [hp]
    cases q with
    | nil => exact absurd rfl hq
    | cons a l => rfl
  rw [hdrop]
  unfold generateXPathElem
  rw [if_neg (by simp)]
  rw [xpathSteps]
  rw [List.getElem?_append_right (Nat.le_refl _)]
  rw [Nat.sub_self]
  rw [List.getElem?_cons_zero]
  have hbody : d.body.nodeAt q = some (.text nid s) := by
    rw [← nodeAt_html_body, ← hp]; exact hnode
  have hqsplit : q.dropLast ++ [q.getLast hq] = q := List.dropLast_append_getLast hq
  have hsplit2 : d.body.nodeAt (q.dropLast ++ [q.getLast hq]) =
      some (.text nid s) := by
    rw [hqsplit]; exact hbody
  rw [DNode.nodeAt_append] at hsplit2
  cases hm : d.body.nodeAt q.dropLast with
  | none => rw [hm] at hsplit2; cases hsplit2
  | some m =>
    rw [hm] at hsplit2
    rw [Option.some_bind] at hsplit2
    cases m with
    | text n2 s2 =>
      rw [DNode.nodeAt] at hsplit2
      cases hsplit2
    | elem n2 t2 a2 k2 =>
      obtain ⟨st, hst⟩ := xpathSteps_some q.dropLast d.bodyKids n2 t2 a2 k2
        d.bodyId "body" d.bodyAttrs hm
      show evalXPath d
        (match
          (match (some (Document.body d) : Option DNode) with
            | some (.elem _ tag _ cs') =>
              (xpathSteps cs' q.dropLast).map
                (fun rest =>
                  ⟨tag, elemIndex1 (d.pre ++ d.body :: d.post) d.pre.length⟩ :: rest)
            | _ => none) with
          | some steps => XPathExpr.steps steps
          | none => XPathExpr.malformed) = Except.ok none
      show evalXPath d
        (match
          (xpathSteps d.bodyKids q.dropLast).map
            (fun rest =>
              ⟨"body", elemIndex1 (d.pre ++ d.body :: d.post) d.pre.length⟩ :: rest) with
          | some steps => XPathExpr.steps steps
          | none => XPathExpr.malformed) = Except.ok none
      rw [hst]
      show evalXPath d (XPathExpr.steps
        (⟨"body", elemIndex1 (d.pre ++ d.body :: d.post) d.pre.length⟩ :: st)) =
        Except.ok none
      rw [evalXPath]
      rw [show (("body" == "html") : Bool) = false from rfl]
      rfl

/-- C2: for every Range lying in text nodes of the document body, the
descriptor built by `createLocationInfo` round-trips through
`restoreHighlight` on the unmodified document: the XPath leg never
resolves (the generated path lacks the `html` step), the TextQuote leg
succeeds, and the Range the resolver reconstructs stringifies exactly
to the descriptor's `exact` text. -/
theorem claim_C2 (d : Document) (r : Rng) (id : String) (ty : HType)
    (hv : validRangeB d.html r = true)
    (hsB : ∃ q, r.sPath = d.pre.length :: q)
    (heB : ∃ q, r.ePath = d.pre.length :: q)
    (hsafe : selectorSafe id = true)
    (hnomark : hasGogoId (some "mark") id d.html = false) :
    evalXPath d (createLocationInfo d r).1 = .ok none ∧
    (∃ d2, restoreHighlight d id (createLocationInfo d r).1
        (createLocationInfo d r).2 ty = .ok (true, d2)) ∧
    (∃ rng, resolvedRangeTQ d (createLocationInfo d r).2 = some rng ∧
      rangeToString d.html rng = (createLocationInfo d r).2.exact) := by
  obtain ⟨qs, hs⟩ := hsB
  obtain ⟨qe, he⟩ := heB
  obtain ⟨⟨nidS, sD, hSnode, hSle⟩, -, -⟩ := (validRangeB_iff d.html r).mp hv
  have hxp : evalXPath d (generateXPath d r.sPath) = .ok none :=
    generated_xpath_no_match d r.sPath qs nidS sD hs hSnode
  obtain ⟨j, hj, hEsl, hbound⟩ := tq_resolution d r qs qe hv hs he
  have hbodyne : DNode.flatTexts [] d.body ≠ [] := by
    have hSb : d.body.nodeAt qs = some (.text nidS sD) := by
      rw [← nodeAt_html_body d qs, ← hs]; exact hSnode
    have hSmem : (qs, sD) ∈ DNode.flatTexts [] d.body := by
      have := DNode.mem_flatTexts_of_nodeAt d.body qs [] nidS sD hSb
      simpa using this
    exact List.ne_nil_of_mem hSmem
  obtain ⟨ps, offs, hfta1⟩ := fta_some d.body
    (j + (createTextQuote d.html r).pfx.length) hbodyne (by omega)
  obtain ⟨pe, offe, hfta2⟩ := fta_some d.body
    (j + (createTextQuote d.html r).pfx.length +
      (createTextQuote d.html r).exact.length) hbodyne (by omega)
  obtain ⟨oPs, sPs, hPsmem, hPsle, hPsle2, hPoff⟩ :=
    fta_spec_mem d.body _ ps offs hfta1
  obtain ⟨oPe, sPe, hPemem, hPele, hPele2, hPoffe⟩ :=
    fta_spec_mem d.body _ pe offe hfta2
  have hgps : oPs + offs = j + (createTextQuote d.html r).pfx.length := by omega
  have hgpe : oPe + offe = j + (createTextQuote d.html r).pfx.length +
      (createTextQuote d.html r).exact.length := by omega
  have hrts : rangeToString d.html
      ⟨d.pre.length :: ps, offs, d.pre.length :: pe, offe⟩ =
      (createTextQuote d.html r).exact := by
    unfold rangeToString
    show ((docText d.html).take (gpos d.html (d.pre.length :: pe) offe)).drop
      (gpos d.html (d.pre.length :: ps) offs) = _
    rw [gpos_html_of_body d ps oPs sPs offs hPsmem,
      gpos_html_of_body d pe oPe sPe offe hPemem,
      Nat.add_assoc, Nat.add_assoc,
      html_slice d (oPs + offs) (oPe + offe) (by omega)]
    rw [hgps, hgpe, List.drop_take]
    have e1 : j + (createTextQuote d.html r).pfx.length +
        (createTextQuote d.html r).exact.length -
        (j + (createTextQuote d.html r).pfx.length) =
        (createTextQuote d.html r).exact.length := by omega
    rw [e1]
    exact hEsl
  obtain ⟨nid1, s1, hnode1, -⟩ := fta_node_text d.body _ ps offs hfta1
  have hnodeH : d.html.nodeAt (d.pre.length :: ps) = some (.text nid1 s1) := by
    rw [nodeAt_html_body]; exact hnode1
  have htid : hasTextId (idAtPath d.html
      (Rng.mk (d.pre.length :: ps) offs (d.pre.length :: pe) offe).sPath)
      d.html = true := by
    show hasTextId (idAtPath d.html (d.pre.length :: ps)) d.html = true
    unfold idAtPath
    rw [hnodeH]
    exact hasTextId_of_nodeAt d.html _ nid1 s1 hnodeH
  obtain ⟨res, hcore, hfm, -⟩ := core_clean_mark d
    ⟨d.pre.length :: ps, offs, d.pre.length :: pe, offe⟩ ty id none rfl hsafe htid
  have hfaht : findAndHighlightText d (createTextQuote d.html r).exact id ty
      (j + (createTextQuote d.html r).pfx.length) = (true, res.doc) := by
    unfold findAndHighlightText
    rw [hfta1]
    dsimp only
    rw [hfta2]
    dsimp only
    rw [hcore]
    dsimp only
    rw [hfm]
  have hrbtq : restoreByTextQuote d id (createTextQuote d.html r) ty =
      (true, res.doc) := by
    unfold restoreByTextQuote
    rw [hj]
    exact hfaht
  refine ⟨hxp, ⟨res.doc, ?_⟩,
    ⟨⟨d.pre.length :: ps, offs, d.pre.length :: pe, offe⟩, ?_, hrts⟩⟩
  · show restoreHighlight d id (generateXPath d r.sPath)
      (createTextQuote d.html r) ty = .ok (true, res.doc)
    unfold restoreHighlight
    rw [if_pos hsafe,
      if_neg (fun hc => Bool.false_ne_true (hnomark ▸ hc)), hxp]
    dsimp only
    rw [hrbtq]
  · show resolvedRangeTQ d (createTextQuote d.html r) = some _
    unfold resolvedRangeTQ
    rw [hj]
    dsimp only
    rw [hfta1]
    dsimp only
    rw [hfta2]

/-- `<html><head><title>t</title></head><body><p>abcd</p></body></html>`. -/
def wDoc2 : Document :=
  ⟨20, 0, [], [.elem 8 "head" [] [.elem 9 "title" [] [.text 10 ['t']]]],
    1, [], [.elem 2 "p" [] [.text 3 ['a', 'b', 'c', 'd']]], []⟩

/-- The selection `bc` inside the paragraph of `wDoc2`. -/
def wRng2 : Rng := ⟨[1, 0, 0], 1, [1, 0, 0], 3⟩

theorem claim_C2_witness :
    validRangeB wDoc2.html wRng2 = true ∧
    (∃ d2, restoreHighlight wDoc2 "w" (createLocationInfo wDoc2 wRng2).1
        (createLocationInfo wDoc2 wRng2).2 .agree = .ok (true, d2)) ∧
    (∃ rng, resolvedRangeTQ wDoc2 (createLocationInfo wDoc2 wRng2).2 =
        some rng ∧
      rangeToString wDoc2.html rng = (createLocationInfo wDoc2 wRng2).2.exact) := by
  have h := claim_C2 wDoc2 wRng2 "w" .agree (by decide) ⟨[0, 0], rfl⟩
    ⟨[0, 0], rfl⟩ (by decide) (by decide)
  exact ⟨by decide, h.2.1, h.2.2⟩

end GogoStudio
